import Mathlib

/-!
TÖVE mesh core: fixed-depth and adaptive curve flattening, partition
validation and the triangulation cache.

Shallow embedding of `src/cpp/mesh/flatten.cpp`, `src/cpp/mesh/partition.h`
and `src/cpp/mesh/triangles.cpp`.

Conventions of the embedding:

* a `float` or `double` value is the rational number it denotes (`ℚ`);
  infinities and NaN are not modelled.  In the adaptive flattener and the
  outline builder every arithmetic operation is followed by the rounding into
  its C++ type, taken from the environment `CMath`; the theorems hold for every
  such rounding, and `ieeeMath` is the instance of IEEE binary32/binary64
  arithmetic used for concrete runs.  The constant `eps` of the partition
  validator is the `float` it denotes.  The fixed-depth flattener is embedded
  over exact rational arithmetic.
* `int` values are mathematical integers (signed overflow is undefined
  behaviour in C++ and has no semantics to embed); `uint64_t` values are
  natural numbers reduced modulo `2 ^ 64` where the code increments them.
* functions of `<cmath>` (`sqrt`, `atan2`, the constant `M_PI`), the helper
  `cross` of `utils.h` and the `ClipperPoint` constructor are parameters of
  the definitions using them.
* a failed `assert` is the result `none` (or `Walk.assertFailed`).
* the cache's `std::vector<Triangulation*>` is a list of pointers together
  with the map from pointers to the objects they designate.
-/

namespace Tove

/-! ## Fixed-depth flattener (`flatten.cpp`, lines 406-487) -/

/-- One mesh vertex: the two `float` fields assigned by the flattener. -/
structure Vertex where
  x : ℚ
  y : ℚ
deriving DecidableEq, Repr

/-- The caller-owned vertex range `Vertices`.  `slot` is its content;
`written` records, oldest first, the slots the code has assigned through
`vertices[...]`, so that "which slots are written, in which order" can be
stated. -/
structure Vertices where
  slot : Int → Vertex
  written : List Int

/-- The assignment pair `v.x = x; v.y = y` on `auto &v = vertices[i]`. -/
def Vertices.assign (vs : Vertices) (i : Int) (x y : ℚ) : Vertices :=
  { slot := Function.update vs.slot i ⟨x, y⟩, written := vs.written ++ [i] }

/-- The members `_depth` and `_offset` of `FixedFlattener`. -/
structure FixedFlattener where
  _depth : Int
  _offset : ℚ

/-- `FixedFlattener::flatten(vertices, index, level, x1, ..., y4)`
(flatten.cpp 406-448).  Returns the updated vertex range and the returned
index.  `sqrt` is the `<cmath>` function. -/
def FixedFlattener.flatten (sqrt : ℚ → ℚ) (F : FixedFlattener)
    (vertices : Vertices) (index level : Int)
    (x1 y1 x2 y2 x3 y3 x4 y4 : ℚ) : Vertices × Int :=
  if level ≥ F._depth then
    if F._offset ≠ 0 then
      let dx := x4 - x1
      let dy := y4 - y1
      let s := F._offset / sqrt (dx * dx + dy * dy)
      (vertices.assign index (x4 - s * dy) (y4 + s * dx), index + 1)
    else
      (vertices.assign index x4 y4, index + 1)
  else
    let x12 := (x1 + x2) * (1/2)
    let y12 := (y1 + y2) * (1/2)
    let x23 := (x2 + x3) * (1/2)
    let y23 := (y2 + y3) * (1/2)
    let x34 := (x3 + x4) * (1/2)
    let y34 := (y3 + y4) * (1/2)
    let x123 := (x12 + x23) * (1/2)
    let y123 := (y12 + y23) * (1/2)
    let x234 := (x23 + x34) * (1/2)
    let y234 := (y23 + y34) * (1/2)
    let x1234 := (x123 + x234) * (1/2)
    let y1234 := (y123 + y234) * (1/2)
    let r1 := FixedFlattener.flatten sqrt F vertices index (level + 1)
      x1 y1 x12 y12 x123 y123 x1234 y1234
    FixedFlattener.flatten sqrt F r1.1 r1.2 (level + 1)
      x1234 y1234 x234 y234 x34 y34 x4 y4
termination_by (F._depth - level).toNat
decreasing_by
  all_goals simp_wf
  all_goals omega

/-- The loop `for (int i = 0; i < n; i++)` of the subpath-level
`FixedFlattener::flatten` (flatten.cpp 474-483), run for the `m` remaining
iterations with loop variables `v` and `k`.  `pts` is `path->pts`; `none`
is a failed `assert(v - v0 == verticesPerCurve)`. -/
def FixedFlattener.flattenLoop (sqrt : ℚ → ℚ) (F : FixedFlattener)
    (pts : Nat → ℚ) (verticesPerCurve : Int) :
    Nat → Vertices → Int → Nat → Option (Vertices × Int)
  | 0, vertices, v, _ => some (vertices, v)
  | m + 1, vertices, v, k =>
    let p := fun j => pts (k * 2 + j)
    let v0 := v
    let r := FixedFlattener.flatten sqrt F vertices v 0
      (p 0) (p 1) (p 2) (p 3) (p 4) (p 5) (p 6) (p 7)
    if r.2 - v0 = verticesPerCurve then
      FixedFlattener.flattenLoop sqrt F pts verticesPerCurve m r.1 r.2 (k + 3)
    else
      none

/-- `FixedFlattener::flatten(subpath, mesh, index)` (flatten.cpp 460-487) on
the vertex range `mesh->vertices(index, nvertices)`; `pts` is `path->pts`
and `n` is `ncurves(path->npts)`.  `1 << _depth` is `2 ^ _depth` (the shift
is defined for `0 <= _depth` only).  `none` is a failed assertion. -/
def FixedFlattener.flattenSubpath (sqrt : ℚ → ℚ) (F : FixedFlattener)
    (pts : Nat → ℚ) (n : Nat) (vertices : Vertices) : Option (Vertices × Int) :=
  let verticesPerCurve : Int := 2 ^ F._depth.toNat
  let nvertices : Int := 1 + n * verticesPerCurve
  let vertices := vertices.assign 0 (pts 0) (pts 1)
  match FixedFlattener.flattenLoop sqrt F pts verticesPerCurve n vertices 1 0 with
  | none => none
  | some (vertices, v) =>
    if v = nvertices then some (vertices, nvertices) else none

/-- The slots `index, index + 1, ..., index + c - 1`, in increasing order. -/
def slotRange (index : Int) (c : Nat) : List Int :=
  (List.range c).map (fun (k : Nat) => index + (k : Int))

/-! ## Partition validator (`partition.h`) -/

/-- `typedef std::vector<uint16_t> Indices`. -/
abbrev Indices := List Nat

/-- `struct Part`.  The cursor `fail` is only ever assigned `0` or a loop
index of `check`, so it is a natural number here. -/
structure Part where
  outline : Indices
  fail : Nat
deriving DecidableEq, Repr

/-- `class Partition`: the vector `parts`. -/
structure Partition where
  parts : List Part
deriving DecidableEq, Repr

/-- The vertex `vertices[outline[i]]`. -/
def vertexAt (vertices : Vertices) (outline : Indices) (i : Nat) : Vertex :=
  vertices.slot ((outline.getD i 0 : Nat) : Int)

/-- Modelled from the spec: `find_unequal_forward` is declared in `utils.h`,
which is not among the sources.  It returns the first cyclically later index
of the outline whose vertex differs from the vertex at `i`, or `i` itself when
no vertex of the outline differs. -/
def find_unequal_forward (vertices : Vertices) (outline : Indices) (i n : Nat) : Nat :=
  match (List.range' 1 (n - 1)).find?
      (fun d => decide (vertexAt vertices outline ((i + d) % n) ≠ vertexAt vertices outline i)) with
  | some d => (i + d) % n
  | none => i

/-- Outcome of the `do ... while (k < n)` walk over one part. -/
inductive Walk where
  /-- `assert(i >= 0 && i < n)` failed. -/
  | assertFailed : Walk
  /-- `area > eps` for the triple starting at index `i`. -/
  | fails (i : Nat) : Walk
  /-- The loop ended with `k >= n`. -/
  | passes : Walk
deriving DecidableEq, Repr

/-- The constant `const float eps = 0.1` of `Partition::check` (partition.h
84): the `float` nearest to the decimal 0.1, which is `13421773 / 2 ^ 27` and
lies slightly above `1 / 10`. -/
def Partition.eps : ℚ := 13421773 / 134217728

/-- The signed area `cross(p0, p1, p2)` of the triple starting at index `i`
(partition.h 74-82); `cross` is the helper of `utils.h`. -/
def tripleArea (cross : ℚ → ℚ → ℚ → ℚ → ℚ → ℚ → ℚ) (vertices : Vertices)
    (outline : Indices) (n i : Nat) : ℚ :=
  let p0 := vertexAt vertices outline i
  let i1 := find_unequal_forward vertices outline i n
  let p1 := vertexAt vertices outline i1
  let i2 := find_unequal_forward vertices outline i1 n
  let p2 := vertexAt vertices outline i2
  cross p0.x p0.y p1.x p1.y p2.x p2.y

/-- The `do ... while (k < n)` loop of `Partition::check` (partition.h 72-102)
entered with loop variables `i` and `k`. -/
def Partition.walk (cross : ℚ → ℚ → ℚ → ℚ → ℚ → ℚ → ℚ) (vertices : Vertices)
    (outline : Indices) (n i k : Nat) : Walk :=
  if i < n then
    let i1 := find_unequal_forward vertices outline i n
    let area := tripleArea cross vertices outline n i
    let eps : ℚ := Partition.eps
    if area > eps then
      Walk.fails i
    else
      let k1 := if i1 > i then k + (i1 - i) else k + ((n - i) + i1)
      if k1 < n then Partition.walk cross vertices outline n i1 k1 else Walk.passes
  else
    Walk.assertFailed
termination_by n - k
decreasing_by
  simp_wf
  rename_i hk
  have hk1 : (if find_unequal_forward vertices outline i n > i
      then k + (find_unequal_forward vertices outline i n - i)
      else k + ((n - i) + find_unequal_forward vertices outline i n)) < n := hk
  split at hk1 <;> split <;> omega

/-- The two `std::swap` calls on `parts[j]` and `parts[0]` (partition.h 89-90):
both fields change places, so the two parts do. -/
def swapParts (parts : List Part) (j : Nat) : List Part :=
  match parts[j]?, parts[0]? with
  | some pj, some p0 => (parts.set j p0).set 0 pj
  | _, _ => parts

/-- The loop `for (int j = 0; j < nparts; j++)` of `Partition::check`
(partition.h 63-103) entered with loop variable `j`.  `none` is a failed
assertion; otherwise the returned flag and the parts after the call. -/
def Partition.checkParts (cross : ℚ → ℚ → ℚ → ℚ → ℚ → ℚ → ℚ) (vertices : Vertices)
    (parts : List Part) (j : Nat) : Option (Bool × List Part) :=
  if h : j < parts.length then
    let part := parts[j]
    let outline := part.outline
    let n := outline.length
    match Partition.walk cross vertices outline n part.fail 0 with
    | Walk.assertFailed => none
    | Walk.fails i =>
      let parts1 := parts.set j { part with fail := i }
      some (false, if j ≠ 0 then swapParts parts1 j else parts1)
    | Walk.passes => Partition.checkParts cross vertices parts (j + 1)
  else
    some (true, parts)
termination_by parts.length - j

/-- `Partition::check` (partition.h 56-106). -/
def Partition.check (cross : ℚ → ℚ → ℚ → ℚ → ℚ → ℚ → ℚ) (P : Partition)
    (vertices : Vertices) : Option (Bool × Partition) :=
  let nparts := P.parts.length
  if nparts = 0 then
    some (false, P)
  else
    match Partition.checkParts cross vertices P.parts 0 with
    | none => none
    | some (b, parts) => some (b, ⟨parts⟩)

/-- A freshly built `Partition` (constructor, partition.h 34-50): every
cursor is `0`. -/
def Partition.Fresh (P : Partition) : Prop :=
  ∀ part ∈ P.parts, part.fail = 0

/-- Representation invariant of a `Partition` that has parts: no outline is
empty and every cursor is an index of its outline. -/
def Partition.WF (P : Partition) : Prop :=
  ∀ part ∈ P.parts, part.fail < part.outline.length

/-! ## Triangulation cache (`triangles.cpp`) -/

/-- The fields of `Triangulation` used by the cache.  `useCount` is a
`uint64_t`. -/
structure Triangulation where
  partition : Partition
  useCount : Nat
  keyframe : Bool
deriving DecidableEq, Repr

/-- A `Triangulation*`. -/
abbrev Ptr := Nat

/-- `class TriangleCache`: the vector `triangulations` of owned pointers, the
index `current`, and the objects the pointers designate. -/
structure TriangleCache where
  triangulations : List Ptr
  current : Int
  heap : Ptr → Triangulation

/-- `std::numeric_limits<uint64_t>::max()`. -/
def UINT64_MAX : Nat := 2 ^ 64 - 1

/-- The loop of `TriangleCache::evict` (triangles.cpp 83-92) over the
remaining entries, entered with loop variable `i` and the pair
`(minCount, minIndex)`. -/
def TriangleCache.evictLoop (heap : Ptr → Triangulation) :
    List Ptr → Int → Nat × Int → Nat × Int
  | [], _, acc => acc
  | t :: rest, i, (minCount, minIndex) =>
    if ¬ (heap t).keyframe then
      let count := (heap t).useCount
      if count < minCount then
        TriangleCache.evictLoop heap rest (i + 1) (count, i)
      else
        TriangleCache.evictLoop heap rest (i + 1) (minCount, minIndex)
    else
      TriangleCache.evictLoop heap rest (i + 1) (minCount, minIndex)

/-- `TriangleCache::evict` (triangles.cpp 79-98). -/
def TriangleCache.evict (c : TriangleCache) : TriangleCache :=
  let r := TriangleCache.evictLoop c.heap c.triangulations 0 (UINT64_MAX, -1)
  let minIndex := r.2
  if minIndex ≥ 0 then
    let triangulations := c.triangulations.eraseIdx minIndex.toNat
    { c with
      triangulations := triangulations
      current := min c.current ((triangulations.length : Int) - 1) }
  else
    c

/-- The object behind pointer `p` with its `partition` member replaced. -/
def TriangleCache.setPartition (c : TriangleCache) (p : Ptr) (P : Partition) :
    TriangleCache :=
  let t := c.heap p
  { c with heap := Function.update c.heap p { t with partition := P } }

/-- The object behind pointer `p` after `useCount++` on its `uint64_t`
counter. -/
def TriangleCache.incUseCount (c : TriangleCache) (p : Ptr) : TriangleCache :=
  let t := c.heap p
  { c with heap := Function.update c.heap p { t with useCount := (t.useCount + 1) % 2 ^ 64 } }

/-- The call `triangulations[idx]->partition.check(vertices)`: the flag and
the cache with the checked partition updated in place.  `none` is a failed
assertion inside the partition check or an index outside the vector. -/
def TriangleCache.checkAt (cross : ℚ → ℚ → ℚ → ℚ → ℚ → ℚ → ℚ) (vertices : Vertices)
    (c : TriangleCache) (idx : Int) : Option (Bool × TriangleCache) :=
  if idx < 0 then none
  else
    match c.triangulations[idx.toNat]? with
    | none => none
    | some p =>
      match (c.heap p).partition.check cross vertices with
      | none => none
      | some (b, P) =>
        some (b, c.setPartition p P)

/-- The statement `triangulations[current]->useCount++` on a `uint64_t`. -/
def TriangleCache.bumpUseCount (c : TriangleCache) : TriangleCache :=
  match c.triangulations[c.current.toNat]? with
  | none => c
  | some p =>
    c.incUseCount p

/-- The call `std::swap(triangulations[a], triangulations[b])`. -/
def TriangleCache.swap (c : TriangleCache) (a b : Int) : TriangleCache :=
  match c.triangulations[a.toNat]?, c.triangulations[b.toNat]? with
  | some pa, some pb =>
    { c with triangulations := (c.triangulations.set a.toNat pb).set b.toNat pa }
  | _, _ => c

/-- The forward half of one search iteration (triangles.cpp 114-125): the
flag says whether the function returned `true` here. -/
def TriangleCache.tryForward (cross : ℚ → ℚ → ℚ → ℚ → ℚ → ℚ → ℚ) (vertices : Vertices)
    (c : TriangleCache) (n i : Int) : Option (Bool × TriangleCache) :=
  if c.current + i < n then
    let forward := (c.current + i).tmod n
    match c.checkAt cross vertices forward with
    | none => none
    | some (true, c1) =>
      let c2 := c1.swap ((c1.current + 1).tmod n) forward
      let c3 := { c2 with current := (c2.current + 1).tmod n }
      some (true, c3.bumpUseCount)
    | some (false, c1) => some (false, c1)
  else
    some (false, c)

/-- The backward half of one search iteration (triangles.cpp 127-138). -/
def TriangleCache.tryBackward (cross : ℚ → ℚ → ℚ → ℚ → ℚ → ℚ → ℚ) (vertices : Vertices)
    (c : TriangleCache) (n i : Int) : Option (Bool × TriangleCache) :=
  if c.current - i ≥ 0 then
    let backward := (c.current + n - i).tmod n
    match c.checkAt cross vertices backward with
    | none => none
    | some (true, c1) =>
      let c2 := c1.swap ((c1.current + n - 1).tmod n) backward
      let c3 := { c2 with current := (c2.current + n - 1).tmod n }
      some (true, c3.bumpUseCount)
    | some (false, c1) => some (false, c1)
  else
    some (false, c)

/-- The loop `for (int i = 1; i <= k; i++)` of `TriangleCache::check`
(triangles.cpp 113-141) entered with loop variable `i`.  The result is the
returned flag, the cache and `trianglesChanged` after the call. -/
def TriangleCache.search (cross : ℚ → ℚ → ℚ → ℚ → ℚ → ℚ → ℚ) (vertices : Vertices)
    (n k : Int) (c : TriangleCache) (trianglesChanged : Bool) (i : Int) :
    Option (Bool × TriangleCache × Bool) :=
  if i ≤ k then
    match c.tryForward cross vertices n i with
    | none => none
    | some (true, c1) => some (true, c1, true)
    | some (false, c1) =>
      match c1.tryBackward cross vertices n i with
      | none => none
      | some (true, c2) => some (true, c2, true)
      | some (false, c2) =>
        TriangleCache.search cross vertices n k c2 trianglesChanged (i + 1)
  else
    some (false, c, trianglesChanged)
termination_by (k + 1 - i).toNat
decreasing_by
  all_goals simp_wf
  all_goals omega

/-- `TriangleCache::check(vertices, trianglesChanged)` (triangles.cpp
100-142).  `trianglesChanged` is the `bool &` argument as the caller passes
it; the result is the returned flag, the cache and `trianglesChanged` after
the call.  `none` is a failed assertion. -/
def TriangleCache.check (cross : ℚ → ℚ → ℚ → ℚ → ℚ → ℚ → ℚ) (c : TriangleCache)
    (vertices : Vertices) (trianglesChanged : Bool) :
    Option (Bool × TriangleCache × Bool) :=
  let n : Int := c.triangulations.length
  if n = 0 then
    some (false, c, trianglesChanged)
  else if ¬ (c.current < n) then
    none
  else
    match c.checkAt cross vertices c.current with
    | none => none
    | some (true, c1) => some (true, c1.bumpUseCount, trianglesChanged)
    | some (false, c1) =>
      let k := max c1.current (n - c1.current)
      TriangleCache.search cross vertices n k c1 trianglesChanged 1


/-! ## Adaptive flattener (`flatten.cpp`, lines 21-265) -/

/-- The floating-point environment of the adaptive flattener and the outline
builder.  A value of type `float` or `double` is the rational it denotes, and
the result of an arithmetic operation is the exact result rounded into the type
of the operation: by `float` for an operation on two `float` operands and for a
conversion to `float`, by `double` for an operation with a `double` operand
(for IEEE arithmetic, rounding to the nearest binary32, respectively binary64
number).  `tolerance` rounds into the type of the tolerance members of
`AdaptiveFlattener`, and `angle` into the type of the value of `atan2`; both
types are fixed by headers that are not among the sources.  `atan2` and `M_PI`
are the items of `<cmath>`, and `squareDistance` is the helper of `utils.h`. -/
structure CMath where
  float : ℚ → ℚ
  double : ℚ → ℚ
  tolerance : ℚ → ℚ
  angle : ℚ → ℚ
  atan2 : ℚ → ℚ → ℚ
  M_PI : ℚ
  squareDistance : ℚ → ℚ → ℚ → ℚ → ℚ

/-- The fields of `ToveTesselationQuality` read by the constructor. -/
structure ToveTesselationQuality where
  distanceTolerance : ℚ
  colinearityEpsilon : ℚ
  angleEpsilon : ℚ
  angleTolerance : ℚ
  cuspLimit : ℚ
  recursionLimit : Int

/-- The members of `AdaptiveFlattener`. -/
structure AdaptiveFlattener where
  scale : ℚ
  distanceTolerance : ℚ
  colinearityEpsilon : ℚ
  angleEpsilon : ℚ
  angleTolerance : ℚ
  cuspLimit : ℚ
  recursionLimit : Int
  distanceToleranceSquare : ℚ

/-- The constructor `AdaptiveFlattener::AdaptiveFlattener(scale, quality)`
(flatten.cpp 21-44); `none` is a null `quality`, and `MAX_FLATTEN_RECURSIONS`
is the constant of the missing header.  The literals `0.5`, `0.01`, `0.0` and
the product `distanceTolerance * distanceTolerance` are rounded into the type
of the members. -/
def AdaptiveFlattener.new (M : CMath) (MAX_FLATTEN_RECURSIONS : Int) (scale : ℚ)
    (quality : Option ToveTesselationQuality) : AdaptiveFlattener :=
  match quality with
  | some q =>
    { scale := scale
      distanceTolerance := q.distanceTolerance
      colinearityEpsilon := q.colinearityEpsilon
      angleEpsilon := q.angleEpsilon
      angleTolerance := q.angleTolerance
      cuspLimit := q.cuspLimit
      recursionLimit := min MAX_FLATTEN_RECURSIONS q.recursionLimit
      distanceToleranceSquare := M.tolerance (q.distanceTolerance * q.distanceTolerance) }
  | none =>
    { scale := scale
      distanceTolerance := M.tolerance (1 / 2)
      colinearityEpsilon := M.tolerance (1 / 2)
      angleEpsilon := M.tolerance (1 / 100)
      angleTolerance := M.tolerance 0
      cuspLimit := M.tolerance 0
      recursionLimit := 8
      distanceToleranceSquare := M.tolerance (M.tolerance (1 / 2) * M.tolerance (1 / 2)) }

/-- Modelled from the spec: `squareDistance` is declared in `utils.h`, which
is not among the sources; it is the squared point-to-point distance.  This is
its exact value, used for concrete runs; the definitions below take the helper
from the environment. -/
def squareDistance (x1 y1 x2 y2 : ℚ) : ℚ :=
  (x2 - x1) * (x2 - x1) + (y2 - y1) * (y2 - y1)

/-- The body of `case 0` of the switch (flatten.cpp 97-145); `some` is a
`return` with the resulting points, `none` is the `break`.  `dx` and `dy` are
the `double` variables of flatten.cpp 87-88, holding `float` differences. -/
def AdaptiveFlattener.caseCollinear {P : Type} (M : CMath) (ClipperPoint : ℚ → ℚ → P)
    (A : AdaptiveFlattener) (x1 y1 x2 y2 x3 y3 x4 y4 : ℚ) (points : List P) :
    Option (List P) :=
  let dx := M.float (x4 - x1)
  let dy := M.float (y4 - y1)
  let k := M.double (M.double (dx * dx) + M.double (dy * dy))
  let tail := fun (d2 d3 : ℚ) =>
    if d2 > d3 then
      if d2 < A.distanceToleranceSquare then some (points ++ [ClipperPoint x2 y2]) else none
    else
      if d3 < A.distanceToleranceSquare then some (points ++ [ClipperPoint x3 y3]) else none
  if k = 0 then
    let d2 := M.squareDistance x1 y1 x2 y2
    let d3 := M.squareDistance x4 y4 x3 y3
    tail d2 d3
  else
    let k := M.double (1 / k)
    let da1 := M.float (x2 - x1)
    let da2 := M.float (y2 - y1)
    let d2 := M.double (k * M.double (M.double (da1 * dx) + M.double (da2 * dy)))
    let da1 := M.float (x3 - x1)
    let da2 := M.float (y3 - y1)
    let d3 := M.double (k * M.double (M.double (da1 * dx) + M.double (da2 * dy)))
    if d2 > 0 ∧ d2 < 1 ∧ d3 > 0 ∧ d3 < 1 then
      some points
    else
      let d2 :=
        if d2 ≤ 0 then M.squareDistance x2 y2 x1 y1
        else if d2 ≥ 1 then M.squareDistance x2 y2 x4 y4
        else M.squareDistance x2 y2
          (M.double (x1 + M.double (d2 * dx))) (M.double (y1 + M.double (d2 * dy)))
      let d3 :=
        if d3 ≤ 0 then M.squareDistance x3 y3 x1 y1
        else if d3 ≥ 1 then M.squareDistance x3 y3 x4 y4
        else M.squareDistance x3 y3
          (M.double (x1 + M.double (d3 * dx))) (M.double (y1 + M.double (d3 * dy)))
      tail d2 d3

/-- The switch of `AdaptiveFlattener::recursive` (flatten.cpp 94-261), with
the variables `x23`, `y23`, `dx`, `dy`, `d2`, `d3` it reads (flatten.cpp 73-74
and 87-91); `some` is a `return` with the resulting points, `none` is a
`break`.  The parameters are `float`s: `x2 + x3`, `(x2 + x3) / 2`, `x4 - x1`,
`x2 - x4` and the arguments of `atan2` are `float` operations, all other
operations are `double` operations. -/
def AdaptiveFlattener.switchCase {P : Type} (M : CMath) (ClipperPoint : ℚ → ℚ → P)
    (A : AdaptiveFlattener) (x1 y1 x2 y2 x3 y3 x4 y4 : ℚ) (points : List P) :
    Option (List P) :=
  let x23 := M.float (M.float (x2 + x3) / 2)
  let y23 := M.float (M.float (y2 + y3) / 2)
  let dx := M.float (x4 - x1)
  let dy := M.float (y4 - y1)
  let d2 := abs (M.double (M.double (M.float (x2 - x4) * dy) - M.double (M.float (y2 - y4) * dx)))
  let d3 := abs (M.double (M.double (M.float (x3 - x4) * dy) - M.double (M.float (y3 - y4) * dx)))
  match decide (d2 > A.colinearityEpsilon), decide (d3 > A.colinearityEpsilon) with
  | false, false =>
    A.caseCollinear M ClipperPoint x1 y1 x2 y2 x3 y3 x4 y4 points
  | false, true =>
    if M.double (d3 * d3)
        ≤ M.double (A.distanceToleranceSquare
            * M.double (M.double (dx * dx) + M.double (dy * dy))) then
      if A.angleTolerance < A.angleEpsilon then
        some (points ++ [ClipperPoint x23 y23])
      else
        let da1 := abs (M.angle (M.atan2 (M.float (y4 - y3)) (M.float (x4 - x3))
          - M.atan2 (M.float (y3 - y2)) (M.float (x3 - x2))))
        let da1 := if da1 ≥ M.M_PI then M.double (M.double (2 * M.M_PI) - da1) else da1
        if da1 < A.angleTolerance then
          some ((points ++ [ClipperPoint x2 y2]) ++ [ClipperPoint x3 y3])
        else if A.cuspLimit ≠ 0 then
          if da1 > A.cuspLimit then some (points ++ [ClipperPoint x3 y3]) else none
        else
          none
    else
      none
  | true, false =>
    if M.double (d2 * d2)
        ≤ M.double (A.distanceToleranceSquare
            * M.double (M.double (dx * dx) + M.double (dy * dy))) then
      if A.angleTolerance < A.angleEpsilon then
        some (points ++ [ClipperPoint x23 y23])
      else
        let da1 := abs (M.angle (M.atan2 (M.float (y3 - y2)) (M.float (x3 - x2))
          - M.atan2 (M.float (y2 - y1)) (M.float (x2 - x1))))
        let da1 := if da1 ≥ M.M_PI then M.double (M.double (2 * M.M_PI) - da1) else da1
        if da1 < A.angleTolerance then
          some ((points ++ [ClipperPoint x2 y2]) ++ [ClipperPoint x3 y3])
        else if A.cuspLimit ≠ 0 then
          if da1 > A.cuspLimit then some (points ++ [ClipperPoint x2 y2]) else none
        else
          none
    else
      none
  | true, true =>
    if M.double (M.double (d2 + d3) * M.double (d2 + d3))
        ≤ M.double (A.distanceToleranceSquare
            * M.double (M.double (dx * dx) + M.double (dy * dy))) then
      if A.angleTolerance < A.angleEpsilon then
        some (points ++ [ClipperPoint x23 y23])
      else
        let k := M.atan2 (M.float (y3 - y2)) (M.float (x3 - x2))
        let da1 := abs (M.double (k - M.atan2 (M.float (y2 - y1)) (M.float (x2 - x1))))
        let da2 := abs (M.double (M.atan2 (M.float (y4 - y3)) (M.float (x4 - x3)) - k))
        let da1 := if da1 ≥ M.M_PI then M.double (M.double (2 * M.M_PI) - da1) else da1
        let da2 := if da2 ≥ M.M_PI then M.double (M.double (2 * M.M_PI) - da2) else da2
        if M.double (da1 + da2) < A.angleTolerance then
          some (points ++ [ClipperPoint x23 y23])
        else if A.cuspLimit ≠ 0 then
          if da1 > A.cuspLimit then some (points ++ [ClipperPoint x2 y2])
          else if da2 > A.cuspLimit then some (points ++ [ClipperPoint x3 y3])
          else none
        else
          none
    else
      none

/-- `AdaptiveFlattener::recursive` (flatten.cpp 56-265): the points after
the call.  `ClipperPoint` is the point constructor of the polygon library.
The mid-points `x12`, ..., `y34` of the `float` parameters are `float` results
held in `double` variables, the mid-points `x123`, ..., `y1234` are `double`
results, and the `double` arguments of the two recursive calls are converted
to the `float` parameters. -/
def AdaptiveFlattener.recursive {P : Type} (M : CMath) (ClipperPoint : ℚ → ℚ → P)
    (A : AdaptiveFlattener) (x1 y1 x2 y2 x3 y3 x4 y4 : ℚ) (points : List P)
    (level : Int) : List P :=
  if level > A.recursionLimit then
    points ++ [ClipperPoint x4 y4]
  else
    let x12 := M.float (M.float (x1 + x2) / 2)
    let y12 := M.float (M.float (y1 + y2) / 2)
    let x23 := M.float (M.float (x2 + x3) / 2)
    let y23 := M.float (M.float (y2 + y3) / 2)
    let x34 := M.float (M.float (x3 + x4) / 2)
    let y34 := M.float (M.float (y3 + y4) / 2)
    let x123 := M.double (M.double (x12 + x23) / 2)
    let y123 := M.double (M.double (y12 + y23) / 2)
    let x234 := M.double (M.double (x23 + x34) / 2)
    let y234 := M.double (M.double (y23 + y34) / 2)
    let x1234 := M.double (M.double (x123 + x234) / 2)
    let y1234 := M.double (M.double (y123 + y234) / 2)
    match A.switchCase M ClipperPoint x1 y1 x2 y2 x3 y3 x4 y4 points with
    | some r => r
    | none =>
      let points := AdaptiveFlattener.recursive M ClipperPoint A
        x1 y1 (M.float x12) (M.float y12) (M.float x123) (M.float y123)
        (M.float x1234) (M.float y1234) points (level + 1)
      AdaptiveFlattener.recursive M ClipperPoint A
        (M.float x1234) (M.float y1234) (M.float x234) (M.float y234)
        (M.float x34) (M.float y34) x4 y4 points (level + 1)
termination_by (A.recursionLimit + 1 - level).toNat
decreasing_by
  all_goals simp_wf
  all_goals omega

/-- The per-curve `AdaptiveFlattener::flatten` (flatten.cpp 46-54): the
points after the call. -/
def AdaptiveFlattener.flatten {P : Type} (M : CMath) (ClipperPoint : ℚ → ℚ → P)
    (A : AdaptiveFlattener) (x1 y1 x2 y2 x3 y3 x4 y4 : ℚ) (points : List P) : List P :=
  let points := points ++ [ClipperPoint x1 y1]
  let points := AdaptiveFlattener.recursive M ClipperPoint A
    x1 y1 x2 y2 x3 y3 x4 y4 points 0
  points ++ [ClipperPoint x4 y4]


/-! ## Notions used to state the properties -/

/-- All triples of an outline have signed area at most `eps`, the `float`
constant `0.1` of `Partition::check`. -/
def AllTriplesConvex (cross : ℚ → ℚ → ℚ → ℚ → ℚ → ℚ → ℚ) (vertices : Vertices)
    (outline : Indices) : Prop :=
  ∀ i, i < outline.length →
    tripleArea cross vertices outline outline.length i ≤ Partition.eps

/-- A signed-area function, used for concrete instances: twice the signed
area of the triangle `p0 p1 p2`. -/
def signedArea (x0 y0 x1 y1 x2 y2 : ℚ) : ℚ :=
  (x1 - x0) * (y2 - y0) - (y1 - y0) * (x2 - x0)

/-- A vertex buffer holding the corners `(0,0)`, `(0,1)`, `(1,0)` in slots
0, 1, 2 (and `(1,0)` elsewhere). -/
def cornerVertices : Vertices :=
  ⟨fun i => if i = 0 then ⟨0, 0⟩ else if i = 1 then ⟨0, 1⟩ else ⟨1, 0⟩, []⟩

/-- A fresh one-part partition over the slots 0, 1, 2. -/
def cornerPartition : Partition := ⟨[⟨[0, 1, 2], 0⟩]⟩


/-- Whether `Partition::check` returns `true` on `P` for the vertex buffer. -/
def Partition.validates (cross : ℚ → ℚ → ℚ → ℚ → ℚ → ℚ → ℚ) (vertices : Vertices)
    (P : Partition) : Bool :=
  match P.check cross vertices with
  | some (true, _) => true
  | _ => false

/-- Representation invariant of a cache: the owned pointers are pairwise
distinct and every stored partition satisfies `Partition.WF`. -/
def TriangleCache.WF (c : TriangleCache) : Prop :=
  c.triangulations.Nodup ∧ ∀ p ∈ c.triangulations, (c.heap p).partition.WF

/-- The list `l` with the elements at positions `a` and `b` exchanged. -/
def swapAt (l : List Ptr) (a b : Nat) : List Ptr :=
  match l[a]?, l[b]? with
  | some pa, some pb => (l.set a pb).set b pa
  | _, _ => l

/-- Distance of index `j` from index `current`. -/
def ringDistance (current j : Int) : Int :=
  if current ≤ j then j - current else current - j

/-- Index `j` comes before index `j'` in the search order "distance 1
forward, 1 backward, 2 forward, 2 backward, ..." around `current` (the
current index itself, at distance 0, comes first). -/
def searchedBefore (current j j' : Int) : Prop :=
  ringDistance current j < ringDistance current j' ∨
  (ringDistance current j = ringDistance current j' ∧ current < j ∧ j' < current)

/-- State of the search after the entries in `checked` have been examined
without success, relative to the cache `c0` at entry: order, current index,
use counters and keyframe flags are as at entry, unexamined entries still
hold their partition, and no examined entry validates. -/
def SearchInv (cross : ℚ → ℚ → ℚ → ℚ → ℚ → ℚ → ℚ) (vertices : Vertices)
    (c0 c : TriangleCache) (checked : Nat → Prop) : Prop :=
  c.triangulations = c0.triangulations ∧ c.current = c0.current ∧
  (∀ p, (c.heap p).useCount = (c0.heap p).useCount ∧
    (c.heap p).keyframe = (c0.heap p).keyframe) ∧
  (∀ j, ∀ h : j < c0.triangulations.length, ¬ checked j →
    (c.heap (c0.triangulations[j])).partition = (c0.heap (c0.triangulations[j])).partition) ∧
  (∀ j, ∀ h : j < c0.triangulations.length, checked j →
    (c0.heap (c0.triangulations[j])).partition.validates cross vertices = false)


/-- The search ended without a match: the flag is `false`,
`trianglesChanged` is as passed in, order, current index, use counters and
keyframe flags are as in `c0`, and no entry of `c0` validates. -/
def SearchMiss (cross : ℚ → ℚ → ℚ → ℚ → ℚ → ℚ → ℚ) (vertices : Vertices)
    (c0 : TriangleCache) (tc : Bool) (r : Bool × TriangleCache × Bool) : Prop :=
  r.1 = false ∧ r.2.2 = tc ∧
  r.2.1.triangulations = c0.triangulations ∧ r.2.1.current = c0.current ∧
  (∀ p, (r.2.1.heap p).useCount = (c0.heap p).useCount ∧
    (r.2.1.heap p).keyframe = (c0.heap p).keyframe) ∧
  ∀ j, ∀ h : j < c0.triangulations.length,
    (c0.heap (c0.triangulations[j])).partition.validates cross vertices = false

/-- The search matched the entry at index `j` of `c0`: it validates, no entry
earlier in search order does, the flag and `trianglesChanged` are `true`, the
current index moved one step towards `j`, the entry sits at the new current
index after one exchange, and only its use counter changed (by one, modulo
`2 ^ 64`). -/
def SearchHit (cross : ℚ → ℚ → ℚ → ℚ → ℚ → ℚ → ℚ) (vertices : Vertices)
    (c0 : TriangleCache) (r : Bool × TriangleCache × Bool) (j : Nat) : Prop :=
  ∃ h : j < c0.triangulations.length,
    (c0.heap (c0.triangulations[j])).partition.validates cross vertices = true ∧
    (∀ j', ∀ h' : j' < c0.triangulations.length, searchedBefore c0.current j' j →
      (c0.heap (c0.triangulations[j'])).partition.validates cross vertices = false) ∧
    r.1 = true ∧ r.2.2 = true ∧
    r.2.1.current = (if c0.current < j then c0.current + 1 else c0.current - 1) ∧
    r.2.1.triangulations = swapAt c0.triangulations r.2.1.current.toNat j ∧
    r.2.1.triangulations[r.2.1.current.toNat]? = some (c0.triangulations[j]) ∧
    (r.2.1.heap (c0.triangulations[j])).useCount
      = ((c0.heap (c0.triangulations[j])).useCount + 1) % 2 ^ 64 ∧
    (∀ p, p ≠ c0.triangulations[j] → (r.2.1.heap p).useCount = (c0.heap p).useCount) ∧
    (∀ p, (r.2.1.heap p).keyframe = (c0.heap p).keyframe)


/-- A default-constructed `Partition` (no parts). -/
def emptyPartition : Partition := ⟨[]⟩

/-- A fresh partition with the single part `[0]`. -/
def pointPartition : Partition := ⟨[⟨[0], 0⟩]⟩

/-- Heap of a two-entry cache: pointer 0 holds an entry that does not
validate, pointer 1 (and every other pointer) an entry that validates and
whose use counter is at the `uint64_t` maximum. -/
def wrapHeap : Ptr → Triangulation :=
  fun p => if p = 0 then ⟨emptyPartition, 0, false⟩ else ⟨pointPartition, UINT64_MAX, false⟩

/-- Two cached entries, the current one (index 0) not validating. -/
def wrapCache : TriangleCache := ⟨[0, 1], 0, wrapHeap⟩

/-- One cached entry, which validates and whose use counter is at the
`uint64_t` maximum. -/
def singleCache : TriangleCache := ⟨[1], 0, wrapHeap⟩


/-- The four control points lie on one line: every triple of them spans zero
area. -/
def Collinear4 (x1 y1 x2 y2 x3 y3 x4 y4 : ℚ) : Prop :=
  signedArea x1 y1 x2 y2 x3 y3 = 0 ∧ signedArea x1 y1 x2 y2 x4 y4 = 0 ∧
  signedArea x1 y1 x3 y3 x4 y4 = 0 ∧ signedArea x2 y2 x3 y3 x4 y4 = 0

/-- The squared length of the chord `P1 P4` as the flattener computes it
(`dx*dx + dy*dy` of flatten.cpp 100, 150, 184, 218). -/
def chordLengthSquare (M : CMath) (x1 y1 x4 y4 : ℚ) : ℚ :=
  let dx := M.float (x4 - x1)
  let dy := M.float (y4 - y1)
  M.double (M.double (dx * dx) + M.double (dy * dy))

/-- Parameter of the projection of `(x, y)` onto the chord from `(x1, y1)` to
`(x4, y4)` as the flattener computes it when the computed squared chord length
is not zero (`d2`, `d3` of flatten.cpp 108-114): near `0` at the start point,
near `1` at the end point. -/
def chordParameter (M : CMath) (x1 y1 x4 y4 x y : ℚ) : ℚ :=
  let dx := M.float (x4 - x1)
  let dy := M.float (y4 - y1)
  let k := M.double (M.double (dx * dx) + M.double (dy * dy))
  let k := M.double (1 / k)
  let da1 := M.float (x - x1)
  let da2 := M.float (y - y1)
  M.double (k * M.double (M.double (da1 * dx) + M.double (da2 * dy)))

/-- No two consecutive points of the sequence are equal. -/
def NoEqualConsecutive {P : Type} (l : List P) : Prop :=
  List.Chain' (fun a b => a ≠ b) l

/-- An environment for concrete runs: no operation rounds, `squareDistance` is
the squared distance, and `atan2` is constantly `0` (the runs below have
`angleTolerance < angleEpsilon`, so that `atan2` is not called).  Where a run
is to show what IEEE arithmetic computes, the values it meets are exactly
representable, which is noted at the run. -/
def plainMath : CMath :=
  { float := fun q => q
    double := fun q => q
    tolerance := fun q => q
    angle := fun q => q
    atan2 := fun _ _ => 0
    M_PI := 355 / 113
    squareDistance := squareDistance }

/-- The flattener built by the constructor from a null `quality`, at scale 1. -/
def defaultFlattener : AdaptiveFlattener := AdaptiveFlattener.new plainMath 8 1 none

/-- The flattener built by the constructor from the default tolerances with
the given `recursionLimit` and `colinearityEpsilon`. -/
def tunedFlattener (recursionLimit : Int) (colinearityEpsilon : ℚ) : AdaptiveFlattener :=
  AdaptiveFlattener.new plainMath 8 1
    (some ⟨1 / 2, colinearityEpsilon, 1 / 100, 0, 0, recursionLimit⟩)


/-- Deviation of the control point `(x, y)` from the chord `P1 P4` as the
flattener computes it (`d2`, `d3` of flatten.cpp 90-91). -/
def chordDeviation (M : CMath) (x1 y1 x4 y4 x y : ℚ) : ℚ :=
  let dx := M.float (x4 - x1)
  let dy := M.float (y4 - y1)
  abs (M.double (M.double (M.float (x - x4) * dy) - M.double (M.float (y - y4) * dx)))

/-- Whether some call of the subdivision started at `level` reaches the
switch with neither `d2` nor `d3` above `colinearityEpsilon`, that is, takes
the all-collinear branch (`case 0`). -/
def AdaptiveFlattener.takesCollinear (M : CMath) (A : AdaptiveFlattener)
    (x1 y1 x2 y2 x3 y3 x4 y4 : ℚ) (level : Int) : Bool :=
  if level > A.recursionLimit then
    false
  else if ¬ chordDeviation M x1 y1 x4 y4 x2 y2 > A.colinearityEpsilon ∧
      ¬ chordDeviation M x1 y1 x4 y4 x3 y3 > A.colinearityEpsilon then
    true
  else
    let x12 := M.float (M.float (x1 + x2) / 2)
    let y12 := M.float (M.float (y1 + y2) / 2)
    let x23 := M.float (M.float (x2 + x3) / 2)
    let y23 := M.float (M.float (y2 + y3) / 2)
    let x34 := M.float (M.float (x3 + x4) / 2)
    let y34 := M.float (M.float (y3 + y4) / 2)
    let x123 := M.double (M.double (x12 + x23) / 2)
    let y123 := M.double (M.double (y12 + y23) / 2)
    let x234 := M.double (M.double (x23 + x34) / 2)
    let y234 := M.double (M.double (y23 + y34) / 2)
    let x1234 := M.double (M.double (x123 + x234) / 2)
    let y1234 := M.double (M.double (y123 + y234) / 2)
    match A.switchCase M (fun _ _ => ()) x1 y1 x2 y2 x3 y3 x4 y4 [] with
    | some _ => false
    | none =>
      AdaptiveFlattener.takesCollinear M A
          x1 y1 (M.float x12) (M.float y12) (M.float x123) (M.float y123)
          (M.float x1234) (M.float y1234) (level + 1)
        || AdaptiveFlattener.takesCollinear M A
          (M.float x1234) (M.float y1234) (M.float x234) (M.float y234)
          (M.float x34) (M.float y34) x4 y4 (level + 1)
termination_by (A.recursionLimit + 1 - level).toNat
decreasing_by
  all_goals simp_wf
  all_goals omega


/-! ## Outline builder (`flatten.cpp`, lines 267-402) -/

/-- The fields of `NSVGpath` read through a `SubpathRef`: the coordinate
array `pts`, the point count `npts` and the `closed` flag (also the answer of
`isClosed()`). -/
structure Subpath where
  pts : Nat → ℚ
  npts : Int
  closed : Bool

/-- The fields of `NSVGshape` read through a `PathRef`, with the subpaths of
the path (`getNumSubpaths`, `getSubpath`). -/
structure ShapePath where
  subpaths : List Subpath
  fillRule : Int
  strokeType : Int
  strokeWidth : ℚ
  strokeDashCount : Int
  strokeDashArray : Nat → ℚ
  strokeDashOffset : ℚ
  strokeLineJoin : Int
  strokeLineCap : Int
  miterLimit : ℚ

/-- The enumeration constants of `nanosvg.h` used by the outline builder. -/
structure NsvgConstants where
  NSVG_FILLRULE_NONZERO : Int
  NSVG_FILLRULE_EVENODD : Int
  NSVG_PAINT_NONE : Int
  NSVG_JOIN_ROUND : Int
  NSVG_JOIN_BEVEL : Int
  NSVG_CAP_BUTT : Int
  NSVG_CAP_SQUARE : Int

/-- `ClipperLib::PolyFillType` as far as it is used. -/
inductive PolyFillType where
  | pftNonZero : PolyFillType
  | pftEvenOdd : PolyFillType
deriving DecidableEq, Repr

/-- `ClipperLib::JoinType`. -/
inductive JoinType where
  | jtMiter : JoinType
  | jtRound : JoinType
  | jtSquare : JoinType
deriving DecidableEq, Repr

/-- `ClipperLib::EndType` as far as it is used. -/
inductive EndType where
  | etClosedLine : EndType
  | etOpenButt : EndType
  | etOpenRound : EndType
  | etOpenSquare : EndType
deriving DecidableEq, Repr

/-- The polygon library as the outline builder uses it: `SimplifyPolygons`,
a `ClipperOffset` built with a miter limit, given paths with join and end type
and executed with an offset distance into a `PolyTree`, `PolyTreeToPaths`, and
a `Clipper` executing `ctDifference` on subject and clip paths.  `turtle` is
the dash loop of `computeDashes` over one path (class `Turtle` of `turtle.h`):
from the path, the dash offset, the dash array and count, and the dashes so
far, the dashes afterwards. -/
structure ClipperLib (P : Type) (PolyTree : Type) where
  SimplifyPolygons : List (List P) → PolyFillType → List (List P)
  offsetExecute : ℚ → List (List P) → JoinType → EndType → PolyTree → ℚ → PolyTree
  PolyTreeToPaths : PolyTree → List (List P)
  executeDifference : List (List P) → List (List P) → List (List P)
  turtle : List P → ℚ → (Nat → ℚ) → Int → List (List P) → List (List P)

/-- `struct Tesselation`: the fill polygon set and the stroke `PolyTree`. -/
structure Tesselation (P : Type) (PolyTree : Type) where
  fill : List (List P)
  stroke : PolyTree

/-- What `operator()` does besides changing the tessellation, in order: the
warning `TOVE_WARN`, and the calls into the polygon library, the offset call
with the distance it is handed. -/
inductive Effect where
  | warn : Effect
  | simplifyPolygons : Effect
  | offsetExecute (lineOffset : ℚ) : Effect
  | executeDifference : Effect
deriving DecidableEq, Repr

/-- The loop of `AdaptiveFlattener::flatten(subpath)` (flatten.cpp 275-279)
entered with loop variable `i`; the products `p[j] * scale` are `float`
operations. -/
def AdaptiveFlattener.flattenCurves {P : Type} (M : CMath) (ClipperPoint : ℚ → ℚ → P)
    (A : AdaptiveFlattener) (pts : Nat → ℚ) (npts : Int) (i : Nat) (result : List P) :
    List P :=
  if (i : Int) * 2 + 7 < npts * 2 then
    let p := fun j => pts (i * 2 + j)
    let result := A.flatten M ClipperPoint
      (M.float (p 0 * A.scale)) (M.float (p 1 * A.scale))
      (M.float (p 2 * A.scale)) (M.float (p 3 * A.scale))
      (M.float (p 4 * A.scale)) (M.float (p 5 * A.scale))
      (M.float (p 6 * A.scale)) (M.float (p 7 * A.scale)) result
    AdaptiveFlattener.flattenCurves M ClipperPoint A pts npts (i + 3) result
  else
    result
termination_by (npts * 2 - ((i : Int) * 2 + 7)).toNat
decreasing_by
  all_goals simp_wf
  all_goals omega

/-- `AdaptiveFlattener::flatten(const SubpathRef &)` (flatten.cpp 267-286). -/
def AdaptiveFlattener.flattenSubpath {P : Type} (M : CMath) (ClipperPoint : ℚ → ℚ → P)
    (A : AdaptiveFlattener) (subpath : Subpath) : List P :=
  let p0 := ClipperPoint (M.float (subpath.pts 0 * A.scale))
    (M.float (subpath.pts 1 * A.scale))
  let result := [p0]
  let result := A.flattenCurves M ClipperPoint subpath.pts subpath.npts 0 result
  if subpath.closed then result ++ [p0] else result

/-- `AdaptiveFlattener::computeDashes` (flatten.cpp 288-318). -/
def AdaptiveFlattener.computeDashes {P PolyTree : Type} (L : ClipperLib P PolyTree)
    (shape : ShapePath) (lines : List (List P)) : List (List P) :=
  let dashCount := shape.strokeDashCount
  if dashCount ≤ 0 then
    lines
  else
    lines.foldl
      (fun dashes path =>
        if path.length < 2 then dashes
        else L.turtle path shape.strokeDashOffset shape.strokeDashArray dashCount dashes)
      []

/-- The function `joinType` (flatten.cpp 320-330). -/
def joinType (K : NsvgConstants) (t : Int) : JoinType :=
  if t = K.NSVG_JOIN_ROUND then JoinType.jtRound
  else if t = K.NSVG_JOIN_BEVEL then JoinType.jtSquare
  else JoinType.jtMiter

/-- The function `endType` (flatten.cpp 332-345). -/
def endType (K : NsvgConstants) (t : Int) (closed : Bool) : EndType :=
  if closed then EndType.etClosedLine
  else if t = K.NSVG_CAP_BUTT then EndType.etOpenButt
  else if t = K.NSVG_CAP_SQUARE then EndType.etOpenSquare
  else EndType.etOpenRound

/-- The loop over the subpaths of `AdaptiveFlattener::operator()` (flatten.cpp
350-354): the fill polygon set and the flag `closed` after it. -/
def AdaptiveFlattener.flattenAll {P : Type} (M : CMath) (ClipperPoint : ℚ → ℚ → P)
    (A : AdaptiveFlattener) : List Subpath → List (List P) × Bool → List (List P) × Bool
  | [], acc => acc
  | subpath :: rest, (fill, closed) =>
    AdaptiveFlattener.flattenAll M ClipperPoint A rest
      (fill ++ [A.flattenSubpath M ClipperPoint subpath], closed && subpath.closed)

/-- `AdaptiveFlattener::operator()` (flatten.cpp 347-402): the tessellation
after the call and the effects of the call, in order.  `lineOffset` is the
`float` variable of flatten.cpp 381: two `float` multiplications. -/
def AdaptiveFlattener.operatorCall {P PolyTree : Type} (M : CMath)
    (ClipperPoint : ℚ → ℚ → P) (K : NsvgConstants) (L : ClipperLib P PolyTree)
    (A : AdaptiveFlattener) (path : ShapePath) (tesselation : Tesselation P PolyTree) :
    Tesselation P PolyTree × List Effect :=
  let r := A.flattenAll M ClipperPoint path.subpaths (tesselation.fill, true)
  let tesselation : Tesselation P PolyTree := { tesselation with fill := r.1 }
  let closed := r.2
  let shape := path
  let fillType : Option PolyFillType :=
    if shape.fillRule = K.NSVG_FILLRULE_NONZERO then some PolyFillType.pftNonZero
    else if shape.fillRule = K.NSVG_FILLRULE_EVENODD then some PolyFillType.pftEvenOdd
    else none
  match fillType with
  | none => (tesselation, [])
  | some fillType =>
    let hasStroke : Bool :=
      decide (shape.strokeType ≠ K.NSVG_PAINT_NONE) && decide (shape.strokeWidth > 0)
    let lines : List (List P) :=
      if hasStroke then AdaptiveFlattener.computeDashes L shape tesselation.fill else []
    let tesselation : Tesselation P PolyTree :=
      { tesselation with fill := L.SimplifyPolygons tesselation.fill fillType }
    let effects := [Effect.simplifyPolygons]
    if hasStroke then
      let lineOffset := M.float (M.float (shape.strokeWidth * A.scale) * (1 / 2))
      let clamp := decide (lineOffset < 1)
      let lineOffset := if clamp then 0 else lineOffset
      let effects := if clamp then effects ++ [Effect.warn] else effects
      let tree := L.offsetExecute shape.miterLimit lines
        (joinType K shape.strokeLineJoin)
        (endType K shape.strokeLineCap (closed && decide (shape.strokeDashCount = 0)))
        tesselation.stroke lineOffset
      let tesselation : Tesselation P PolyTree := { tesselation with stroke := tree }
      let effects := effects ++ [Effect.offsetExecute lineOffset]
      let stroke := L.PolyTreeToPaths tesselation.stroke
      let tesselation : Tesselation P PolyTree :=
        { tesselation with fill := L.executeDifference tesselation.fill stroke }
      (tesselation, effects ++ [Effect.executeDifference])
    else
      (tesselation, effects)

/-- The values of the `nanosvg.h` constants. -/
def nanosvgConstants : NsvgConstants :=
  { NSVG_FILLRULE_NONZERO := 0
    NSVG_FILLRULE_EVENODD := 1
    NSVG_PAINT_NONE := 0
    NSVG_JOIN_ROUND := 1
    NSVG_JOIN_BEVEL := 2
    NSVG_CAP_BUTT := 0
    NSVG_CAP_SQUARE := 2 }

/-- A stand-in polygon library for concrete runs of the outline builder: it
returns its path arguments unchanged and keeps the `PolyTree`. -/
def plainClipper : ClipperLib (ℚ × ℚ) Unit :=
  { SimplifyPolygons := fun paths _ => paths
    offsetExecute := fun _ _ _ _ tree _ => tree
    PolyTreeToPaths := fun _ => []
    executeDifference := fun subject _ => subject
    turtle := fun _ _ _ _ dashes => dashes }

/-- A subpath consisting of the single point `(0, 0)`. -/
def pointSubpath : Subpath := ⟨fun _ => 0, 1, false⟩

/-- A path with the single subpath `pointSubpath`, the given fill rule and a
stroke of the given paint type and width, no dashes. -/
def pointPath (fillRule strokeType : Int) (strokeWidth : ℚ) : ShapePath :=
  { subpaths := [pointSubpath]
    fillRule := fillRule
    strokeType := strokeType
    strokeWidth := strokeWidth
    strokeDashCount := 0
    strokeDashArray := fun _ => 0
    strokeDashOffset := 0
    strokeLineJoin := 0
    strokeLineCap := 0
    miterLimit := 4 }


/-- The parts after a failed walk of part `j` at start index `i`
(partition.h 86-91): the cursor of part `j` is set to `i` and, if `j != 0`,
the part changes places with part `0`. -/
def failUpdate (parts : List Part) (j i : Nat) : List Part :=
  match parts[j]? with
  | none => parts
  | some part =>
    let parts1 := parts.set j { part with fail := i }
    if j ≠ 0 then swapParts parts1 j else parts1

/-- The number of iterations of the `do ... while (k < n)` loop of
`Partition::check` entered with loop variables `i` and `k` (the control flow
of `Partition.walk`, counting the loop bodies run). -/
def Partition.walkIterations (cross : ℚ → ℚ → ℚ → ℚ → ℚ → ℚ → ℚ) (vertices : Vertices)
    (outline : Indices) (n i k : Nat) : Nat :=
  if i < n then
    let i1 := find_unequal_forward vertices outline i n
    let area := tripleArea cross vertices outline n i
    let eps : ℚ := Partition.eps
    if area > eps then
      1
    else
      let k1 := if i1 > i then k + (i1 - i) else k + ((n - i) + i1)
      if k1 < n then 1 + Partition.walkIterations cross vertices outline n i1 k1 else 1
  else
    1
termination_by n - k
decreasing_by
  simp_wf
  rename_i hk
  have hk1 : (if find_unequal_forward vertices outline i n > i
      then k + (find_unequal_forward vertices outline i n - i)
      else k + ((n - i) + find_unequal_forward vertices outline i n)) < n := hk
  split at hk1 <;> split <;> omega

/-- A sequence of `Partition::check` calls, one per vertex buffer of the list,
each on the partition left by the previous one; `none` is a failed assertion. -/
def Partition.checkAll (cross : ℚ → ℚ → ℚ → ℚ → ℚ → ℚ → ℚ) :
    List Vertices → Partition → Option Partition
  | [], P => some P
  | vertices :: rest, P =>
    match P.check cross vertices with
    | none => none
    | some (_, P') => Partition.checkAll cross rest P'

/-- Two parts over the slots 0, 1, 2, in both orientations, fresh cursors. -/
def twoPartsFresh : Partition := ⟨[⟨[0, 1, 2], 0⟩, ⟨[0, 2, 1], 0⟩]⟩

/-- The parts of `twoPartsFresh` in the other order and with cursors 1 and 2. -/
def twoPartsMoved : Partition := ⟨[⟨[0, 2, 1], 1⟩, ⟨[0, 1, 2], 2⟩]⟩


/-- `AdaptiveFlattener::recursive` run together with a record of the deepest
level at which it is called in the subdivision: the points after the call (the
same as `AdaptiveFlattener.recursive`, see `recursiveDeepest_fst`) and that
level. -/
def AdaptiveFlattener.recursiveDeepest {P : Type} (M : CMath) (ClipperPoint : ℚ → ℚ → P)
    (A : AdaptiveFlattener) (x1 y1 x2 y2 x3 y3 x4 y4 : ℚ) (points : List P)
    (level : Int) : List P × Int :=
  if level > A.recursionLimit then
    (points ++ [ClipperPoint x4 y4], level)
  else
    let x12 := M.float (M.float (x1 + x2) / 2)
    let y12 := M.float (M.float (y1 + y2) / 2)
    let x23 := M.float (M.float (x2 + x3) / 2)
    let y23 := M.float (M.float (y2 + y3) / 2)
    let x34 := M.float (M.float (x3 + x4) / 2)
    let y34 := M.float (M.float (y3 + y4) / 2)
    let x123 := M.double (M.double (x12 + x23) / 2)
    let y123 := M.double (M.double (y12 + y23) / 2)
    let x234 := M.double (M.double (x23 + x34) / 2)
    let y234 := M.double (M.double (y23 + y34) / 2)
    let x1234 := M.double (M.double (x123 + x234) / 2)
    let y1234 := M.double (M.double (y123 + y234) / 2)
    match A.switchCase M ClipperPoint x1 y1 x2 y2 x3 y3 x4 y4 points with
    | some r => (r, level)
    | none =>
      let r1 := AdaptiveFlattener.recursiveDeepest M ClipperPoint A
        x1 y1 (M.float x12) (M.float y12) (M.float x123) (M.float y123)
        (M.float x1234) (M.float y1234) points (level + 1)
      let r2 := AdaptiveFlattener.recursiveDeepest M ClipperPoint A
        (M.float x1234) (M.float y1234) (M.float x234) (M.float y234)
        (M.float x34) (M.float y34) x4 y4 r1.1 (level + 1)
      (r2.1, max r1.2 r2.2)
termination_by (A.recursionLimit + 1 - level).toNat
decreasing_by
  all_goals simp_wf
  all_goals omega

/-- The total angular change `da1 + da2` of the regular case as the code
computes it (flatten.cpp 231-237). -/
def totalAngularChange (M : CMath) (x1 y1 x2 y2 x3 y3 x4 y4 : ℚ) : ℚ :=
  let k := M.atan2 (M.float (y3 - y2)) (M.float (x3 - x2))
  let da1 := abs (M.double (k - M.atan2 (M.float (y2 - y1)) (M.float (x2 - x1))))
  let da2 := abs (M.double (M.atan2 (M.float (y4 - y3)) (M.float (x4 - x3)) - k))
  let da1 := if da1 ≥ M.M_PI then M.double (M.double (2 * M.M_PI) - da1) else da1
  let da2 := if da2 ≥ M.M_PI then M.double (M.double (2 * M.M_PI) - da2) else da2
  M.double (da1 + da2)

/-- An environment for concrete runs with axis-parallel segments: no
operation rounds (the runs below only meet values that `float` and `double`
represent exactly, apart from the angles, which are only added and compared),
`M_PI` is the `double` nearest to pi and `atan2` has its `double` values on
the coordinate axes (`0`, `M_PI`, `M_PI / 2`, `-M_PI / 2`); off the axes, where
those runs never call it, it is `0`. -/
def axisMath : CMath :=
  { float := fun q => q
    double := fun q => q
    tolerance := fun q => q
    angle := fun q => q
    M_PI := 884279719003555 / 281474976710656
    atan2 := fun y x =>
      if y = 0 then (if x < 0 then 884279719003555 / 281474976710656 else 0)
      else if x = 0 then
        (if y > 0 then 884279719003555 / 562949953421312
          else -(884279719003555 / 562949953421312))
      else 0
    squareDistance := squareDistance }

/-- The flattener built by the constructor from `distanceTolerance = 2`,
`colinearityEpsilon = 0.5`, `angleEpsilon = 0.01`, `angleTolerance = 4`,
`cuspLimit = 0`, `recursionLimit = 8`, at scale 1. -/
def wideFlattener : AdaptiveFlattener :=
  AdaptiveFlattener.new axisMath 8 1 (some ⟨2, 1 / 2, 1 / 100, 4, 0, 8⟩)


/-- One coordinate of the point at parameter `t` of the cubic Bezier curve
with control values `p1`, `p2`, `p3`, `p4`. -/
def bezier (p1 p2 p3 p4 t : ℚ) : ℚ :=
  (1 - t) ^ 3 * p1 + 3 * (1 - t) ^ 2 * t * p2 + 3 * (1 - t) * t ^ 2 * p3 + t ^ 3 * p4


/-- Three cached entries, none a keyframe, with use counters 0, 5, 5; the
current index is 1. -/
def threeCache : TriangleCache :=
  ⟨[0, 1, 2], 1, fun p => ⟨emptyPartition, if p = 0 then 0 else 5, false⟩⟩

/-- A vertex buffer holding `(0, 0)`, `(1, 0)`, `(0, eps)` in slots 0, 1, 2
(and `(0, eps)` elsewhere), where `eps` is the `float` constant 0.1 of
`Partition::check`: every triple of the outline `[0, 1, 2]` has area `eps`. -/
def tenthVertices : Vertices :=
  ⟨fun i => if i = 0 then ⟨0, 0⟩ else if i = 1 then ⟨1, 0⟩ else ⟨0, Partition.eps⟩, []⟩

/-- A partition with one part whose outline is empty (the constructor builds
it from a polygon without points), cursor 0. -/
def hollowPartition : Partition := ⟨[⟨[], 0⟩]⟩

/-- Two cached entries, with `0 <= current < n`: the current one (index 0)
holds `hollowPartition`, the other one a partition that validates. -/
def hollowCache : TriangleCache :=
  ⟨[0, 1], 0, fun p => if p = 0 then ⟨hollowPartition, 0, false⟩ else ⟨pointPartition, 0, false⟩⟩

/-- A point constructor with integer coordinates, for concrete runs (polygon
paths have integer coordinates): each coordinate is converted as C++ converts
a floating value to an integer type, by truncation toward zero. -/
def intPoint (x y : ℚ) : Int × Int :=
  ((if 0 ≤ x then ⌊x⌋ else -⌊-x⌋), (if 0 ≤ y then ⌊y⌋ else -⌊-y⌋))

/-- The `float` variable `lineOffset` of `AdaptiveFlattener::operator()` as it
is initialised (flatten.cpp 381): `strokeWidth * scale * 0.5f`, two `float`
multiplications. -/
def scaledHalfWidth (M : CMath) (A : AdaptiveFlattener) (strokeWidth : ℚ) : ℚ :=
  M.float (M.float (strokeWidth * A.scale) * (1 / 2))

/-- The integer nearest to `x`, the even one of the two when `x` lies half-way
between two integers. -/
def roundHalfEven (x : ℚ) : Int :=
  let f := ⌊x⌋
  if x - f < 1 / 2 then f
  else if 1 / 2 < x - f then f + 1
  else if f % 2 = 0 then f else f + 1

/-- Rounding to the nearest binary floating-point number with a significand of
`p` bits and least exponent `emin` (the unit in the last place of the
subnormal numbers is `2 ^ emin`), ties to even.  The exponent range is not
bounded above: overflow to infinity is not modelled. -/
def binaryRound (p : Nat) (emin : Int) (x : ℚ) : ℚ :=
  let e := max (Int.log 2 |x| - ((p : Int) - 1)) emin
  (roundHalfEven (x / 2 ^ e) : ℚ) * 2 ^ e

/-- Rounding to `float` (IEEE binary32). -/
def binary32 (x : ℚ) : ℚ := binaryRound 24 (-149) x

/-- Rounding to `double` (IEEE binary64). -/
def binary64 (x : ℚ) : ℚ := binaryRound 53 (-1074) x

/-- The environment of IEEE arithmetic, for concrete runs: `float` operations
round to binary32 and `double` operations to binary64, to nearest, ties to
even.  The tolerance members are taken to be `float`s and `atan2` to be the
`double` function; `M_PI` is the `double` nearest to pi and `atan2` has its
`double` values on the coordinate axes (off the axes, where the runs below
never call it, it is `0`); `squareDistance` is taken in `float` arithmetic. -/
def ieeeMath : CMath :=
  { float := binary32
    double := binary64
    tolerance := binary32
    angle := binary64
    M_PI := 884279719003555 / 281474976710656
    atan2 := fun y x =>
      if y = 0 then (if x < 0 then 884279719003555 / 281474976710656 else 0)
      else if x = 0 then
        (if y > 0 then 884279719003555 / 562949953421312
          else -(884279719003555 / 562949953421312))
      else 0
    squareDistance := fun x1 y1 x2 y2 =>
      binary32 (binary32 (binary32 (x2 - x1) * binary32 (x2 - x1))
        + binary32 (binary32 (y2 - y1) * binary32 (y2 - y1))) }

/-- The flattener built by the constructor from a null `quality`, at scale 1,
in IEEE arithmetic. -/
def ieeeDefaultFlattener : AdaptiveFlattener := AdaptiveFlattener.new ieeeMath 8 1 none

/-- The flattener built by the constructor from `distanceTolerance = 2`,
`colinearityEpsilon = 0.5`, `angleEpsilon = 0.015625`, `angleTolerance = 0`,
`cuspLimit = 0`, `recursionLimit = 8`, at scale 1, in IEEE arithmetic. -/
def ieeeWideFlattener : AdaptiveFlattener :=
  AdaptiveFlattener.new ieeeMath 8 1 (some ⟨2, 1 / 2, 1 / 64, 0, 0, 8⟩)

/-- The flattener built by the constructor from a null `quality`, at the scale
`8191 / 4096` (a `float`), in IEEE arithmetic. -/
def ieeeScaledFlattener : AdaptiveFlattener :=
  AdaptiveFlattener.new ieeeMath 8 (8191 / 4096) none

/-! ## Theorems -/

/-! ### Fixed-depth flattener -/

theorem slotRange_add (index : Int) (a b : Nat) :
    slotRange index (a + b) = slotRange index a ++ slotRange (index + a) b := by
  simp only [slotRange, List.range_add, List.map_append, List.map_map]
  congr 1
  apply List.map_congr_left
  intro k _
  simp [Function.comp, add_assoc]

theorem slotRange_one (index : Int) : slotRange index 1 = [index] := by
  unfold slotRange
  rw [show (1 : Nat) = 0 + 1 from rfl, List.range_succ]
  simp

theorem assign_written (vs : Vertices) (i : Int) (x y : ℚ) :
    (vs.assign i x y).written = vs.written ++ [i] := rfl

theorem assign_slot_ne (vs : Vertices) (i j : Int) (x y : ℚ) (h : j ≠ i) :
    (vs.assign i x y).slot j = vs.slot j := by
  simp [Vertices.assign, Function.update, h]

theorem FixedFlattener.flatten_aux (sqrt : ℚ → ℚ) (F : FixedFlattener) :
    ∀ (m : Nat) (vertices : Vertices) (index level : Int)
      (x1 y1 x2 y2 x3 y3 x4 y4 : ℚ), F._depth - level = (m : Int) →
      (F.flatten sqrt vertices index level x1 y1 x2 y2 x3 y3 x4 y4).2
          = index + (2 ^ m : Nat) ∧
      (F.flatten sqrt vertices index level x1 y1 x2 y2 x3 y3 x4 y4).1.written
          = vertices.written ++ slotRange index (2 ^ m) ∧
      ∀ j : Int, (j < index ∨ index + (2 ^ m : Nat) ≤ j) →
        (F.flatten sqrt vertices index level x1 y1 x2 y2 x3 y3 x4 y4).1.slot j
          = vertices.slot j := by
  intro m
  induction m with
  | zero =>
    intro vertices index level x1 y1 x2 y2 x3 y3 x4 y4 h
    have hl : level ≥ F._depth := by omega
    rw [FixedFlattener.flatten]
    simp only [hl, if_true]
    split
    · refine ⟨by simp, by simp [assign_written, slotRange_one], ?_⟩
      intro j hj
      apply assign_slot_ne
      rcases hj with hj | hj
      · omega
      · simp at hj; omega
    · refine ⟨by simp, by simp [assign_written, slotRange_one], ?_⟩
      intro j hj
      apply assign_slot_ne
      rcases hj with hj | hj
      · omega
      · simp at hj; omega
  | succ m ih =>
    intro vertices index level x1 y1 x2 y2 x3 y3 x4 y4 h
    have hl : ¬ level ≥ F._depth := by omega
    rw [FixedFlattener.flatten]
    simp only [hl, if_false]
    have h1 : F._depth - (level + 1) = (m : Int) := by omega
    obtain ⟨a1, a2, a3⟩ := ih vertices index (level + 1) x1 y1
      ((x1 + x2) * (1/2)) ((y1 + y2) * (1/2))
      (((x1 + x2) * (1/2) + (x2 + x3) * (1/2)) * (1/2))
      (((y1 + y2) * (1/2) + (y2 + y3) * (1/2)) * (1/2))
      ((((x1 + x2) * (1/2) + (x2 + x3) * (1/2)) * (1/2)
        + ((x2 + x3) * (1/2) + (x3 + x4) * (1/2)) * (1/2)) * (1/2))
      ((((y1 + y2) * (1/2) + (y2 + y3) * (1/2)) * (1/2)
        + ((y2 + y3) * (1/2) + (y3 + y4) * (1/2)) * (1/2)) * (1/2)) h1
    generalize F.flatten sqrt vertices index (level + 1) x1 y1
      ((x1 + x2) * (1/2)) ((y1 + y2) * (1/2))
      (((x1 + x2) * (1/2) + (x2 + x3) * (1/2)) * (1/2))
      (((y1 + y2) * (1/2) + (y2 + y3) * (1/2)) * (1/2))
      ((((x1 + x2) * (1/2) + (x2 + x3) * (1/2)) * (1/2)
        + ((x2 + x3) * (1/2) + (x3 + x4) * (1/2)) * (1/2)) * (1/2))
      ((((y1 + y2) * (1/2) + (y2 + y3) * (1/2)) * (1/2)
        + ((y2 + y3) * (1/2) + (y3 + y4) * (1/2)) * (1/2)) * (1/2)) = r1 at a1 a2 a3 ⊢
    obtain ⟨b1, b2, b3⟩ := ih r1.1 r1.2 (level + 1)
      ((((x1 + x2) * (1/2) + (x2 + x3) * (1/2)) * (1/2)
        + ((x2 + x3) * (1/2) + (x3 + x4) * (1/2)) * (1/2)) * (1/2))
      ((((y1 + y2) * (1/2) + (y2 + y3) * (1/2)) * (1/2)
        + ((y2 + y3) * (1/2) + (y3 + y4) * (1/2)) * (1/2)) * (1/2))
      (((x2 + x3) * (1/2) + (x3 + x4) * (1/2)) * (1/2))
      (((y2 + y3) * (1/2) + (y3 + y4) * (1/2)) * (1/2))
      ((x3 + x4) * (1/2)) ((y3 + y4) * (1/2)) x4 y4 h1
    have hp : (2 : Nat) ^ (m + 1) = 2 ^ m + 2 ^ m := by ring
    rw [hp]
    generalize (2 : Nat) ^ m = p at a1 a2 a3 b1 b2 b3 ⊢
    refine ⟨?_, ?_, ?_⟩
    · rw [b1, a1]; push_cast; ring
    · rw [b2, a2, a1, slotRange_add, List.append_assoc]
    · intro j hj
      rw [b3, a3]
      · rcases hj with hj | hj
        · left; exact hj
        · right; push_cast at hj; omega
      · rw [a1]
        rcases hj with hj | hj
        · left; omega
        · right; push_cast at hj ⊢; omega

theorem FixedFlattener.flattenLoop_aux (sqrt : ℚ → ℚ) (F : FixedFlattener)
    (pts : Nat → ℚ) (hd : 0 ≤ F._depth) :
    ∀ (m : Nat) (vertices : Vertices) (v : Int) (k : Nat),
      ∃ vs : Vertices,
        F.flattenLoop sqrt pts (2 ^ F._depth.toNat) m vertices v k
          = some (vs, v + m * 2 ^ F._depth.toNat) ∧
        vs.written = vertices.written ++ slotRange v (m * 2 ^ F._depth.toNat) := by
  intro m
  induction m with
  | zero =>
    intro vertices v k
    exact ⟨vertices, by simp [FixedFlattener.flattenLoop], by simp [slotRange]⟩
  | succ m ih =>
    intro vertices v k
    have h0 : F._depth - 0 = (F._depth.toNat : Int) := by omega
    obtain ⟨a1, a2, -⟩ := FixedFlattener.flatten_aux sqrt F F._depth.toNat vertices v 0
      (pts (k * 2 + 0)) (pts (k * 2 + 1)) (pts (k * 2 + 2)) (pts (k * 2 + 3))
      (pts (k * 2 + 4)) (pts (k * 2 + 5)) (pts (k * 2 + 6)) (pts (k * 2 + 7)) h0
    rw [FixedFlattener.flattenLoop]
    simp only
    generalize F.flatten sqrt vertices v 0
      (pts (k * 2 + 0)) (pts (k * 2 + 1)) (pts (k * 2 + 2)) (pts (k * 2 + 3))
      (pts (k * 2 + 4)) (pts (k * 2 + 5)) (pts (k * 2 + 6)) (pts (k * 2 + 7)) = r at a1 a2 ⊢
    have hc : r.2 - v = 2 ^ F._depth.toNat := by rw [a1]; push_cast; ring
    rw [if_pos hc]
    obtain ⟨vs, e1, e2⟩ := ih r.1 r.2 (k + 3)
    refine ⟨vs, ?_, ?_⟩
    · rw [e1, a1]; push_cast; congr 2; ring
    · rw [e2, a2, a1, List.append_assoc, ← slotRange_add]
      congr 2; ring

/-- C1. For every curve, offset, start index and depth `d ≥ 0`, the per-curve
`FixedFlattener::flatten` called at a level `L ≤ d` returns
`index + 2^(d-L)` and assigns exactly the slots
`index, ..., index + 2^(d-L) - 1`, each once and in increasing order, leaving
every other slot as it was; at level 0 these are the `2^d` slots from `index`
on; and the subpath-level `flatten` runs through without a failed assertion,
returning `1 + n * 2^d`. -/
theorem FixedFlattener_flatten_writes_two_pow_slots (sqrt : ℚ → ℚ)
    (F : FixedFlattener) (vertices : Vertices) (index level : Int)
    (x1 y1 x2 y2 x3 y3 x4 y4 : ℚ) (pts : Nat → ℚ) (n : Nat)
    (hd : 0 ≤ F._depth) (hL : level ≤ F._depth) :
    ((F.flatten sqrt vertices index level x1 y1 x2 y2 x3 y3 x4 y4).2
        = index + 2 ^ (F._depth - level).toNat ∧
      (F.flatten sqrt vertices index level x1 y1 x2 y2 x3 y3 x4 y4).1.written
        = vertices.written ++ slotRange index (2 ^ (F._depth - level).toNat) ∧
      ∀ j : Int, (j < index ∨ index + 2 ^ (F._depth - level).toNat ≤ j) →
        (F.flatten sqrt vertices index level x1 y1 x2 y2 x3 y3 x4 y4).1.slot j
          = vertices.slot j) ∧
    ((F.flatten sqrt vertices index 0 x1 y1 x2 y2 x3 y3 x4 y4).2
        = index + 2 ^ F._depth.toNat ∧
      (F.flatten sqrt vertices index 0 x1 y1 x2 y2 x3 y3 x4 y4).1.written
        = vertices.written ++ slotRange index (2 ^ F._depth.toNat)) ∧
    (∃ vs : Vertices,
      F.flattenSubpath sqrt pts n vertices
        = some (vs, 1 + (n : Int) * 2 ^ F._depth.toNat) ∧
      vs.written
        = vertices.written ++ 0 :: slotRange 1 (n * 2 ^ F._depth.toNat)) := by
  refine ⟨?_, ?_, ?_⟩
  · have h := FixedFlattener.flatten_aux sqrt F (F._depth - level).toNat vertices index
      level x1 y1 x2 y2 x3 y3 x4 y4 (by omega)
    simpa using h
  · have h := FixedFlattener.flatten_aux sqrt F F._depth.toNat vertices index
      0 x1 y1 x2 y2 x3 y3 x4 y4 (by omega)
    exact ⟨by simpa using h.1, h.2.1⟩
  · obtain ⟨vs, e1, e2⟩ := FixedFlattener.flattenLoop_aux sqrt F pts hd n
      (vertices.assign 0 (pts 0) (pts 1)) 1 0
    refine ⟨vs, ?_, ?_⟩
    · simp only [FixedFlattener.flattenSubpath, e1]
      simp
    · rw [e2, assign_written, List.append_assoc]; rfl

/-- Witness for C1: depth 3, a call at level 1 from slot 5 on a degenerate
curve (all control points equal) with a non-zero offset. -/
theorem FixedFlattener_flatten_writes_two_pow_slots_witness :
    (0 : Int) ≤ (⟨3, 1⟩ : FixedFlattener)._depth ∧
    (1 : Int) ≤ (⟨3, 1⟩ : FixedFlattener)._depth ∧
    ((⟨3, 1⟩ : FixedFlattener).flatten (fun q => q) ⟨fun _ => ⟨0, 0⟩, []⟩ 5 1
        0 0 0 0 0 0 0 0).2 = 5 + 2 ^ ((3 : Int) - 1).toNat :=
  ⟨by decide, by decide,
    (FixedFlattener_flatten_writes_two_pow_slots (fun q => q) ⟨3, 1⟩
      ⟨fun _ => ⟨0, 0⟩, []⟩ 5 1 0 0 0 0 0 0 0 0 (fun _ => 0) 2
      (by decide) (by decide)).1.1⟩

/-! ### Partition validator -/

theorem find_range'_some (p : Nat → Bool) :
    ∀ (m s d : Nat), (List.range' s m).find? p = some d →
      s ≤ d ∧ d < s + m ∧ p d = true ∧ ∀ e, s ≤ e → e < d → p e = false := by
  intro m
  induction m with
  | zero => intro s d h; simp at h
  | succ m ih =>
    intro s d h
    rw [List.range'_succ, List.find?_cons] at h
    cases hp : p s with
    | true =>
      rw [hp] at h
      simp only [Option.some.injEq] at h
      subst h
      exact ⟨le_refl _, by omega, hp, fun e h1 h2 => by omega⟩
    | false =>
      rw [hp] at h
      obtain ⟨a, b, c, e⟩ := ih (s + 1) d h
      refine ⟨by omega, by omega, c, ?_⟩
      intro e' h1 h2
      rcases Nat.eq_or_lt_of_le h1 with h3 | h3
      · subst h3; exact hp
      · exact e e' h3 h2

theorem find_range'_none (p : Nat → Bool) :
    ∀ (m s : Nat), (List.range' s m).find? p = none →
      ∀ e, s ≤ e → e < s + m → p e = false := by
  intro m s h e h1 h2
  rw [List.find?_eq_none] at h
  have := h e (by rw [List.mem_range']; exact ⟨e - s, by omega, by omega⟩)
  simpa using this

theorem find_range'_least (p : Nat → Bool) (m s d : Nat) (h1 : s ≤ d) (h2 : d < s + m)
    (hp : p d = true) (hmin : ∀ e, s ≤ e → e < d → p e = false) :
    (List.range' s m).find? p = some d := by
  cases h : (List.range' s m).find? p with
  | none =>
    have := find_range'_none p m s h d h1 h2
    rw [hp] at this; cases this
  | some d' =>
    obtain ⟨a, b, c, e⟩ := find_range'_some p m s d' h
    rcases Nat.lt_trichotomy d' d with h3 | h3 | h3
    · have := hmin d' a h3; rw [c] at this; cases this
    · rw [h3]
    · have := e d h1 h3; rw [hp] at this; cases this

theorem find_unequal_forward_cases (vertices : Vertices) (outline : Indices) (i n : Nat)
    (hi : i < n) :
    (find_unequal_forward vertices outline i n = i ∧
      ∀ j, j < n → vertexAt vertices outline j = vertexAt vertices outline i) ∨
    (∃ d, 1 ≤ d ∧ d < n ∧ find_unequal_forward vertices outline i n = (i + d) % n ∧
      vertexAt vertices outline ((i + d) % n) ≠ vertexAt vertices outline i ∧
      ∀ e, 1 ≤ e → e < d →
        vertexAt vertices outline ((i + e) % n) = vertexAt vertices outline i) := by
  unfold find_unequal_forward
  cases h : (List.range' 1 (n - 1)).find?
      (fun d => decide (vertexAt vertices outline ((i + d) % n) ≠ vertexAt vertices outline i)) with
  | none =>
    left
    refine ⟨rfl, ?_⟩
    intro j hj
    by_cases hji : j = i
    · rw [hji]
    · have h0 := find_range'_none _ _ _ h ((j + n - i) % n)
      have hd : (j + n - i) % n = if i ≤ j then j - i else j + n - i := by
        split
        · rw [show j + n - i = (j - i) + n by omega, Nat.add_mod_right, Nat.mod_eq_of_lt (by omega)]
        · rw [Nat.mod_eq_of_lt (by omega)]
      have hd1 : 1 ≤ (j + n - i) % n := by rw [hd]; split <;> omega
      have hd2 : (j + n - i) % n < 1 + (n - 1) := by rw [hd]; split <;> omega
      have h1 := h0 hd1 hd2
      have hj' : (i + (j + n - i) % n) % n = j := by
        rw [hd]; split
        · rw [show i + (j - i) = j by omega, Nat.mod_eq_of_lt hj]
        · rw [show i + (j + n - i) = j + n by omega, Nat.add_mod_right, Nat.mod_eq_of_lt hj]
      simpa [hj'] using h1
  | some d =>
    right
    obtain ⟨a, b, c, e⟩ := find_range'_some _ _ _ _ h
    refine ⟨d, a, by omega, rfl, by simpa using c, ?_⟩
    intro e' h1 h2
    simpa using e e' h1 h2

theorem find_unequal_forward_lt (vertices : Vertices) (outline : Indices) (i n : Nat)
    (hi : i < n) : find_unequal_forward vertices outline i n < n := by
  rcases find_unequal_forward_cases vertices outline i n hi with ⟨h, -⟩ | ⟨d, -, -, h, -⟩
  · rw [h]; exact hi
  · rw [h]; exact Nat.mod_lt _ (by omega)

theorem find_unequal_forward_least (vertices : Vertices) (outline : Indices) (i n d : Nat)
    (h1 : 1 ≤ d) (h2 : d < n)
    (hp : vertexAt vertices outline ((i + d) % n) ≠ vertexAt vertices outline i)
    (hmin : ∀ e, 1 ≤ e → e < d →
      vertexAt vertices outline ((i + e) % n) = vertexAt vertices outline i) :
    find_unequal_forward vertices outline i n = (i + d) % n := by
  unfold find_unequal_forward
  rw [find_range'_least _ (n - 1) 1 d h1 (by omega) (by simpa using hp)
    (fun e a b => by simpa using hmin e a b)]
theorem tripleArea_const (cross : ℚ → ℚ → ℚ → ℚ → ℚ → ℚ → ℚ) (vertices : Vertices)
    (outline : Indices) (n i j : Nat) (hi : i < n) (hj : j < n)
    (hall : ∀ t, t < n → vertexAt vertices outline t = vertexAt vertices outline i) :
    tripleArea cross vertices outline n j = tripleArea cross vertices outline n i := by
  have h1 := find_unequal_forward_lt vertices outline i n hi
  have h2 := find_unequal_forward_lt vertices outline j n hj
  have h3 := find_unequal_forward_lt vertices outline _ n h1
  have h4 := find_unequal_forward_lt vertices outline _ n h2
  unfold tripleArea
  simp only [hall _ hj, hall _ h1, hall _ h2, hall _ h3, hall _ h4]

theorem tripleArea_skip (cross : ℚ → ℚ → ℚ → ℚ → ℚ → ℚ → ℚ) (vertices : Vertices)
    (outline : Indices) (n i d e : Nat) (hd : d < n)
    (hf : find_unequal_forward vertices outline i n = (i + d) % n)
    (hne : vertexAt vertices outline ((i + d) % n) ≠ vertexAt vertices outline i)
    (hmin : ∀ e, 1 ≤ e → e < d →
      vertexAt vertices outline ((i + e) % n) = vertexAt vertices outline i)
    (he1 : 1 ≤ e) (he2 : e < d) :
    tripleArea cross vertices outline n ((i + e) % n)
      = tripleArea cross vertices outline n i := by
  have hv : vertexAt vertices outline ((i + e) % n) = vertexAt vertices outline i :=
    hmin e he1 he2
  have hmod : ∀ x, ((i + e) % n + x) % n = (i + (e + x)) % n := by
    intro x; rw [Nat.mod_add_mod, Nat.add_assoc]
  have hf' : find_unequal_forward vertices outline ((i + e) % n) n = (i + d) % n := by
    have := find_unequal_forward_least vertices outline ((i + e) % n) n (d - e)
      (by omega) (by omega)
      (by rw [hmod, hv, show e + (d - e) = d by omega]; exact hne)
      (by
        intro x hx1 hx2
        rw [hmod, hv]
        exact hmin (e + x) (by omega) (by omega))
    rw [this, hmod, show e + (d - e) = d by omega]
  unfold tripleArea
  simp only [hf', hf, hv]

theorem Partition.walk_spec (cross : ℚ → ℚ → ℚ → ℚ → ℚ → ℚ → ℚ) (vertices : Vertices)
    (outline : Indices) (n c : Nat) :
    ∀ (m k i : Nat), n - k = m → k < n → i = (c + k) % n →
      (Partition.walk cross vertices outline n i k = Walk.passes ∧
        ∀ t, k ≤ t → t < n → tripleArea cross vertices outline n ((c + t) % n) ≤ Partition.eps) ∨
      (∃ t, k ≤ t ∧ t < n ∧
        Partition.walk cross vertices outline n i k = Walk.fails ((c + t) % n) ∧
        tripleArea cross vertices outline n ((c + t) % n) > Partition.eps ∧
        ∀ s, k ≤ s → s < t → tripleArea cross vertices outline n ((c + s) % n) ≤ Partition.eps) := by
  intro m
  induction m using Nat.strong_induction_on with
  | _ m ih =>
    intro k i hm hk hi
    have hin : i < n := by rw [hi]; exact Nat.mod_lt _ (by omega)
    have hshift : ∀ t, k ≤ t → (c + t) % n = (i + (t - k)) % n := by
      intro t ht
      rw [hi, Nat.mod_add_mod]
      congr 1; omega
    rw [Partition.walk]
    simp only [hin, if_true]
    by_cases ha : tripleArea cross vertices outline n i > Partition.eps
    · right
      refine ⟨k, le_refl _, hk, ?_, ?_, fun s h1 h2 => by omega⟩
      · rw [if_pos ha, hi]
      · rw [← hi]; exact ha
    · rw [if_neg ha]
      rcases find_unequal_forward_cases vertices outline i n hin with
        ⟨hf, hall⟩ | ⟨d, hd1, hd2, hf, hne, hmin⟩
      · left
        rw [hf]
        simp only [gt_iff_lt, lt_irrefl, if_false]
        rw [if_neg (by omega)]
        refine ⟨rfl, ?_⟩
        intro t _ ht2
        rw [tripleArea_const cross vertices outline n i _ hin (Nat.mod_lt _ (by omega)) hall]
        exact not_lt.mp ha
      · have hk1 : (if find_unequal_forward vertices outline i n > i
            then k + (find_unequal_forward vertices outline i n - i)
            else k + ((n - i) + find_unequal_forward vertices outline i n)) = k + d := by
          rw [hf]
          by_cases hw : i + d < n
          · rw [Nat.mod_eq_of_lt hw, if_pos (by omega)]; omega
          · have : (i + d) % n = i + d - n := by
              rw [Nat.mod_eq_sub_mod (by omega), Nat.mod_eq_of_lt (by omega)]
            rw [this, if_neg (by omega)]; omega
        rw [hk1]
        have hskip : ∀ t, k ≤ t → t < k + d →
            tripleArea cross vertices outline n ((c + t) % n) ≤ Partition.eps := by
          intro t ht1 ht2
          rw [hshift t ht1]
          rcases Nat.eq_or_lt_of_le ht1 with h0 | h0
          · rw [← h0, Nat.sub_self, Nat.add_zero, Nat.mod_eq_of_lt hin]
            exact not_lt.mp ha
          · rw [tripleArea_skip cross vertices outline n i d (t - k) hd2 hf hne hmin
              (by omega) (by omega)]
            exact not_lt.mp ha
        by_cases hlt : k + d < n
        · rw [if_pos hlt]
          have hi1 : find_unequal_forward vertices outline i n = (c + (k + d)) % n := by
            rw [hf, hshift (k + d) (by omega)]
            congr 2; omega
          rcases ih (n - (k + d)) (by omega) (k + d) _ rfl hlt hi1 with
            ⟨hp, hall⟩ | ⟨t, ht1, ht2, hw, hb, hbefore⟩
          · left
            refine ⟨hp, ?_⟩
            intro t ht1 ht2
            by_cases h : t < k + d
            · exact hskip t ht1 h
            · exact hall t (by omega) ht2
          · right
            refine ⟨t, by omega, ht2, hw, hb, ?_⟩
            intro s hs1 hs2
            by_cases h : s < k + d
            · exact hskip s hs1 h
            · exact hbefore s (by omega) hs2
        · left
          rw [if_neg hlt]
          exact ⟨rfl, fun t ht1 ht2 => hskip t ht1 (by omega)⟩
theorem cyclic_offset (c j n : Nat) (hc : c < n) (hj : j < n) :
    ∃ t, t < n ∧ (c + t) % n = j := by
  by_cases h : c ≤ j
  · exact ⟨j - c, by omega, by rw [show c + (j - c) = j by omega, Nat.mod_eq_of_lt hj]⟩
  · refine ⟨j + n - c, by omega, ?_⟩
    rw [show c + (j + n - c) = j + n by omega, Nat.add_mod_right, Nat.mod_eq_of_lt hj]

theorem Partition.walk_from_cursor (cross : ℚ → ℚ → ℚ → ℚ → ℚ → ℚ → ℚ) (vertices : Vertices)
    (outline : Indices) (c : Nat) (hc : c < outline.length) :
    (Partition.walk cross vertices outline outline.length c 0 = Walk.passes ∧
      AllTriplesConvex cross vertices outline) ∨
    (∃ i, i < outline.length ∧
      Partition.walk cross vertices outline outline.length c 0 = Walk.fails i ∧
      ¬ AllTriplesConvex cross vertices outline) := by
  rcases Partition.walk_spec cross vertices outline outline.length c _ 0 c rfl (by omega)
      (by rw [Nat.add_zero, Nat.mod_eq_of_lt hc]) with
    ⟨hp, hall⟩ | ⟨t, -, ht, hw, hb, -⟩
  · left
    refine ⟨hp, ?_⟩
    intro j hj
    obtain ⟨t, ht, e⟩ := cyclic_offset c j _ hc hj
    rw [← e]
    exact hall t (Nat.zero_le _) ht
  · right
    refine ⟨_, Nat.mod_lt _ (by omega), hw, ?_⟩
    intro hall
    exact absurd (hall _ (Nat.mod_lt _ (by omega))) (not_le.mpr hb)

theorem Partition.checkParts_spec (cross : ℚ → ℚ → ℚ → ℚ → ℚ → ℚ → ℚ) (vertices : Vertices)
    (parts : List Part) (hwf : ∀ part ∈ parts, part.fail < part.outline.length) :
    ∀ (m j : Nat), parts.length - j = m →
      ∃ b parts', Partition.checkParts cross vertices parts j = some (b, parts') ∧
        (b = true ↔ ∀ j', j ≤ j' → ∀ h : j' < parts.length,
          AllTriplesConvex cross vertices (parts[j']).outline) ∧
        (b = true → parts' = parts) := by
  intro m
  induction m with
  | zero =>
    intro j hj
    rw [Partition.checkParts, dif_neg (by omega)]
    exact ⟨true, parts, rfl, by simp; intro j' h1 h2; omega, fun _ => rfl⟩
  | succ m ih =>
    intro j hj
    have hlt : j < parts.length := by omega
    rw [Partition.checkParts, dif_pos hlt]
    simp only
    rcases Partition.walk_from_cursor cross vertices (parts[j]).outline (parts[j]).fail
        (hwf _ (List.getElem_mem _)) with ⟨hp, hall⟩ | ⟨i, -, hw, hnot⟩
    · rw [hp]
      simp only
      obtain ⟨b, parts', e1, e2, e3⟩ := ih (j + 1) (by omega)
      refine ⟨b, parts', e1, ?_, e3⟩
      rw [e2]
      constructor
      · intro h j' h1 h2
        rcases Nat.eq_or_lt_of_le h1 with h0 | h0
        · subst h0; exact hall
        · exact h j' h0 h2
      · intro h j' h1 h2
        exact h j' (by omega) h2
    · rw [hw]
      simp only
      refine ⟨false, _, rfl, ?_, by simp⟩
      simp only [Bool.false_eq_true, false_iff]
      intro h
      exact hnot (h j (le_refl _) hlt)

theorem tenthTriple_areas (i : Nat) (hi : i < 3) :
    tripleArea signedArea tenthVertices [0, 1, 2] 3 i = Partition.eps := by
  have hne : (0 : ℚ) ≠ 13421773 / 134217728 := by norm_num
  have hne' : ¬ ((13421773 : ℚ) / 134217728 = 0) := by norm_num
  interval_cases i <;>
    simp [tripleArea, find_unequal_forward, vertexAt, signedArea, tenthVertices,
      Partition.eps, List.range', List.find?, hne, hne']

/-- C2, counterexample. The fresh one-part partition `[0, 1, 2]` over the
vertices `(0, 0)`, `(1, 0)`, `(0, 0.1f)`: every triple has signed area
`0.1f = 13421773 / 2 ^ 27`, which is above `1 / 10`, and `Partition::check`
returns `true` all the same, because the bound it tests is the `float`
constant. -/
theorem Partition_check_fresh_area_above_tenth :
    cornerPartition.Fresh ∧ cornerPartition.parts ≠ [] ∧
    (∀ part ∈ cornerPartition.parts, part.outline ≠ []) ∧
    cornerPartition.check signedArea tenthVertices = some (true, cornerPartition) ∧
    tripleArea signedArea tenthVertices [0, 1, 2] 3 0 = 13421773 / 134217728 ∧
    ¬ (∀ part ∈ cornerPartition.parts, ∀ i, i < part.outline.length →
        tripleArea signedArea tenthVertices part.outline part.outline.length i ≤ 1 / 10) := by
  have ha : tripleArea signedArea tenthVertices [0, 1, 2] 3 0 = 13421773 / 134217728 :=
    tenthTriple_areas 0 (by omega)
  have hfresh : cornerPartition.Fresh := by
    intro part hp; simp [cornerPartition] at hp; subst hp; rfl
  have hout : ∀ part ∈ cornerPartition.parts, part.outline ≠ [] := by
    intro part hp; simp [cornerPartition] at hp; subst hp; simp
  refine ⟨hfresh, by simp [cornerPartition], hout, ?_, ha, ?_⟩
  · have hwf : ∀ part ∈ cornerPartition.parts, part.fail < part.outline.length := by
      intro part hp; simp [cornerPartition] at hp; subst hp; simp
    obtain ⟨b, parts', e1, e2, e3⟩ :=
      Partition.checkParts_spec signedArea tenthVertices cornerPartition.parts hwf _ 0 rfl
    have hb : b = true := by
      rw [e2]
      intro j' _ hj i hi
      have hj0 : j' = 0 := by simp [cornerPartition] at hj; omega
      subst hj0
      simp only [cornerPartition, List.getElem_cons_zero] at hi ⊢
      exact le_of_eq (tenthTriple_areas i hi)
    subst hb
    rw [e3 rfl] at e1
    unfold Partition.check
    simp only [cornerPartition, List.length_singleton, one_ne_zero, if_false] at e1 ⊢
    rw [e1]
  · intro h
    have := h ⟨[0, 1, 2], 0⟩ (by simp [cornerPartition]) 0 (by simp)
    simp only [List.length_cons, List.length_nil] at this
    rw [show (0 + 1 + 1 + 1 : Nat) = 3 from rfl, ha] at this
    norm_num at this

/-- C2, amended. For every vertex buffer and every freshly built `Partition`
(all cursors 0) with at least one part and no empty outline, `Partition::check`
returns, and it returns `true` exactly when every triple (vertex at `i`, next
cyclically later vertex differing from it, next vertex differing from that
one) of every part has signed area `cross(p0, p1, p2) <= eps`, where `eps` is
the `float` constant `0.1`, that is `13421773 / 2 ^ 27`; a decomposition whose
triples all satisfy this bound is therefore reported valid, and is left
unchanged. -/
theorem Partition_check_fresh_iff_all_triples (cross : ℚ → ℚ → ℚ → ℚ → ℚ → ℚ → ℚ)
    (vertices : Vertices) (P : Partition) (hfresh : P.Fresh) (hparts : P.parts ≠ [])
    (hout : ∀ part ∈ P.parts, part.outline ≠ []) :
    ∃ b P', P.check cross vertices = some (b, P') ∧
      (b = true ↔ ∀ part ∈ P.parts, ∀ i, i < part.outline.length →
        tripleArea cross vertices part.outline part.outline.length i ≤ Partition.eps) ∧
      (b = true → P' = P) := by
  have hwf : ∀ part ∈ P.parts, part.fail < part.outline.length := by
    intro part hp
    rw [hfresh part hp]
    exact List.length_pos.mpr (hout part hp)
  obtain ⟨b, parts', e1, e2, e3⟩ :=
    Partition.checkParts_spec cross vertices P.parts hwf _ 0 rfl
  have hlen : P.parts.length ≠ 0 := by
    intro h; exact hparts (List.length_eq_zero.mp h)
  refine ⟨b, ⟨parts'⟩, ?_, ?_, ?_⟩
  · simp only [Partition.check, hlen, if_false, e1]
  · rw [e2]
    constructor
    · intro h part hp i hi
      obtain ⟨j, hj, rfl⟩ := List.getElem_of_mem hp
      exact h j (Nat.zero_le _) hj i hi
    · intro h j' _ hj i hi
      exact h _ (List.getElem_mem _) i hi
  · intro hb
    rw [e3 hb]

/-- Witness for C2 (amended): the fresh one-part partition over three corner
vertices. -/
theorem Partition_check_fresh_iff_all_triples_witness :
    cornerPartition.Fresh ∧ cornerPartition.parts ≠ [] ∧
    (∀ part ∈ cornerPartition.parts, part.outline ≠ []) ∧
    ∃ b P', cornerPartition.check signedArea cornerVertices = some (b, P') ∧
      (b = true ↔ ∀ part ∈ cornerPartition.parts, ∀ i, i < part.outline.length →
        tripleArea signedArea cornerVertices part.outline part.outline.length i ≤ Partition.eps) ∧
      (b = true → P' = cornerPartition) :=
  ⟨by intro part hp; simp [cornerPartition] at hp; subst hp; rfl,
   by simp [cornerPartition],
   by intro part hp; simp [cornerPartition] at hp; subst hp; simp,
   Partition_check_fresh_iff_all_triples signedArea cornerVertices cornerPartition
    (by intro part hp; simp [cornerPartition] at hp; subst hp; rfl)
    (by simp [cornerPartition])
    (by intro part hp; simp [cornerPartition] at hp; subst hp; simp)⟩

/-! ### Triangulation cache: `check` -/

theorem Partition.check_total (cross : ℚ → ℚ → ℚ → ℚ → ℚ → ℚ → ℚ) (vertices : Vertices)
    (P : Partition) (h : P.WF) : ∃ b P', P.check cross vertices = some (b, P') := by
  unfold Partition.check
  simp only
  split
  · exact ⟨false, P, rfl⟩
  · obtain ⟨b, parts', e, -, -⟩ := Partition.checkParts_spec cross vertices P.parts h _ 0 rfl
    exact ⟨b, ⟨parts'⟩, by rw [e]⟩

theorem Partition.check_true_unchanged (cross : ℚ → ℚ → ℚ → ℚ → ℚ → ℚ → ℚ)
    (vertices : Vertices) (P P' : Partition) (h : P.WF)
    (e : P.check cross vertices = some (true, P')) : P' = P := by
  unfold Partition.check at e
  simp only at e
  split at e
  · cases e
  · obtain ⟨b, parts', e1, -, e3⟩ :=
      Partition.checkParts_spec cross vertices P.parts h _ 0 rfl
    rw [e1] at e
    simp only [Option.some.injEq, Prod.mk.injEq] at e
    obtain ⟨hb, hP⟩ := e
    rw [← hP, e3 hb]

theorem Partition.validates_of_check (cross : ℚ → ℚ → ℚ → ℚ → ℚ → ℚ → ℚ)
    (vertices : Vertices) (P P' : Partition) (b : Bool)
    (h : P.check cross vertices = some (b, P')) : P.validates cross vertices = b := by
  unfold Partition.validates
  rw [h]
  cases b <;> rfl

theorem TriangleCache.checkAt_spec (cross : ℚ → ℚ → ℚ → ℚ → ℚ → ℚ → ℚ)
    (vertices : Vertices) (c : TriangleCache) (j : Nat)
    (hj : j < c.triangulations.length)
    (hwf : (c.heap (c.triangulations[j])).partition.WF) :
    ∃ P', c.checkAt cross vertices (j : Int)
        = some ((c.heap (c.triangulations[j])).partition.validates cross vertices,
            c.setPartition (c.triangulations[j]) P') ∧
      ((c.heap (c.triangulations[j])).partition.validates cross vertices = true →
        P' = (c.heap (c.triangulations[j])).partition) := by
  obtain ⟨b, P', e⟩ := Partition.check_total cross vertices _ hwf
  refine ⟨P', ?_, ?_⟩
  · unfold TriangleCache.checkAt
    rw [if_neg (by omega)]
    simp only [Int.toNat_ofNat, List.getElem?_eq_getElem hj, e,
      Partition.validates_of_check cross vertices _ _ _ e]
  · intro hv
    rw [Partition.validates_of_check cross vertices _ _ _ e] at hv
    subst hv
    exact Partition.check_true_unchanged cross vertices _ _ hwf e

theorem SearchInv.mono (cross : ℚ → ℚ → ℚ → ℚ → ℚ → ℚ → ℚ) (vertices : Vertices)
    (c0 c : TriangleCache) (s s' : Nat → Prop)
    (h : ∀ j, j < c0.triangulations.length → (s j ↔ s' j))
    (hinv : SearchInv cross vertices c0 c s) : SearchInv cross vertices c0 c s' := by
  obtain ⟨a, b, d, e, f⟩ := hinv
  exact ⟨a, b, d, fun j hj hn => e j hj (fun hs => hn ((h j hj).mp hs)),
    fun j hj hs => f j hj ((h j hj).mpr hs)⟩

/-- Examining one more entry `j`: the call returns the verdict on the entry
as it was at entry; on a miss the invariant extends to `j`. -/
theorem SearchInv.step (cross : ℚ → ℚ → ℚ → ℚ → ℚ → ℚ → ℚ) (vertices : Vertices)
    (c0 c : TriangleCache) (s : Nat → Prop) (hwf : c0.WF)
    (hinv : SearchInv cross vertices c0 c s) (j : Nat)
    (hj : j < c0.triangulations.length) (hns : ¬ s j) :
    ∃ c1, c.checkAt cross vertices (j : Int)
        = some ((c0.heap (c0.triangulations[j])).partition.validates cross vertices, c1) ∧
      c1.triangulations = c0.triangulations ∧ c1.current = c0.current ∧
      (∀ p, (c1.heap p).useCount = (c0.heap p).useCount ∧
        (c1.heap p).keyframe = (c0.heap p).keyframe) ∧
      ((c0.heap (c0.triangulations[j])).partition.validates cross vertices = false →
        SearchInv cross vertices c0 c1 (fun x => s x ∨ x = j)) := by
  obtain ⟨h1, h2, h3, h4, h5⟩ := hinv
  have hj' : j < c.triangulations.length := by rw [h1]; exact hj
  have hget : c.triangulations[j] = c0.triangulations[j] := by simp only [h1]
  have hpart := h4 j hj hns
  have hwf' : (c.heap (c.triangulations[j])).partition.WF := by
    rw [hget, hpart]; exact hwf.2 _ (List.getElem_mem _)
  obtain ⟨P', e, -⟩ := TriangleCache.checkAt_spec cross vertices c j hj' hwf'
  rw [hget] at e
  rw [hpart] at e
  have hcount : ∀ p,
      ((c.setPartition (c0.triangulations[j]) P').heap p).useCount = (c0.heap p).useCount ∧
      ((c.setPartition (c0.triangulations[j]) P').heap p).keyframe = (c0.heap p).keyframe := by
    intro p
    unfold TriangleCache.setPartition
    by_cases hp : p = c0.triangulations[j]
    · subst hp
      simp only [Function.update_same]
      exact h3 _
    · simp only [Function.update_noteq hp]
      exact h3 p
  refine ⟨_, e, h1, h2, hcount, ?_⟩
  intro hv
  refine ⟨h1, h2, hcount, ?_, ?_⟩
  · intro x hx hnx
    have hxj : x ≠ j := fun h => hnx (Or.inr h)
    have hne : c0.triangulations[x] ≠ c0.triangulations[j] := by
      intro h
      exact hxj ((List.Nodup.getElem_inj_iff hwf.1).mp h)
    show ((Function.update c.heap _ _) _).partition = _
    rw [Function.update_noteq hne]
    exact h4 x hx (fun h => hnx (Or.inl h))
  · intro x hx hsx
    rcases hsx with h | h
    · exact h5 x hx h
    · subst h; exact hv
theorem TriangleCache.swap_eq (c : TriangleCache) (a b : Nat) :
    c.swap (a : Int) (b : Int)
      = { c with triangulations := swapAt c.triangulations a b } := by
  unfold TriangleCache.swap swapAt
  simp only [Int.toNat_ofNat]
  split <;> simp_all

theorem swapAt_getElem? (l : List Ptr) (a b : Nat) (ha : a < l.length) (hb : b < l.length) :
    (swapAt l a b)[a]? = some (l[b]) := by
  unfold swapAt
  rw [List.getElem?_eq_getElem ha, List.getElem?_eq_getElem hb]
  simp only
  by_cases h : a = b
  · subst h
    rw [List.getElem?_eq_getElem (by simp [ha])]
    simp
  · rw [List.getElem?_eq_getElem (by simp [ha])]
    rw [List.getElem_set_ne (fun h' => h h'.symm)]
    simp

/-- The statements executed on a match at index `j` when the new current
index is `a`: exchange, assignment to `current`, `useCount++`. -/
theorem TriangleCache.hit_epilogue (c1 : TriangleCache) (a j : Nat)
    (ha : a < c1.triangulations.length) (hj : j < c1.triangulations.length) :
    (TriangleCache.bumpUseCount
      { (c1.swap (a : Int) (j : Int)) with current := (a : Int) })
      = { triangulations := swapAt c1.triangulations a j
          current := (a : Int)
          heap := (c1.incUseCount (c1.triangulations[j])).heap } := by
  rw [TriangleCache.swap_eq]
  unfold TriangleCache.bumpUseCount
  simp only [Int.toNat_ofNat, swapAt_getElem? _ a j ha hj]
  rfl
theorem ringDistance_lt_iff (cur x : Nat) (i : Int) :
    ringDistance (cur : Int) (x : Int) < i ↔ ((x : Int) < cur + i ∧ (cur : Int) < x + i) := by
  unfold ringDistance
  split <;> omega

theorem TriangleCache.incUseCount_heap (c : TriangleCache) (p : Ptr) :
    ((c.incUseCount p).heap p).useCount = ((c.heap p).useCount + 1) % 2 ^ 64 ∧
    (∀ q, q ≠ p → (c.incUseCount p).heap q = c.heap q) ∧
    (∀ q, ((c.incUseCount p).heap q).keyframe = (c.heap q).keyframe) := by
  unfold TriangleCache.incUseCount
  refine ⟨by simp, fun q hq => by simp [Function.update_noteq hq], ?_⟩
  intro q
  by_cases hq : q = p
  · subst hq; simp
  · simp [Function.update_noteq hq]

theorem TriangleCache.tryForward_spec (cross : ℚ → ℚ → ℚ → ℚ → ℚ → ℚ → ℚ)
    (vertices : Vertices) (c0 c : TriangleCache) (hwf : c0.WF) (cur i : Nat)
    (hcur : c0.current = (cur : Int)) (hlt : cur < c0.triangulations.length) (hi : 1 ≤ i)
    (hinv : SearchInv cross vertices c0 c (fun x => ringDistance cur x < i)) :
    (∃ c1, c.tryForward cross vertices (c0.triangulations.length : Int) (i : Int)
        = some (false, c1) ∧
      SearchInv cross vertices c0 c1 (fun x => ringDistance cur x < i ∨ x = cur + i)) ∨
    (∃ c1, c.tryForward cross vertices (c0.triangulations.length : Int) (i : Int)
        = some (true, c1) ∧
      SearchHit cross vertices c0 (true, c1, true) (cur + i)) := by
  have hccur : c.current = (cur : Int) := by rw [hinv.2.1, hcur]
  unfold TriangleCache.tryForward
  rw [hccur]
  by_cases h : cur + i < c0.triangulations.length
  · have hc : (cur : Int) + (i : Int) < (c0.triangulations.length : Int) := by omega
    have hfw : ((cur : Int) + (i : Int)).tmod (c0.triangulations.length : Int)
        = ((cur + i : Nat) : Int) := by
      rw [Int.tmod_eq_of_lt (by omega) hc]; push_cast; rfl
    rw [if_pos hc]
    simp only [hfw]
    have hns : ¬ (ringDistance (cur : Int) ((cur + i : Nat) : Int) < (i : Int)) := by
      rw [ringDistance_lt_iff]; omega
    obtain ⟨c1, e, h1, h2, h3, h4⟩ :=
      SearchInv.step cross vertices c0 c _ hwf hinv (cur + i) h hns
    rw [e]
    cases hv : (c0.heap (c0.triangulations[cur + i])).partition.validates cross vertices with
    | false =>
      left
      exact ⟨c1, rfl, h4 hv⟩
    | true =>
      right
      simp only
      have hc1 : c1.current = (cur : Int) := by rw [h2, hcur]
      have hnext : (c1.current + 1).tmod (c0.triangulations.length : Int)
          = ((cur + 1 : Nat) : Int) := by
        rw [hc1, Int.tmod_eq_of_lt (by omega) (by omega)]; push_cast; rfl
      have hswap : (c1.swap ((cur + 1 : Nat) : Int) ((cur + i : Nat) : Int)).current
          = c1.current := by
        rw [TriangleCache.swap_eq]
      simp only [hnext, hswap]
      rw [TriangleCache.hit_epilogue c1 (cur + 1) (cur + i) (by rw [h1]; omega) (by rw [h1]; exact h)]
      refine ⟨_, rfl, h, hv, ?_, rfl, rfl, ?_, ?_, ?_, ?_, ?_, ?_⟩
      · intro j' hj' hb
        have hb' : ringDistance (cur : Int) (j' : Int) < (i : Int) := by
          rw [hcur] at hb
          unfold searchedBefore at hb
          unfold ringDistance at hb ⊢
          push_cast at hb
          split at hb <;> split at hb <;> split <;> omega
        exact hinv.2.2.2.2 j' hj' hb'
      · simp only [hcur]
        rw [if_pos (by push_cast; omega)]
        push_cast; rfl
      · simp only [h1, Int.toNat_ofNat]
      · simp only [Int.toNat_ofNat, h1]
        exact swapAt_getElem? _ _ _ (by omega) h
      · simp only [h1]
        rw [(TriangleCache.incUseCount_heap c1 _).1, (h3 _).1]
      · intro p hp
        simp only [h1]
        rw [(TriangleCache.incUseCount_heap c1 _).2.1 p hp, (h3 _).1]
      · intro p
        simp only [h1]
        rw [(TriangleCache.incUseCount_heap c1 _).2.2 p, (h3 _).2]
  · have hc : ¬ ((cur : Int) + (i : Int) < (c0.triangulations.length : Int)) := by omega
    rw [if_neg hc]
    left
    refine ⟨c, rfl, ?_⟩
    apply SearchInv.mono cross vertices c0 c _ _ _ hinv
    intro j hj
    constructor
    · intro hs; exact Or.inl hs
    · intro hs
      rcases hs with hs | hs
      · exact hs
      · omega
theorem TriangleCache.tryBackward_spec (cross : ℚ → ℚ → ℚ → ℚ → ℚ → ℚ → ℚ)
    (vertices : Vertices) (c0 c : TriangleCache) (hwf : c0.WF) (cur i : Nat)
    (hcur : c0.current = (cur : Int)) (hlt : cur < c0.triangulations.length) (hi : 1 ≤ i)
    (hinv : SearchInv cross vertices c0 c (fun x => ringDistance cur x < i ∨ x = cur + i)) :
    (∃ c1, c.tryBackward cross vertices (c0.triangulations.length : Int) (i : Int)
        = some (false, c1) ∧
      SearchInv cross vertices c0 c1 (fun x => ringDistance cur x < ((i + 1 : Nat) : Int))) ∨
    (∃ c1, c.tryBackward cross vertices (c0.triangulations.length : Int) (i : Int)
        = some (true, c1) ∧
      SearchHit cross vertices c0 (true, c1, true) (cur - i)) := by
  have hccur : c.current = (cur : Int) := by rw [hinv.2.1, hcur]
  unfold TriangleCache.tryBackward
  rw [hccur]
  by_cases h : i ≤ cur
  · have hc : (cur : Int) - (i : Int) ≥ 0 := by omega
    have hbw : ((cur : Int) + (c0.triangulations.length : Int) - (i : Int)).tmod
        (c0.triangulations.length : Int) = ((cur - i : Nat) : Int) := by
      rw [Int.tmod_eq_emod (by omega) (by omega),
        show (cur : Int) + (c0.triangulations.length : Int) - (i : Int)
          = ((cur : Int) - i) + (c0.triangulations.length : Int) by ring,
        Int.add_emod_self, Int.emod_eq_of_lt (by omega) (by omega)]
      omega
    have hjlt : cur - i < c0.triangulations.length := by omega
    rw [if_pos hc]
    simp only [hbw]
    have hns : ¬ (ringDistance (cur : Int) ((cur - i : Nat) : Int) < (i : Int)
        ∨ cur - i = cur + i) := by
      rw [ringDistance_lt_iff]; omega
    obtain ⟨c1, e, h1, h2, h3, h4⟩ :=
      SearchInv.step cross vertices c0 c _ hwf hinv (cur - i) hjlt hns
    rw [e]
    cases hv : (c0.heap (c0.triangulations[cur - i])).partition.validates cross vertices with
    | false =>
      left
      refine ⟨c1, rfl, ?_⟩
      apply SearchInv.mono cross vertices c0 c1 _ _ _ (h4 hv)
      intro j hj
      rw [ringDistance_lt_iff, ringDistance_lt_iff]
      omega
    | true =>
      right
      simp only
      have hc1 : c1.current = (cur : Int) := by rw [h2, hcur]
      have hnext : (c1.current + (c0.triangulations.length : Int) - 1).tmod
          (c0.triangulations.length : Int) = ((cur - 1 : Nat) : Int) := by
        rw [hc1, Int.tmod_eq_emod (by omega) (by omega),
          show (cur : Int) + (c0.triangulations.length : Int) - 1
            = ((cur : Int) - 1) + (c0.triangulations.length : Int) by ring,
          Int.add_emod_self, Int.emod_eq_of_lt (by omega) (by omega)]
        omega
      have hswap : (c1.swap ((cur - 1 : Nat) : Int) ((cur - i : Nat) : Int)).current
          = c1.current := by
        rw [TriangleCache.swap_eq]
      simp only [hnext, hswap]
      rw [TriangleCache.hit_epilogue c1 (cur - 1) (cur - i) (by rw [h1]; omega)
        (by rw [h1]; exact hjlt)]
      refine ⟨_, rfl, hjlt, hv, ?_, rfl, rfl, ?_, ?_, ?_, ?_, ?_, ?_⟩
      · intro j' hj' hb
        have hb' : ringDistance (cur : Int) (j' : Int) < (i : Int) ∨ j' = cur + i := by
          rw [hcur] at hb
          unfold searchedBefore at hb
          unfold ringDistance at hb ⊢
          split at hb <;> split at hb <;> split <;> omega
        exact hinv.2.2.2.2 j' hj' hb'
      · simp only [hcur]
        rw [if_neg (by omega)]
        omega
      · simp only [h1, Int.toNat_ofNat]
      · simp only [Int.toNat_ofNat, h1]
        exact swapAt_getElem? _ _ _ (by omega) hjlt
      · simp only [h1]
        rw [(TriangleCache.incUseCount_heap c1 _).1, (h3 _).1]
      · intro p hp
        simp only [h1]
        rw [(TriangleCache.incUseCount_heap c1 _).2.1 p hp, (h3 _).1]
      · intro p
        simp only [h1]
        rw [(TriangleCache.incUseCount_heap c1 _).2.2 p, (h3 _).2]
  · have hc : ¬ ((cur : Int) - (i : Int) ≥ 0) := by omega
    rw [if_neg hc]
    left
    refine ⟨c, rfl, ?_⟩
    apply SearchInv.mono cross vertices c0 c _ _ _ hinv
    intro j hj
    rw [ringDistance_lt_iff, ringDistance_lt_iff]
    omega
theorem TriangleCache.search_spec (cross : ℚ → ℚ → ℚ → ℚ → ℚ → ℚ → ℚ)
    (vertices : Vertices) (c0 : TriangleCache) (hwf : c0.WF) (cur : Nat)
    (hcur : c0.current = (cur : Int)) (hlt : cur < c0.triangulations.length)
    (tc : Bool) (k : Int)
    (hk : k = max (cur : Int) ((c0.triangulations.length : Int) - cur)) :
    ∀ (m i : Nat) (c : TriangleCache), (k + 1 - (i : Int)).toNat = m → 1 ≤ i →
      SearchInv cross vertices c0 c (fun x => ringDistance cur x < i) →
      ∃ r, TriangleCache.search cross vertices (c0.triangulations.length : Int) k c tc i
          = some r ∧
        (SearchMiss cross vertices c0 tc r ∨ ∃ j, SearchHit cross vertices c0 r j) := by
  intro m
  induction m with
  | zero =>
    intro i c hm hi hinv
    rw [TriangleCache.search, if_neg (by omega)]
    refine ⟨_, rfl, Or.inl ⟨rfl, rfl, hinv.1, hinv.2.1, hinv.2.2.1, ?_⟩⟩
    intro j hj
    apply hinv.2.2.2.2 j hj
    rw [ringDistance_lt_iff]
    omega
  | succ m ih =>
    intro i c hm hi hinv
    rw [TriangleCache.search, if_pos (by omega)]
    rcases TriangleCache.tryForward_spec cross vertices c0 c hwf cur i hcur hlt hi hinv with
      ⟨c1, e1, hinv1⟩ | ⟨c1, e1, hit⟩
    · rw [e1]
      simp only
      rcases TriangleCache.tryBackward_spec cross vertices c0 c1 hwf cur i hcur hlt hi hinv1 with
        ⟨c2, e2, hinv2⟩ | ⟨c2, e2, hit⟩
      · rw [e2]
        simp only
        have := ih (i + 1) c2 (by omega) (by omega) hinv2
        simpa using this
      · rw [e2]
        exact ⟨_, rfl, Or.inr ⟨_, hit⟩⟩
    · rw [e1]
      exact ⟨_, rfl, Or.inr ⟨_, hit⟩⟩

/-- `TriangleCache::check` on a well-formed cache with `0 <= current < n`:
either the current entry validates and only its use counter changes, or the
search decides. -/
theorem TriangleCache.check_spec (cross : ℚ → ℚ → ℚ → ℚ → ℚ → ℚ → ℚ)
    (vertices : Vertices) (c0 : TriangleCache) (hwf : c0.WF) (cur : Nat)
    (hcur : c0.current = (cur : Int)) (hlt : cur < c0.triangulations.length) (tc : Bool) :
    ∃ r, c0.check cross vertices tc = some r ∧
      (((c0.heap (c0.triangulations[cur])).partition.validates cross vertices = true ∧
          r.1 = true ∧ r.2.2 = tc ∧
          r.2.1.triangulations = c0.triangulations ∧ r.2.1.current = c0.current ∧
          (r.2.1.heap (c0.triangulations[cur])).useCount
            = ((c0.heap (c0.triangulations[cur])).useCount + 1) % 2 ^ 64 ∧
          (r.2.1.heap (c0.triangulations[cur])).keyframe
            = (c0.heap (c0.triangulations[cur])).keyframe ∧
          (r.2.1.heap (c0.triangulations[cur])).partition
            = (c0.heap (c0.triangulations[cur])).partition ∧
          (∀ p, p ≠ c0.triangulations[cur] → r.2.1.heap p = c0.heap p)) ∨
        ((c0.heap (c0.triangulations[cur])).partition.validates cross vertices = false ∧
          (SearchMiss cross vertices c0 tc r ∨ ∃ j, SearchHit cross vertices c0 r j))) := by
  have hinv0 : SearchInv cross vertices c0 c0 (fun _ => False) :=
    ⟨rfl, rfl, fun _ => ⟨rfl, rfl⟩, fun _ _ _ => rfl, fun _ _ h => h.elim⟩
  obtain ⟨c1, e, h1, h2, h3, h4⟩ :=
    SearchInv.step cross vertices c0 c0 _ hwf hinv0 cur hlt (fun h => h)
  obtain ⟨P', e', hP'⟩ := TriangleCache.checkAt_spec cross vertices c0 cur hlt
    (hwf.2 _ (List.getElem_mem _))
  unfold TriangleCache.check
  simp only
  rw [if_neg (by omega), if_neg (by rw [hcur]; omega), hcur, e]
  cases hv : (c0.heap (c0.triangulations[cur])).partition.validates cross vertices with
  | true =>
    rw [hv] at e e'
    have hc1 : c1 = c0.setPartition (c0.triangulations[cur]) P' := by
      rw [e] at e'
      simp only [Option.some.injEq, Prod.mk.injEq, true_and] at e'
      exact e'
    have hbump : c1.bumpUseCount = c1.incUseCount (c0.triangulations[cur]) := by
      unfold TriangleCache.bumpUseCount
      rw [h2, hcur]
      simp only [Int.toNat_ofNat, h1, List.getElem?_eq_getElem hlt]
    have hsame : ∀ p, c1.heap p = c0.heap p := by
      intro p
      rw [hc1, hP' hv]
      unfold TriangleCache.setPartition
      by_cases hp : p = c0.triangulations[cur]
      · subst hp; simp
      · simp [Function.update_noteq hp]
    refine ⟨_, rfl, Or.inl ⟨rfl, rfl, rfl, ?_, ?_, ?_, ?_, ?_, ?_⟩⟩
    · show c1.bumpUseCount.triangulations = _
      rw [hbump]; exact h1
    · show c1.bumpUseCount.current = _
      rw [hbump]; exact h2.trans hcur
    · show (c1.bumpUseCount.heap _).useCount = _
      rw [hbump, (TriangleCache.incUseCount_heap c1 _).1, hsame]
    · show (c1.bumpUseCount.heap _).keyframe = _
      rw [hbump, (TriangleCache.incUseCount_heap c1 _).2.2, hsame]
    · show (c1.bumpUseCount.heap _).partition = _
      rw [hbump, ← hsame]
      unfold TriangleCache.incUseCount
      simp
    · intro p hp
      show c1.bumpUseCount.heap p = _
      rw [hbump, (TriangleCache.incUseCount_heap c1 _).2.1 p hp, hsame]
  | false =>
    have hinv1 : SearchInv cross vertices c0 c1
        (fun x => ringDistance cur x < ((1 : Nat) : Int)) := by
      apply SearchInv.mono cross vertices c0 c1 _ _ _ (h4 hv)
      intro j hj
      rw [ringDistance_lt_iff]
      simp only [false_or]
      omega
    obtain ⟨r, er, hr⟩ := TriangleCache.search_spec cross vertices c0 hwf cur hcur hlt tc _ rfl
      _ 1 c1 rfl (le_refl _) hinv1
    refine ⟨r, ?_, Or.inr ⟨rfl, hr⟩⟩
    show TriangleCache.search cross vertices _ (max c1.current _) c1 tc 1 = some r
    rw [h2, hcur]
    exact er
theorem emptyPartition_validates (cross : ℚ → ℚ → ℚ → ℚ → ℚ → ℚ → ℚ) (vertices : Vertices) :
    emptyPartition.validates cross vertices = false := by
  simp [Partition.validates, Partition.check, emptyPartition]

theorem pointPartition_validates :
    pointPartition.validates signedArea cornerVertices = true := by
  simp [Partition.validates, Partition.check, pointPartition, Partition.checkParts,
    Partition.walk, tripleArea, find_unequal_forward, vertexAt, signedArea, cornerVertices,
    Partition.eps]
  norm_num

theorem swapAt_perm (l : List Ptr) (a b : Nat) : List.Perm (swapAt l a b) l := by
  unfold swapAt
  cases ha : l[a]? with
  | none => simp
  | some pa =>
    cases hb : l[b]? with
    | none => simp
    | some pb =>
      simp only
      obtain ⟨ha1, ha2⟩ := List.getElem?_eq_some_iff.mp ha
      obtain ⟨hb1, hb2⟩ := List.getElem?_eq_some_iff.mp hb
      rw [List.perm_iff_count]
      intro x
      by_cases hab : a = b
      · subst hab
        have : pa = pb := by rw [← ha2, ← hb2]
        subst this
        rw [List.count_set _ _ _ _ (by simp [hb1]), List.count_set _ _ _ _ ha1,
          List.getElem_set_self, ha2]
        have := List.boole_getElem_le_count x l a ha1
        rw [ha2] at this
        split <;> simp_all
      · rw [List.count_set _ _ _ _ (by simp [hb1]), List.count_set _ _ _ _ ha1,
          List.getElem_set_ne hab, hb2, ha2]
        have := List.boole_getElem_le_count x l a ha1
        rw [ha2] at this
        split <;> split <;> simp_all

theorem wrapCache_WF : wrapCache.WF := by
  refine ⟨by simp [wrapCache], ?_⟩
  intro p hp part hpart
  simp only [wrapCache, List.mem_cons, List.mem_singleton, List.not_mem_nil, or_false] at hp
  rcases hp with rfl | rfl
  · simp [wrapCache, wrapHeap, emptyPartition] at hpart
  · simp [wrapCache, wrapHeap, pointPartition] at hpart
    subst hpart
    simp

/-- C3, counterexample. A cache state with `0 <= current < n` in which the
second entry validates while the partition of the current entry has a part with
an empty outline: the assertion `i >= 0 && i < n` of `Partition::check` fails
in the first iteration of its walk, so `TriangleCache::check` does not return
valid. -/
theorem TriangleCache_check_empty_outline_no_result :
    (0 ≤ hollowCache.current ∧
      hollowCache.current < (hollowCache.triangulations.length : Int)) ∧
    (∃ p ∈ hollowCache.triangulations,
      (hollowCache.heap p).partition.validates signedArea cornerVertices = true) ∧
    Partition.walk signedArea cornerVertices [] 0 0 0 = Walk.assertFailed ∧
    hollowCache.check signedArea cornerVertices false = none := by
  have hw : Partition.walk signedArea cornerVertices [] 0 0 0 = Walk.assertFailed := by
    rw [Partition.walk, if_neg (by omega)]
  refine ⟨⟨by decide, by decide⟩, ⟨1, by simp [hollowCache], pointPartition_validates⟩, hw, ?_⟩
  have hp : hollowPartition.check signedArea cornerVertices = none := by
    unfold Partition.check
    simp only [hollowPartition, List.length_singleton, one_ne_zero, if_false]
    rw [Partition.checkParts, dif_pos (by simp)]
    simp only [List.getElem_cons_zero, List.length_nil, hw]
  unfold TriangleCache.check
  simp only [hollowCache, List.length_cons, List.length_nil]
  rw [if_neg (by decide), if_neg (by decide)]
  unfold TriangleCache.checkAt
  simp [hp]

/-- C3, amended. For every cache whose entries are distinct and whose stored
partitions have only non-empty outlines and in-range cursors, with
`0 <= current < n` (or `n = 0`), and every vertex buffer,
`TriangleCache::check` returns, and it returns `true` exactly when at least
one cached entry's partition validates against the vertex buffer (so the
search examines every entry); an empty cache reports `false`; and when the
result is `false` the current index and the order of the entries are
unchanged. -/
theorem TriangleCache_check_true_iff_some_entry_validates
    (cross : ℚ → ℚ → ℚ → ℚ → ℚ → ℚ → ℚ) (vertices : Vertices) (c : TriangleCache)
    (tc : Bool) (hwf : c.WF)
    (hcur : c.triangulations = [] ∨
      (0 ≤ c.current ∧ c.current < (c.triangulations.length : Int))) :
    ∃ b c' tc', c.check cross vertices tc = some (b, c', tc') ∧
      (b = true ↔ ∃ p ∈ c.triangulations,
        (c.heap p).partition.validates cross vertices = true) ∧
      (c.triangulations = [] → b = false) ∧
      (b = false → c'.current = c.current ∧ c'.triangulations = c.triangulations) := by
  by_cases hnil : c.triangulations = []
  · refine ⟨false, c, tc, ?_, ?_, fun _ => rfl, fun _ => ⟨rfl, rfl⟩⟩
    · unfold TriangleCache.check
      simp [hnil]
    · simp [hnil]
  · rcases hcur with h | ⟨h0, h1⟩
    · exact absurd h hnil
    · obtain ⟨cur, hc⟩ := Int.eq_ofNat_of_zero_le h0
      have hlt : cur < c.triangulations.length := by omega
      obtain ⟨r, er, hr⟩ := TriangleCache.check_spec cross vertices c hwf cur hc hlt tc
      refine ⟨r.1, r.2.1, r.2.2, er, ?_, fun h => absurd h hnil, ?_⟩
      · rcases hr with ⟨hv, hb, -⟩ | ⟨-, hm | ⟨j, hj, hv, -, hb, -⟩⟩
        · rw [hb]
          exact ⟨fun _ => ⟨_, List.getElem_mem _, hv⟩, fun _ => rfl⟩
        · rw [hm.1]
          simp only [Bool.false_eq_true, false_iff, not_exists, not_and]
          intro p hp
          obtain ⟨j, hj, rfl⟩ := List.getElem_of_mem hp
          rw [hm.2.2.2.2.2 j hj]
          simp
        · rw [hb]
          exact ⟨fun _ => ⟨_, List.getElem_mem _, hv⟩, fun _ => rfl⟩
      · intro hb
        rcases hr with ⟨-, hb', -⟩ | ⟨-, hm | ⟨j, hj, -, -, hb', -⟩⟩
        · rw [hb] at hb'; cases hb'
        · exact ⟨hm.2.2.2.1, hm.2.2.1⟩
        · rw [hb] at hb'; cases hb'

/-- Witness for C3 (amended): the two-entry cache whose current entry does
not validate. -/
theorem TriangleCache_check_true_iff_some_entry_validates_witness :
    wrapCache.WF ∧
    (wrapCache.triangulations = [] ∨
      (0 ≤ wrapCache.current ∧ wrapCache.current < (wrapCache.triangulations.length : Int))) ∧
    ∃ b c' tc', wrapCache.check signedArea cornerVertices false = some (b, c', tc') ∧
      (b = true ↔ ∃ p ∈ wrapCache.triangulations,
        (wrapCache.heap p).partition.validates signedArea cornerVertices = true) ∧
      (wrapCache.triangulations = [] → b = false) ∧
      (b = false → c'.current = wrapCache.current ∧
        c'.triangulations = wrapCache.triangulations) :=
  ⟨wrapCache_WF, Or.inr (by simp [wrapCache]),
    TriangleCache_check_true_iff_some_entry_validates signedArea cornerVertices wrapCache
      false wrapCache_WF (Or.inr (by simp [wrapCache]))⟩

/-- C4, counterexample. In the two-entry cache whose current entry does not
validate and whose other entry validates with use counter `2^64 - 1`, `check`
returns `true` with `trianglesChanged = true` and makes that entry current,
but its use counter is then `0`, not one higher than before. -/
theorem TriangleCache_check_search_hit_counter_wraps :
    (wrapCache.heap 0).partition.validates signedArea cornerVertices = false ∧
    (wrapCache.heap 1).partition.validates signedArea cornerVertices = true ∧
    ∃ c', wrapCache.check signedArea cornerVertices false = some (true, c', true) ∧
      c'.triangulations[c'.current.toNat]? = some 1 ∧
      (wrapCache.heap 1).useCount = 2 ^ 64 - 1 ∧
      (c'.heap 1).useCount = 0 ∧
      (c'.heap 1).useCount ≠ (wrapCache.heap 1).useCount + 1 := by
  have h0 : (wrapCache.heap 0).partition.validates signedArea cornerVertices = false :=
    emptyPartition_validates _ _
  have h1 : (wrapCache.heap 1).partition.validates signedArea cornerVertices = true :=
    pointPartition_validates
  refine ⟨h0, h1, ?_⟩
  obtain ⟨r, er, hr⟩ := TriangleCache.check_spec signedArea cornerVertices wrapCache
    wrapCache_WF 0 rfl (by simp [wrapCache]) false
  have hl0 : wrapCache.triangulations[0] = 0 := rfl
  rcases hr with ⟨hv, -⟩ | ⟨-, hm | ⟨j, hj, hv, -, hb, htc, -, -, hat, hcnt, -⟩⟩
  · rw [hl0, h0] at hv; cases hv
  · have := hm.2.2.2.2.2 1 (by simp [wrapCache])
    rw [show wrapCache.triangulations[1] = 1 from rfl, h1] at this
    cases this
  · have hj2 : j < 2 := hj
    have hj1 : j = 1 := by
      rcases Nat.lt_or_ge j 1 with h | h
      · have : j = 0 := by omega
        subst this
        rw [hl0, h0] at hv; cases hv
      · omega
    subst hj1
    rw [show wrapCache.triangulations[1] = 1 from rfl] at hat hcnt
    have hu : (wrapCache.heap 1).useCount = 2 ^ 64 - 1 := rfl
    rw [hu] at hcnt
    have hz : (r.2.1.heap 1).useCount = 0 := by rw [hcnt]; norm_num
    obtain ⟨b, c', tc'⟩ := r
    simp only at hb htc hat hz
    subst hb htc
    exact ⟨c', er, hat, hu, hz, by rw [hz, hu]; norm_num⟩

/-- C4, amended. For every well-formed cache with `0 <= current < n` whose
current entry does not validate while some entry does, `check` returns `true`
with `trianglesChanged = true`; the entry at the new current index is the
first validating entry in search order (distance 1 forward, 1 backward, 2
forward, ...); its use counter is the old one plus 1 modulo `2^64` (exactly
one higher unless it was `2^64 - 1`); the new current index is the old one
plus or minus 1 and still an index of the cache; no other entry's use counter
changed; and the sequence of entries is the original with two positions
exchanged, hence a permutation of it. -/
theorem TriangleCache_check_search_hit (cross : ℚ → ℚ → ℚ → ℚ → ℚ → ℚ → ℚ)
    (vertices : Vertices) (c : TriangleCache) (tc : Bool) (cur : Nat) (hwf : c.WF)
    (hcur : c.current = (cur : Int)) (hlt : cur < c.triangulations.length)
    (hbad : (c.heap (c.triangulations[cur])).partition.validates cross vertices = false)
    (hgood : ∃ p ∈ c.triangulations, (c.heap p).partition.validates cross vertices = true) :
    ∃ (c' : TriangleCache) (j : Nat) (hj : j < c.triangulations.length),
      c.check cross vertices tc = some (true, c', true) ∧
      (c.heap (c.triangulations[j])).partition.validates cross vertices = true ∧
      (∀ j', ∀ h' : j' < c.triangulations.length, searchedBefore c.current j' j →
        (c.heap (c.triangulations[j'])).partition.validates cross vertices = false) ∧
      c'.triangulations[c'.current.toNat]? = some (c.triangulations[j]) ∧
      (c'.heap (c.triangulations[j])).useCount
        = ((c.heap (c.triangulations[j])).useCount + 1) % 2 ^ 64 ∧
      ((c.heap (c.triangulations[j])).useCount < 2 ^ 64 - 1 →
        (c'.heap (c.triangulations[j])).useCount
          = (c.heap (c.triangulations[j])).useCount + 1) ∧
      (c'.current = c.current + 1 ∨ c'.current = c.current - 1) ∧
      (0 ≤ c'.current ∧ c'.current < (c.triangulations.length : Int)) ∧
      (∀ p, p ≠ c.triangulations[j] → (c'.heap p).useCount = (c.heap p).useCount) ∧
      c'.triangulations = swapAt c.triangulations c'.current.toNat j ∧
      List.Perm c'.triangulations c.triangulations := by
  obtain ⟨r, er, hr⟩ := TriangleCache.check_spec cross vertices c hwf cur hcur hlt tc
  rcases hr with ⟨hv, -⟩ | ⟨-, hm | ⟨j, hj, hv, hfirst, hb, htc, hc, hl, hat, hcnt, hoth, -⟩⟩
  · rw [hbad] at hv; cases hv
  · obtain ⟨p, hp, hpv⟩ := hgood
    obtain ⟨j, hj, rfl⟩ := List.getElem_of_mem hp
    rw [hm.2.2.2.2.2 j hj] at hpv; cases hpv
  · obtain ⟨b, c', tc'⟩ := r
    simp only at hb htc hc hl hat hcnt hoth
    subst hb htc
    have hjne : j ≠ cur := by
      intro h; subst h; rw [hbad] at hv; cases hv
    refine ⟨c', j, hj, er, hv, hfirst, hat, hcnt, ?_, ?_, ?_, hoth, hl, ?_⟩
    · intro hlt'
      rw [hcnt]
      exact Nat.mod_eq_of_lt (by omega)
    · rw [hc]; split
      · left; rfl
      · right; rfl
    · rw [hc, hcur]; split <;> omega
    · rw [hl]; exact swapAt_perm _ _ _

/-- Witness for C4 (amended): the two-entry cache whose current entry does
not validate. -/
theorem TriangleCache_check_search_hit_witness :
    wrapCache.WF ∧ wrapCache.current = ((0 : Nat) : Int) ∧
    (0 < wrapCache.triangulations.length) ∧
    (wrapCache.heap 0).partition.validates signedArea cornerVertices = false ∧
    (∃ p ∈ wrapCache.triangulations,
      (wrapCache.heap p).partition.validates signedArea cornerVertices = true) ∧
    ∃ (c' : TriangleCache) (j : Nat) (_ : j < wrapCache.triangulations.length),
      wrapCache.check signedArea cornerVertices false = some (true, c', true) ∧
      (c'.current = wrapCache.current + 1 ∨ c'.current = wrapCache.current - 1) ∧
      List.Perm c'.triangulations wrapCache.triangulations :=
  ⟨wrapCache_WF, rfl, by simp [wrapCache], emptyPartition_validates _ _,
    ⟨1, by simp [wrapCache], pointPartition_validates⟩,
    (TriangleCache_check_search_hit signedArea cornerVertices wrapCache false 0
      wrapCache_WF rfl (by simp [wrapCache]) (emptyPartition_validates _ _)
      ⟨1, by simp [wrapCache], pointPartition_validates⟩).imp fun _ h =>
        h.imp fun _ h' => h'.imp fun _ h'' =>
          ⟨h''.1, h''.2.2.2.2.2.2.1, h''.2.2.2.2.2.2.2.2.2.2⟩⟩

theorem Partition.checkParts_true_same (cross : ℚ → ℚ → ℚ → ℚ → ℚ → ℚ → ℚ)
    (vertices : Vertices) (parts : List Part) :
    ∀ (m j : Nat) (parts' : List Part), parts.length - j = m →
      Partition.checkParts cross vertices parts j = some (true, parts') → parts' = parts := by
  intro m
  induction m with
  | zero =>
    intro j parts' hm h
    rw [Partition.checkParts, dif_neg (by omega)] at h
    simp only [Option.some.injEq, Prod.mk.injEq, true_and] at h
    exact h.symm
  | succ m ih =>
    intro j parts' hm h
    rw [Partition.checkParts, dif_pos (by omega)] at h
    simp only at h
    split at h
    · cases h
    · simp at h
    · exact ih (j + 1) parts' (by omega) h

theorem Partition.check_true_same (cross : ℚ → ℚ → ℚ → ℚ → ℚ → ℚ → ℚ)
    (vertices : Vertices) (P : Partition) (h : P.validates cross vertices = true) :
    P.check cross vertices = some (true, P) := by
  unfold Partition.validates at h
  split at h
  · rename_i P' e
    unfold Partition.check at e ⊢
    simp only at e ⊢
    split at e
    · cases e
    · rename_i hne
      rw [if_neg hne]
      cases hc : Partition.checkParts cross vertices P.parts 0 with
      | none => rw [hc] at e; cases e
      | some r =>
        obtain ⟨b, parts'⟩ := r
        rw [hc] at e
        simp only [Option.some.injEq, Prod.mk.injEq] at e
        obtain ⟨hb, -⟩ := e
        subst hb
        rw [Partition.checkParts_true_same cross vertices P.parts _ 0 parts' rfl hc]
  · cases h

theorem TriangleCache.check_of_current_valid (cross : ℚ → ℚ → ℚ → ℚ → ℚ → ℚ → ℚ)
    (vertices : Vertices) (c : TriangleCache) (tc : Bool) (p : Ptr)
    (h0 : 0 ≤ c.current) (hp : c.triangulations[c.current.toNat]? = some p)
    (hv : (c.heap p).partition.validates cross vertices = true) :
    c.check cross vertices tc = some (true, c.incUseCount p, tc) := by
  have hchk := Partition.check_true_same cross vertices _ hv
  obtain ⟨hlt, -⟩ := List.getElem?_eq_some_iff.mp hp
  have hset : c.setPartition p (c.heap p).partition = c := by
    unfold TriangleCache.setPartition
    simp
  unfold TriangleCache.check
  simp only
  rw [if_neg (by omega), if_neg (by omega)]
  unfold TriangleCache.checkAt
  rw [if_neg (by omega)]
  simp only [hp, hchk, hset]
  unfold TriangleCache.bumpUseCount
  simp only [hp]

/-- C5, counterexample. On the one-entry cache whose entry validates and has
use counter `2^64 - 1`, called with `trianglesChanged = true`, `check` returns
`true` but `trianglesChanged` is still `true` on return and the use counter is
`0`, not one higher. -/
theorem TriangleCache_check_current_valid_flag_and_counter :
    (singleCache.heap 1).partition.validates signedArea cornerVertices = true ∧
    singleCache.triangulations[singleCache.current.toNat]? = some 1 ∧
    ∃ c', singleCache.check signedArea cornerVertices true = some (true, c', true) ∧
      (singleCache.heap 1).useCount = 2 ^ 64 - 1 ∧ (c'.heap 1).useCount = 0 :=
  ⟨pointPartition_validates, rfl, singleCache.incUseCount 1,
    TriangleCache.check_of_current_valid signedArea cornerVertices singleCache true 1
      (le_refl _) rfl pointPartition_validates,
    rfl, by simp [TriangleCache.incUseCount, singleCache, wrapHeap, UINT64_MAX]⟩

/-- C5, amended. For every cache whose current entry exists and validates,
`check` returns `true` and leaves `trianglesChanged` as the caller passed it
(so it reports "unchanged" when the caller passed `false`); the current
entry's use counter becomes the old one plus 1 modulo `2^64` (exactly one
higher unless it was `2^64 - 1`); the current index, the order of the entries,
the current entry's partition and keyframe flag, and every other entry are
unchanged. -/
theorem TriangleCache_check_current_valid (cross : ℚ → ℚ → ℚ → ℚ → ℚ → ℚ → ℚ)
    (vertices : Vertices) (c : TriangleCache) (tc : Bool) (p : Ptr)
    (h0 : 0 ≤ c.current) (hp : c.triangulations[c.current.toNat]? = some p)
    (hv : (c.heap p).partition.validates cross vertices = true) :
    ∃ c', c.check cross vertices tc = some (true, c', tc) ∧
      c'.current = c.current ∧ c'.triangulations = c.triangulations ∧
      (c'.heap p).useCount = ((c.heap p).useCount + 1) % 2 ^ 64 ∧
      ((c.heap p).useCount < 2 ^ 64 - 1 → (c'.heap p).useCount = (c.heap p).useCount + 1) ∧
      (c'.heap p).partition = (c.heap p).partition ∧
      (c'.heap p).keyframe = (c.heap p).keyframe ∧
      (∀ q, q ≠ p → c'.heap q = c.heap q) := by
  have hcheck := TriangleCache.check_of_current_valid cross vertices c tc p h0 hp hv
  refine ⟨_, hcheck, rfl, rfl, (TriangleCache.incUseCount_heap c p).1, ?_, ?_,
    (TriangleCache.incUseCount_heap c p).2.2 p, (TriangleCache.incUseCount_heap c p).2.1⟩
  · intro h
    rw [(TriangleCache.incUseCount_heap c p).1]
    exact Nat.mod_eq_of_lt (by omega)
  · unfold TriangleCache.incUseCount
    simp

/-- Witness for C5 (amended): the one-entry cache whose entry validates. -/
theorem TriangleCache_check_current_valid_witness :
    (0 : Int) ≤ singleCache.current ∧
    singleCache.triangulations[singleCache.current.toNat]? = some 1 ∧
    (singleCache.heap 1).partition.validates signedArea cornerVertices = true ∧
    ∃ c', singleCache.check signedArea cornerVertices false = some (true, c', false) ∧
      c'.current = singleCache.current ∧
      c'.triangulations = singleCache.triangulations :=
  ⟨le_refl _, rfl, pointPartition_validates,
    (TriangleCache_check_current_valid signedArea cornerVertices singleCache false 1
      (le_refl _) rfl pointPartition_validates).imp fun _ h => ⟨h.1, h.2.1, h.2.2.1⟩⟩

/-! ### Triangulation cache: `evict` -/

theorem TriangleCache.evictLoop_spec (heap : Ptr → Triangulation) :
    ∀ (l : List Ptr) (i : Int) (minCount : Nat) (minIndex : Int),
      ((TriangleCache.evictLoop heap l i (minCount, minIndex)) = (minCount, minIndex) ∧
        ∀ t ∈ l, (heap t).keyframe = false → minCount ≤ (heap t).useCount) ∨
      (∃ j, ∃ h : j < l.length,
        TriangleCache.evictLoop heap l i (minCount, minIndex)
          = ((heap (l[j])).useCount, i + (j : Int)) ∧
        (heap (l[j])).keyframe = false ∧
        (heap (l[j])).useCount < minCount ∧
        (∀ j', ∀ h' : j' < l.length, (heap (l[j'])).keyframe = false →
          (heap (l[j])).useCount ≤ (heap (l[j'])).useCount) ∧
        (∀ j', ∀ h' : j' < j, (heap (l[j'])).keyframe = false →
          (heap (l[j])).useCount < (heap (l[j'])).useCount)) := by
  intro l
  induction l with
  | nil =>
    intro i mc mi
    left
    exact ⟨rfl, fun t ht => by cases ht⟩
  | cons t rest ih =>
    intro i mc mi
    rw [TriangleCache.evictLoop]
    cases hk : (heap t).keyframe with
    | true =>
      rw [if_neg (by simp)]
      rcases ih (i + 1) mc mi with ⟨e, hall⟩ | ⟨j, hj, e, h1, h2, h3, h4⟩
      · left
        refine ⟨e, ?_⟩
        intro x hx hxk
        rcases List.mem_cons.mp hx with rfl | hx
        · rw [hk] at hxk; cases hxk
        · exact hall x hx hxk
      · right
        refine ⟨j + 1, by simp; omega, ?_, h1, h2, ?_, ?_⟩
        · rw [e]; simp only [List.getElem_cons_succ]; push_cast; congr 1; ring
        · intro j' hj' hk'
          cases j' with
          | zero => simp only [List.getElem_cons_zero] at hk'; rw [hk] at hk'; cases hk'
          | succ j' => exact h3 j' (by simpa using hj') hk'
        · intro j' hj' hk'
          cases j' with
          | zero => simp only [List.getElem_cons_zero] at hk'; rw [hk] at hk'; cases hk'
          | succ j' => exact h4 j' (by omega) hk'
    | false =>
      rw [if_pos (by simp)]
      by_cases hlt : (heap t).useCount < mc
      · rw [if_pos hlt]
        rcases ih (i + 1) (heap t).useCount i with ⟨e, hall⟩ | ⟨j, hj, e, h1, h2, h3, h4⟩
        · right
          refine ⟨0, by simp, ?_, hk, hlt, ?_, ?_⟩
          · rw [e]; simp
          · intro j' hj' hk'
            cases j' with
            | zero => simp
            | succ j' =>
              exact hall _ (List.getElem_mem _) hk'
          · intro j' hj' _; omega
        · right
          refine ⟨j + 1, by simp; omega, ?_, h1, by simp only [List.getElem_cons_succ]; omega,
            ?_, ?_⟩
          · rw [e]; simp only [List.getElem_cons_succ]; push_cast; congr 1; ring
          · intro j' hj' hk'
            cases j' with
            | zero => simp only [List.getElem_cons_zero, List.getElem_cons_succ]; omega
            | succ j' => exact h3 j' (by simpa using hj') hk'
          · intro j' hj' hk'
            cases j' with
            | zero => simp only [List.getElem_cons_zero, List.getElem_cons_succ]; omega
            | succ j' => exact h4 j' (by omega) hk'
      · rw [if_neg hlt]
        rcases ih (i + 1) mc mi with ⟨e, hall⟩ | ⟨j, hj, e, h1, h2, h3, h4⟩
        · left
          refine ⟨e, ?_⟩
          intro x hx hxk
          rcases List.mem_cons.mp hx with rfl | hx
          · omega
          · exact hall x hx hxk
        · right
          refine ⟨j + 1, by simp; omega, ?_, h1, h2, ?_, ?_⟩
          · rw [e]; simp only [List.getElem_cons_succ]; push_cast; congr 1; ring
          · intro j' hj' hk'
            cases j' with
            | zero => simp only [List.getElem_cons_zero, List.getElem_cons_succ]; omega
            | succ j' => exact h3 j' (by simpa using hj') hk'
          · intro j' hj' hk'
            cases j' with
            | zero => simp only [List.getElem_cons_zero, List.getElem_cons_succ]; omega
            | succ j' => exact h4 j' (by omega) hk'

theorem TriangleCache.evict_cases (c : TriangleCache) :
    (c.evict = c ∧
      ∀ t ∈ c.triangulations, (c.heap t).keyframe = false →
        UINT64_MAX ≤ (c.heap t).useCount) ∨
    (∃ j, ∃ h : j < c.triangulations.length,
      c.evict = { triangulations := c.triangulations.eraseIdx j
                  current := min c.current (((c.triangulations.eraseIdx j).length : Int) - 1)
                  heap := c.heap } ∧
      (c.heap (c.triangulations[j])).keyframe = false ∧
      (c.heap (c.triangulations[j])).useCount < UINT64_MAX ∧
      (∀ j', ∀ h' : j' < c.triangulations.length,
        (c.heap (c.triangulations[j'])).keyframe = false →
          (c.heap (c.triangulations[j])).useCount ≤ (c.heap (c.triangulations[j'])).useCount) ∧
      (∀ j', ∀ h' : j' < j, (c.heap (c.triangulations[j'])).keyframe = false →
        (c.heap (c.triangulations[j])).useCount < (c.heap (c.triangulations[j'])).useCount)) := by
  unfold TriangleCache.evict
  simp only
  rcases TriangleCache.evictLoop_spec c.heap c.triangulations 0 UINT64_MAX (-1) with
    ⟨e, hall⟩ | ⟨j, hj, e, h1, h2, h3, h4⟩
  · left
    rw [e]
    exact ⟨by simp, hall⟩
  · right
    rw [e]
    refine ⟨j, hj, ?_, h1, h2, h3, h4⟩
    rw [if_pos (by simp)]
    simp

theorem filter_eraseIdx_of_false (q : Ptr → Bool) :
    ∀ (l : List Ptr) (j : Nat) (h : j < l.length), q (l[j]) = false →
      (l.eraseIdx j).filter q = l.filter q := by
  intro l
  induction l with
  | nil => intro j h; simp at h
  | cons t rest ih =>
    intro j h hq
    cases j with
    | zero =>
      simp only [List.getElem_cons_zero] at hq
      simp [List.filter_cons, hq]
    | succ j =>
      simp only [List.getElem_cons_succ] at hq
      simp only [List.eraseIdx_cons_succ, List.filter_cons]
      rw [ih j (by simpa using h) hq]

theorem TriangleCache.evict_iterate (c : TriangleCache) :
    ∀ k : Nat, (Nat.iterate TriangleCache.evict k c).heap = c.heap ∧
      (Nat.iterate TriangleCache.evict k c).triangulations.filter
          (fun p => (c.heap p).keyframe)
        = c.triangulations.filter (fun p => (c.heap p).keyframe) ∧
      List.Sublist (Nat.iterate TriangleCache.evict k c).triangulations c.triangulations := by
  intro k
  induction k with
  | zero => exact ⟨rfl, rfl, List.Sublist.refl _⟩
  | succ k ih =>
    rw [Function.iterate_succ_apply']
    obtain ⟨h1, h2, h3⟩ := ih
    rcases TriangleCache.evict_cases (Nat.iterate TriangleCache.evict k c) with
      ⟨e, -⟩ | ⟨j, hj, e, hk, -⟩
    · rw [e]; exact ⟨h1, h2, h3⟩
    · rw [e]
      refine ⟨h1, ?_, (List.eraseIdx_sublist _ _).trans h3⟩
      simp only
      rw [filter_eraseIdx_of_false _ _ j hj (by rw [← h1]; exact hk), h2]

/-- C6. For every cache state and every number of repeated calls to
`TriangleCache::evict`, the keyframe entries are never removed: the
subsequence of keyframe entries is the same before and after (same entries,
same relative order), the remaining entries are a subsequence of the original
ones and the entries themselves are untouched; and a single call either
changes nothing or removes exactly one entry, which is not a keyframe. -/
theorem TriangleCache_evict_keeps_keyframes (c : TriangleCache) (k : Nat) :
    ((Nat.iterate TriangleCache.evict k c).heap = c.heap ∧
      (Nat.iterate TriangleCache.evict k c).triangulations.filter
          (fun p => (c.heap p).keyframe)
        = c.triangulations.filter (fun p => (c.heap p).keyframe) ∧
      List.Sublist (Nat.iterate TriangleCache.evict k c).triangulations c.triangulations) ∧
    (c.evict.triangulations = c.triangulations ∨
      ∃ j, ∃ h : j < c.triangulations.length,
        (c.heap (c.triangulations[j])).keyframe = false ∧
        c.evict.triangulations = c.triangulations.eraseIdx j ∧
        c.evict.triangulations.length + 1 = c.triangulations.length) := by
  refine ⟨TriangleCache.evict_iterate c k, ?_⟩
  rcases TriangleCache.evict_cases c with ⟨e, -⟩ | ⟨j, hj, e, hk, -⟩
  · left; rw [e]
  · right
    refine ⟨j, hj, hk, by rw [e], ?_⟩
    rw [e]
    simp only [List.length_eraseIdx, hj, if_true]
    omega

/-- C7, the code at the failing input. The one-entry cache whose entry is not
a keyframe and has use counter `2^64 - 1`: `evict` removes nothing. -/
theorem TriangleCache_evict_skips_max_counter :
    (singleCache.heap 1).keyframe = false ∧
    (singleCache.heap 1).useCount = 2 ^ 64 - 1 ∧
    singleCache.triangulations = [1] ∧
    singleCache.evict.triangulations = [1] := by
  refine ⟨rfl, rfl, rfl, ?_⟩
  simp [TriangleCache.evict, TriangleCache.evictLoop, singleCache, wrapHeap, UINT64_MAX]

/-- Away from the `uint64_t` maximum `evict` does what is intended: if some
non-keyframe entry has a use counter below `2^64 - 1`, exactly one entry is
removed, a non-keyframe entry of smallest use counter among the non-keyframe
entries, the earliest one on ties; the others keep their order. -/
theorem TriangleCache.evict_removes_least_used (c : TriangleCache)
    (h : ∃ t ∈ c.triangulations, (c.heap t).keyframe = false ∧
      (c.heap t).useCount < UINT64_MAX) :
    ∃ j, ∃ hj : j < c.triangulations.length,
      c.evict.triangulations = c.triangulations.eraseIdx j ∧
      (c.heap (c.triangulations[j])).keyframe = false ∧
      (∀ j', ∀ h' : j' < c.triangulations.length,
        (c.heap (c.triangulations[j'])).keyframe = false →
          (c.heap (c.triangulations[j])).useCount ≤ (c.heap (c.triangulations[j'])).useCount) ∧
      (∀ j', ∀ h' : j' < j, (c.heap (c.triangulations[j'])).keyframe = false →
        (c.heap (c.triangulations[j])).useCount < (c.heap (c.triangulations[j'])).useCount) := by
  rcases TriangleCache.evict_cases c with ⟨-, hall⟩ | ⟨j, hj, e, hk, -, h3, h4⟩
  · obtain ⟨t, ht, hk, hlt⟩ := h
    have := hall t ht hk
    omega
  · exact ⟨j, hj, by rw [e], hk, h3, h4⟩

/-- When every entry is a keyframe, `evict` changes nothing. -/
theorem TriangleCache.evict_all_keyframes (c : TriangleCache)
    (h : ∀ t ∈ c.triangulations, (c.heap t).keyframe = true) : c.evict = c := by
  rcases TriangleCache.evict_cases c with ⟨e, -⟩ | ⟨j, hj, -, hk, -⟩
  · exact e
  · rw [h _ (List.getElem_mem _)] at hk; cases hk

/-! ### IEEE rounding on concrete values -/

theorem intLog_two_eq (x : ℚ) (e : Int) (h1 : (2 : ℚ) ^ e ≤ x) (h2 : x < (2 : ℚ) ^ (e + 1)) :
    Int.log 2 x = e := by
  have hx : 0 < x := lt_of_lt_of_le (zpow_pos (by norm_num) e) h1
  have a : e ≤ Int.log 2 x := (Int.zpow_le_iff_le_log (by norm_num) hx).mp h1
  have b : Int.log 2 x < e + 1 := (Int.lt_zpow_iff_log_lt (by norm_num) hx).mp h2
  omega

/-- Evaluation of `binaryRound` on a number in the normal range: with `2 ^ e`
the unit in the last place at `x`, the result is the integer nearest to
`x / 2 ^ e` (ties to even) times `2 ^ e`. -/
theorem binaryRound_eq (p : Nat) (emin : Int) (x r : ℚ) (e : Int)
    (hlo : (2 : ℚ) ^ (e + ((p : Int) - 1)) ≤ |x|)
    (hhi : |x| < (2 : ℚ) ^ (e + ((p : Int) - 1) + 1))
    (he : emin ≤ e)
    (hr : (roundHalfEven (x / 2 ^ e) : ℚ) * 2 ^ e = r) :
    binaryRound p emin x = r := by
  have hl : Int.log 2 |x| = e + ((p : Int) - 1) := intLog_two_eq _ _ hlo hhi
  unfold binaryRound
  simp only [hl]
  rw [show e + ((p : Int) - 1) - ((p : Int) - 1) = e by ring, max_eq_left he]
  exact hr

theorem binaryRound_zero (p : Nat) (emin : Int) : binaryRound p emin 0 = 0 := by
  simp [binaryRound, roundHalfEven]

@[simp]
theorem binary32_zero : binary32 0 = 0 := binaryRound_zero _ _

@[simp]
theorem binary64_zero : binary64 0 = 0 := binaryRound_zero _ _

theorem binaryRound_pos (p : Nat) (emin : Int) (x r : ℚ) (e : Int)
    (hlo : (2 : ℚ) ^ (e + ((p : Int) - 1)) ≤ x)
    (hhi : x < (2 : ℚ) ^ (e + ((p : Int) - 1) + 1))
    (he : emin ≤ e)
    (hr : (roundHalfEven (x / 2 ^ e) : ℚ) * 2 ^ e = r) :
    binaryRound p emin x = r := by
  have hx : 0 < x := lt_of_lt_of_le (zpow_pos (by norm_num) _) hlo
  exact binaryRound_eq p emin x r e (by rw [abs_of_pos hx]; exact hlo)
    (by rw [abs_of_pos hx]; exact hhi) he hr

theorem binaryRound_neg (p : Nat) (emin : Int) (x r : ℚ) (e : Int)
    (hlo : (2 : ℚ) ^ (e + ((p : Int) - 1)) ≤ -x)
    (hhi : -x < (2 : ℚ) ^ (e + ((p : Int) - 1) + 1))
    (he : emin ≤ e)
    (hr : (roundHalfEven (x / 2 ^ e) : ℚ) * 2 ^ e = r) :
    binaryRound p emin x = r := by
  have hx : x < 0 := by
    have : 0 < -x := lt_of_lt_of_le (zpow_pos (by norm_num) _) hlo
    linarith
  exact binaryRound_eq p emin x r e (by rw [abs_of_neg hx]; exact hlo)
    (by rw [abs_of_neg hx]; exact hhi) he hr

/-! The values of `binary32` and `binary64` met in the runs in IEEE arithmetic
below. -/

@[simp]
theorem binary32_at_0 : binary32 (1 / 2) = 1 / 2 :=
  binaryRound_pos 24 (-149) _ _ (-24) (by norm_num) (by norm_num) (by norm_num)
    (by norm_num [roundHalfEven])

@[simp]
theorem binary32_at_1 : binary32 (1 / 100) = 5368709 / 536870912 :=
  binaryRound_pos 24 (-149) _ _ (-30) (by norm_num) (by norm_num) (by norm_num)
    (by norm_num [roundHalfEven])

@[simp]
theorem binary32_at_2 : binary32 (1 / 4) = 1 / 4 :=
  binaryRound_pos 24 (-149) _ _ (-25) (by norm_num) (by norm_num) (by norm_num)
    (by norm_num [roundHalfEven])

@[simp]
theorem binary32_at_3 : binary32 4 = 4 :=
  binaryRound_pos 24 (-149) _ _ (-21) (by norm_num) (by norm_num) (by norm_num)
    (by norm_num [roundHalfEven])

@[simp]
theorem binary32_at_4 : binary32 33554428 = 33554428 :=
  binaryRound_pos 24 (-149) _ _ 1 (by norm_num) (by norm_num) (by norm_num)
    (by norm_num [roundHalfEven])

@[simp]
theorem binary32_at_5 : binary32 1 = 1 :=
  binaryRound_pos 24 (-149) _ _ (-23) (by norm_num) (by norm_num) (by norm_num)
    (by norm_num [roundHalfEven])

@[simp]
theorem binary64_at_6 : binary64 4 = 4 :=
  binaryRound_pos 53 (-1074) _ _ (-50) (by norm_num) (by norm_num) (by norm_num)
    (by norm_num [roundHalfEven])

@[simp]
theorem binary64_at_7 : binary64 (-4) = -4 :=
  binaryRound_neg 53 (-1074) _ _ (-50) (by norm_num) (by norm_num) (by norm_num)
    (by norm_num [roundHalfEven])

@[simp]
theorem binary32_at_8 : binary32 (-1) = -1 :=
  binaryRound_neg 24 (-149) _ _ (-23) (by norm_num) (by norm_num) (by norm_num)
    (by norm_num [roundHalfEven])

@[simp]
theorem binary64_at_9 : binary64 16 = 16 :=
  binaryRound_pos 53 (-1074) _ _ (-48) (by norm_num) (by norm_num) (by norm_num)
    (by norm_num [roundHalfEven])

@[simp]
theorem binary64_at_10 : binary64 8 = 8 :=
  binaryRound_pos 53 (-1074) _ _ (-49) (by norm_num) (by norm_num) (by norm_num)
    (by norm_num [roundHalfEven])

@[simp]
theorem binary64_at_11 : binary64 64 = 64 :=
  binaryRound_pos 53 (-1074) _ _ (-46) (by norm_num) (by norm_num) (by norm_num)
    (by norm_num [roundHalfEven])

@[simp]
theorem binary32_at_12 : binary32 33554435 = 33554436 :=
  binaryRound_pos 24 (-149) _ _ 2 (by norm_num) (by norm_num) (by norm_num)
    (by norm_num [roundHalfEven])

@[simp]
theorem binary32_at_13 : binary32 16777218 = 16777218 :=
  binaryRound_pos 24 (-149) _ _ 1 (by norm_num) (by norm_num) (by norm_num)
    (by norm_num [roundHalfEven])

@[simp]
theorem binary32_at_14 : binary32 2 = 2 :=
  binaryRound_pos 24 (-149) _ _ (-22) (by norm_num) (by norm_num) (by norm_num)
    (by norm_num [roundHalfEven])

@[simp]
theorem binary32_at_15 : binary32 2607 = 2607 :=
  binaryRound_pos 24 (-149) _ _ (-12) (by norm_num) (by norm_num) (by norm_num)
    (by norm_num [roundHalfEven])

@[simp]
theorem binary32_at_16 : binary32 2133 = 2133 :=
  binaryRound_pos 24 (-149) _ _ (-12) (by norm_num) (by norm_num) (by norm_num)
    (by norm_num [roundHalfEven])

@[simp]
theorem binary32_at_17 : binary32 (-(5512639 / 4096)) = -(5512639 / 4096) :=
  binaryRound_neg 24 (-149) _ _ (-13) (by norm_num) (by norm_num) (by norm_num)
    (by norm_num [roundHalfEven])

@[simp]
theorem binary64_at_18 : binary64 (-(11758458987 / 4096)) = -(11758458987 / 4096) :=
  binaryRound_neg 53 (-1074) _ _ (-31) (by norm_num) (by norm_num) (by norm_num)
    (by norm_num [roundHalfEven])

@[simp]
theorem binary32_at_19 : binary32 (-(4510341 / 4096)) = -(4510341 / 4096) :=
  binaryRound_neg 24 (-149) _ _ (-13) (by norm_num) (by norm_num) (by norm_num)
    (by norm_num [roundHalfEven])

@[simp]
theorem binary32_at_20 : binary32 (-(21332707 / 8192)) = -(5333177 / 2048) :=
  binaryRound_neg 24 (-149) _ _ (-12) (by norm_num) (by norm_num) (by norm_num)
    (by norm_num [roundHalfEven])

@[simp]
theorem binary64_at_21 : binary64 (-(11375666541 / 2048)) = -(11375666541 / 2048) :=
  binaryRound_neg 53 (-1074) _ _ (-30) (by norm_num) (by norm_num) (by norm_num)
    (by norm_num [roundHalfEven])

@[simp]
theorem binary32_at_22 : binary32 (-(17454033 / 8192)) = -(1090877 / 512) :=
  binaryRound_neg 24 (-149) _ _ (-12) (by norm_num) (by norm_num) (by norm_num)
    (by norm_num [roundHalfEven])

@[simp]
theorem binary64_at_23 : binary64 (-(2843916339 / 512)) = -(2843916339 / 512) :=
  binaryRound_neg 53 (-1074) _ _ (-30) (by norm_num) (by norm_num) (by norm_num)
    (by norm_num [roundHalfEven])

@[simp]
theorem binary64_at_24 : binary64 (-(1185 / 2048)) = -(1185 / 2048) :=
  binaryRound_neg 53 (-1074) _ _ (-53) (by norm_num) (by norm_num) (by norm_num)
    (by norm_num [roundHalfEven])

@[simp]
theorem binary64_at_25 : binary64 6796449 = 6796449 :=
  binaryRound_pos 53 (-1074) _ _ (-30) (by norm_num) (by norm_num) (by norm_num)
    (by norm_num [roundHalfEven])

@[simp]
theorem binary64_at_26 : binary64 4549689 = 4549689 :=
  binaryRound_pos 53 (-1074) _ _ (-30) (by norm_num) (by norm_num) (by norm_num)
    (by norm_num [roundHalfEven])

@[simp]
theorem binary64_at_27 : binary64 11346138 = 11346138 :=
  binaryRound_pos 53 (-1074) _ _ (-29) (by norm_num) (by norm_num) (by norm_num)
    (by norm_num [roundHalfEven])

@[simp]
theorem binary64_at_28 : binary64 (1404225 / 4194304) = 1404225 / 4194304 :=
  binaryRound_pos 53 (-1074) _ _ (-54) (by norm_num) (by norm_num) (by norm_num)
    (by norm_num [roundHalfEven])

@[simp]
theorem binary64_at_29 : binary64 (5673069 / 2) = 5673069 / 2 :=
  binaryRound_pos 53 (-1074) _ _ (-31) (by norm_num) (by norm_num) (by norm_num)
    (by norm_num [roundHalfEven])

@[simp]
theorem binary32_at_30 : binary32 (10355103 / 8192) = 10355103 / 8192 :=
  binaryRound_pos 24 (-149) _ _ (-13) (by norm_num) (by norm_num) (by norm_num)
    (by norm_num [roundHalfEven])

@[simp]
theorem binary32_at_31 : binary32 (10355103 / 16384) = 10355103 / 16384 :=
  binaryRound_pos 24 (-149) _ _ (-14) (by norm_num) (by norm_num) (by norm_num)
    (by norm_num [roundHalfEven])

@[simp]
theorem binary32_at_32 : binary32 (8472357 / 8192) = 8472357 / 8192 :=
  binaryRound_pos 24 (-149) _ _ (-13) (by norm_num) (by norm_num) (by norm_num)
    (by norm_num [roundHalfEven])

@[simp]
theorem binary32_at_33 : binary32 (8472357 / 16384) = 8472357 / 16384 :=
  binaryRound_pos 24 (-149) _ _ (-14) (by norm_num) (by norm_num) (by norm_num)
    (by norm_num [roundHalfEven])

@[simp]
theorem binary32_at_34 : binary32 (3 / 4) = 3 / 4 :=
  binaryRound_pos 24 (-149) _ _ (-24) (by norm_num) (by norm_num) (by norm_num)
    (by norm_num [roundHalfEven])

@[simp]
theorem binary32_at_35 : binary32 (3 / 8) = 3 / 8 :=
  binaryRound_pos 24 (-149) _ _ (-25) (by norm_num) (by norm_num) (by norm_num)
    (by norm_num [roundHalfEven])

@[simp]
theorem binary32_at_36 : binary32 (67108863 / 33554432) = 2 :=
  binaryRound_pos 24 (-149) _ _ (-23) (by norm_num) (by norm_num) (by norm_num)
    (by norm_num [roundHalfEven])

@[simp]
theorem binary32_at_37 : binary32 (-3) = -3 :=
  binaryRound_neg 24 (-149) _ _ (-22) (by norm_num) (by norm_num) (by norm_num)
    (by norm_num [roundHalfEven])

@[simp]
theorem binary32_at_38 : binary32 (-2) = -2 :=
  binaryRound_neg 24 (-149) _ _ (-22) (by norm_num) (by norm_num) (by norm_num)
    (by norm_num [roundHalfEven])

@[simp]
theorem binary64_at_39 : binary64 (1 / 16) = 1 / 16 :=
  binaryRound_pos 53 (-1074) _ _ (-56) (by norm_num) (by norm_num) (by norm_num)
    (by norm_num [roundHalfEven])

@[simp]
theorem binary64_at_40 : binary64 (1 / 4) = 1 / 4 :=
  binaryRound_pos 53 (-1074) _ _ (-54) (by norm_num) (by norm_num) (by norm_num)
    (by norm_num [roundHalfEven])

@[simp]
theorem binary64_at_41 : binary64 (1 / 2) = 1 / 2 :=
  binaryRound_pos 53 (-1074) _ _ (-53) (by norm_num) (by norm_num) (by norm_num)
    (by norm_num [roundHalfEven])

@[simp]
theorem binary32_at_42 : binary32 16 = 16 :=
  binaryRound_pos 24 (-149) _ _ (-19) (by norm_num) (by norm_num) (by norm_num)
    (by norm_num [roundHalfEven])

@[simp]
theorem binary32_at_43 : binary32 (-12) = -12 :=
  binaryRound_neg 24 (-149) _ _ (-20) (by norm_num) (by norm_num) (by norm_num)
    (by norm_num [roundHalfEven])

@[simp]
theorem binary32_at_44 : binary32 (-8) = -8 :=
  binaryRound_neg 24 (-149) _ _ (-20) (by norm_num) (by norm_num) (by norm_num)
    (by norm_num [roundHalfEven])

@[simp]
theorem binary64_at_45 : binary64 (-8) = -8 :=
  binaryRound_neg 53 (-1074) _ _ (-49) (by norm_num) (by norm_num) (by norm_num)
    (by norm_num [roundHalfEven])

@[simp]
theorem binary64_at_46 : binary64 256 = 256 :=
  binaryRound_pos 53 (-1074) _ _ (-44) (by norm_num) (by norm_num) (by norm_num)
    (by norm_num [roundHalfEven])

@[simp]
theorem binary32_at_47 : binary32 12 = 12 :=
  binaryRound_pos 24 (-149) _ _ (-20) (by norm_num) (by norm_num) (by norm_num)
    (by norm_num [roundHalfEven])

@[simp]
theorem binary32_at_48 : binary32 6 = 6 :=
  binaryRound_pos 24 (-149) _ _ (-21) (by norm_num) (by norm_num) (by norm_num)
    (by norm_num [roundHalfEven])

/-! ### Adaptive flattener -/

theorem AdaptiveFlattener.caseCollinear_append {P : Type} (M : CMath)
    (ClipperPoint : ℚ → ℚ → P)
    (A : AdaptiveFlattener) (x1 y1 x2 y2 x3 y3 x4 y4 : ℚ) (points r : List P)
    (h : A.caseCollinear M ClipperPoint x1 y1 x2 y2 x3 y3 x4 y4 points = some r) :
    ∃ mid, r = points ++ mid := by
  unfold AdaptiveFlattener.caseCollinear at h
  simp only at h
  repeat' split at h
  all_goals first
    | (cases h; done)
    | (cases h; exact ⟨_, rfl⟩)
    | (cases h; exact ⟨[], (List.append_nil _).symm⟩)

theorem AdaptiveFlattener.switchCase_append {P : Type} (M : CMath)
    (ClipperPoint : ℚ → ℚ → P)
    (A : AdaptiveFlattener) (x1 y1 x2 y2 x3 y3 x4 y4 : ℚ) (points r : List P)
    (h : A.switchCase M ClipperPoint x1 y1 x2 y2 x3 y3 x4 y4 points = some r) :
    ∃ mid, r = points ++ mid := by
  unfold AdaptiveFlattener.switchCase at h
  simp only at h
  split at h
  · exact AdaptiveFlattener.caseCollinear_append M ClipperPoint A _ _ _ _ _ _ _ _ _ _ h
  all_goals repeat' split at h
  all_goals first
    | (cases h; done)
    | (cases h; exact ⟨_, rfl⟩)
    | (cases h; exact ⟨_, List.append_assoc _ _ _⟩)

/-- One step of the subdivision at a level not above the ceiling, when the
switch ends in a `break`: the two recursive calls, on sub-curves that share the
end points `(x1, y1)` and `(x4, y4)` with the curve and do not depend on the
points collected so far. -/
theorem AdaptiveFlattener.recursive_split {P : Type} (M : CMath)
    (ClipperPoint : ℚ → ℚ → P) (A : AdaptiveFlattener)
    (x1 y1 x2 y2 x3 y3 x4 y4 : ℚ) (level : Int) (h : ¬ level > A.recursionLimit) :
    ∃ a2 b2 a3 b3 a4 b4 c1 d1 c2 d2 c3 d3 : ℚ, ∀ points : List P,
      A.switchCase M ClipperPoint x1 y1 x2 y2 x3 y3 x4 y4 points = none →
      A.recursive M ClipperPoint x1 y1 x2 y2 x3 y3 x4 y4 points level
        = A.recursive M ClipperPoint c1 d1 c2 d2 c3 d3 x4 y4
            (A.recursive M ClipperPoint x1 y1 a2 b2 a3 b3 a4 b4 points (level + 1))
            (level + 1) ∧
      A.recursiveDeepest M ClipperPoint x1 y1 x2 y2 x3 y3 x4 y4 points level
        = ((A.recursiveDeepest M ClipperPoint c1 d1 c2 d2 c3 d3 x4 y4
              (A.recursiveDeepest M ClipperPoint x1 y1 a2 b2 a3 b3 a4 b4 points
                (level + 1)).1 (level + 1)).1,
            max (A.recursiveDeepest M ClipperPoint x1 y1 a2 b2 a3 b3 a4 b4 points
                (level + 1)).2
              (A.recursiveDeepest M ClipperPoint c1 d1 c2 d2 c3 d3 x4 y4
                (A.recursiveDeepest M ClipperPoint x1 y1 a2 b2 a3 b3 a4 b4 points
                  (level + 1)).1 (level + 1)).2) := by
  exact ⟨_, _, _, _, _, _, _, _, _, _, _, _, fun points hs =>
    ⟨by conv_lhs => rw [AdaptiveFlattener.recursive, if_neg h]
        simp only [hs]
        rfl,
     by conv_lhs => rw [AdaptiveFlattener.recursiveDeepest, if_neg h]
        simp only [hs]⟩⟩

theorem AdaptiveFlattener.recursive_of_return {P : Type} (M : CMath)
    (ClipperPoint : ℚ → ℚ → P) (A : AdaptiveFlattener)
    (x1 y1 x2 y2 x3 y3 x4 y4 : ℚ) (points r : List P) (level : Int)
    (h : ¬ level > A.recursionLimit)
    (hs : A.switchCase M ClipperPoint x1 y1 x2 y2 x3 y3 x4 y4 points = some r) :
    A.recursive M ClipperPoint x1 y1 x2 y2 x3 y3 x4 y4 points level = r ∧
    A.recursiveDeepest M ClipperPoint x1 y1 x2 y2 x3 y3 x4 y4 points level = (r, level) := by
  constructor
  · rw [AdaptiveFlattener.recursive, if_neg h]
    simp only [hs]
  · rw [AdaptiveFlattener.recursiveDeepest, if_neg h]
    simp only [hs]

theorem AdaptiveFlattener.recursive_append {P : Type} (M : CMath)
    (ClipperPoint : ℚ → ℚ → P) (A : AdaptiveFlattener) :
    ∀ (m : Nat) (level : Int) (x1 y1 x2 y2 x3 y3 x4 y4 : ℚ) (points : List P),
      (A.recursionLimit + 1 - level).toNat = m →
      ∃ mid, A.recursive M ClipperPoint x1 y1 x2 y2 x3 y3 x4 y4 points level
        = points ++ mid := by
  intro m
  induction m with
  | zero =>
    intro level x1 y1 x2 y2 x3 y3 x4 y4 points hm
    rw [AdaptiveFlattener.recursive, if_pos (by omega)]
    exact ⟨_, rfl⟩
  | succ m ih =>
    intro level x1 y1 x2 y2 x3 y3 x4 y4 points hm
    have hl : ¬ level > A.recursionLimit := by omega
    cases hs : A.switchCase M ClipperPoint x1 y1 x2 y2 x3 y3 x4 y4 points with
    | some r =>
      rw [(AdaptiveFlattener.recursive_of_return M ClipperPoint A _ _ _ _ _ _ _ _ _ _ _ hl hs).1]
      exact AdaptiveFlattener.switchCase_append M ClipperPoint A _ _ _ _ _ _ _ _ _ _ hs
    | none =>
      obtain ⟨a2, b2, a3, b3, a4, b4, c1, d1, c2, d2, c3, d3, hstep⟩ :=
        AdaptiveFlattener.recursive_split M ClipperPoint A x1 y1 x2 y2 x3 y3 x4 y4 level hl
      rw [(hstep points hs).1]
      obtain ⟨mid1, e1⟩ := ih (level + 1) x1 y1 a2 b2 a3 b3 a4 b4 points (by omega)
      rw [e1]
      obtain ⟨mid2, e2⟩ := ih (level + 1) c1 d1 c2 d2 c3 d3 x4 y4 (points ++ mid1) (by omega)
      rw [e2]
      exact ⟨mid1 ++ mid2, by simp⟩

/-- C9. For every curve, every tolerance setting and every caller-supplied
output sequence `s`, the per-curve `AdaptiveFlattener::flatten` only appends:
its result is `s ++ [P1] ++ m ++ [P4]` for some list `m`. -/
theorem AdaptiveFlattener_flatten_appends {P : Type} (M : CMath)
    (ClipperPoint : ℚ → ℚ → P) (A : AdaptiveFlattener)
    (x1 y1 x2 y2 x3 y3 x4 y4 : ℚ) (s : List P) :
    ∃ m, A.flatten M ClipperPoint x1 y1 x2 y2 x3 y3 x4 y4 s
      = s ++ [ClipperPoint x1 y1] ++ m ++ [ClipperPoint x4 y4] := by
  obtain ⟨mid, e⟩ := AdaptiveFlattener.recursive_append M ClipperPoint A _ 0
    x1 y1 x2 y2 x3 y3 x4 y4 (s ++ [ClipperPoint x1 y1]) rfl
  exact ⟨mid, by unfold AdaptiveFlattener.flatten; simp only [e]⟩

theorem AdaptiveFlattener.switchCase_single_significant {P : Type} (M : CMath)
    (ClipperPoint : ℚ → ℚ → P) (A : AdaptiveFlattener)
    (x1 y1 x2 y2 x3 y3 x4 y4 : ℚ) (points : List P)
    (hangle : A.angleTolerance < A.angleEpsilon)
    (hcase :
      (¬ chordDeviation M x1 y1 x4 y4 x2 y2 > A.colinearityEpsilon ∧
        chordDeviation M x1 y1 x4 y4 x3 y3 > A.colinearityEpsilon ∧
        M.double (chordDeviation M x1 y1 x4 y4 x3 y3 * chordDeviation M x1 y1 x4 y4 x3 y3)
          ≤ M.double (A.distanceToleranceSquare * chordLengthSquare M x1 y1 x4 y4)) ∨
      (chordDeviation M x1 y1 x4 y4 x2 y2 > A.colinearityEpsilon ∧
        ¬ chordDeviation M x1 y1 x4 y4 x3 y3 > A.colinearityEpsilon ∧
        M.double (chordDeviation M x1 y1 x4 y4 x2 y2 * chordDeviation M x1 y1 x4 y4 x2 y2)
          ≤ M.double (A.distanceToleranceSquare * chordLengthSquare M x1 y1 x4 y4))) :
    A.switchCase M ClipperPoint x1 y1 x2 y2 x3 y3 x4 y4 points
      = some (points ++ [ClipperPoint (M.float (M.float (x2 + x3) / 2))
          (M.float (M.float (y2 + y3) / 2))]) := by
  unfold AdaptiveFlattener.switchCase
  unfold chordDeviation chordLengthSquare at hcase
  simp only at hcase
  rcases hcase with ⟨a, b, c⟩ | ⟨a, b, c⟩
  · simp only [a, b, decide_False, decide_True, c, hangle, if_true]
  · simp only [a, b, decide_False, decide_True, c, hangle, if_true]

/-- C8, counterexample. Four collinear, pairwise distinct control-point
quadruples for which the output is not `[P1, P4]`: with the default tolerances
and `P2` before `P1` on the line, `P2` is emitted; with `recursionLimit = -1`
the end point is emitted twice; with a negative `colinearityEpsilon` the
midpoint of `P2 P3` is emitted (apart from `angleEpsilon = 0.01`, which is only
compared with `angleTolerance = 0`, all values met in these three runs are
binary fractions of a few bits, which `float` and `double` arithmetic compute
exactly).  And in IEEE arithmetic with the default tolerances, for `float`
control points on the line through `(0,0)` and `(2607,2133)` whose inner points
project strictly inside the chord, the deviation of `P3` is computed as
`1185/2048 > 0.5` (the `float` differences `x3 - x4`, `y3 - y4` are rounded), the
call is in a single-point-significant case and the midpoint of `P2 P3` is
emitted. -/
theorem AdaptiveFlattener_flatten_collinear_extra_points :
    (Collinear4 0 0 (-1 / 4) 0 2 0 4 0 ∧
      defaultFlattener.flatten plainMath Prod.mk 0 0 (-1 / 4) 0 2 0 4 0 []
        = [(0, 0), (-1 / 4, 0), (4, 0)]) ∧
    (Collinear4 0 0 1 0 2 0 4 0 ∧
      (tunedFlattener (-1) (1 / 2)).flatten plainMath Prod.mk 0 0 1 0 2 0 4 0 []
        = [(0, 0), (4, 0), (4, 0)]) ∧
    (Collinear4 0 0 1 0 2 0 4 0 ∧
      (tunedFlattener 8 (-1)).flatten plainMath Prod.mk 0 0 1 0 2 0 4 0 []
        = [(0, 0), (3 / 2, 0), (4, 0)]) ∧
    (Collinear4 0 0 (5165633 / 4096) (4226427 / 4096) (23837 / 8192) (19503 / 8192) 2607 2133 ∧
      ((0 : ℚ) < 5165633 / 4096 * 2607 + 4226427 / 4096 * 2133 ∧
        (5165633 / 4096 * 2607 + 4226427 / 4096 * 2133 : ℚ) < 2607 * 2607 + 2133 * 2133) ∧
      ((0 : ℚ) < 23837 / 8192 * 2607 + 19503 / 8192 * 2133 ∧
        (23837 / 8192 * 2607 + 19503 / 8192 * 2133 : ℚ) < 2607 * 2607 + 2133 * 2133) ∧
      ieeeDefaultFlattener.colinearityEpsilon = 1 / 2 ∧
      chordDeviation ieeeMath 0 0 2607 2133 (5165633 / 4096) (4226427 / 4096) = 0 ∧
      chordDeviation ieeeMath 0 0 2607 2133 (23837 / 8192) (19503 / 8192) = 1185 / 2048 ∧
      ieeeDefaultFlattener.flatten ieeeMath Prod.mk 0 0 (5165633 / 4096) (4226427 / 4096)
          (23837 / 8192) (19503 / 8192) 2607 2133 []
        = [(0, 0), (10355103 / 16384, 8472357 / 16384), (2607, 2133)]) := by
  have hd2 : chordDeviation ieeeMath 0 0 2607 2133 (5165633 / 4096) (4226427 / 4096) = 0 := by
    norm_num [chordDeviation, ieeeMath]
  have hd3 : chordDeviation ieeeMath 0 0 2607 2133 (23837 / 8192) (19503 / 8192)
      = 1185 / 2048 := by
    have habs : |(1185 : ℚ) / 2048| = 1185 / 2048 := abs_of_pos (by norm_num)
    norm_num [chordDeviation, ieeeMath, habs]
  have hk : chordLengthSquare ieeeMath 0 0 2607 2133 = 11346138 := by
    norm_num [chordLengthSquare, ieeeMath]
  have he : ieeeDefaultFlattener.colinearityEpsilon = 1 / 2 := by
    norm_num [ieeeDefaultFlattener, AdaptiveFlattener.new, ieeeMath]
  have hdts : ieeeDefaultFlattener.distanceToleranceSquare = 1 / 4 := by
    norm_num [ieeeDefaultFlattener, AdaptiveFlattener.new, ieeeMath]
  have hang : ieeeDefaultFlattener.angleTolerance < ieeeDefaultFlattener.angleEpsilon := by
    norm_num [ieeeDefaultFlattener, AdaptiveFlattener.new, ieeeMath]
  refine ⟨⟨?_, ?_⟩, ⟨?_, ?_⟩, ⟨?_, ?_⟩, ⟨?_, by norm_num, by norm_num, he, hd2, hd3, ?_⟩⟩
  · simp [Collinear4, signedArea]
  · rw [AdaptiveFlattener.flatten, AdaptiveFlattener.recursive]
    simp [defaultFlattener, AdaptiveFlattener.new, AdaptiveFlattener.switchCase,
      AdaptiveFlattener.caseCollinear, squareDistance, plainMath]
    norm_num
  · simp [Collinear4, signedArea]
  · rw [AdaptiveFlattener.flatten, AdaptiveFlattener.recursive]
    simp [tunedFlattener, AdaptiveFlattener.new, plainMath]
  · simp [Collinear4, signedArea]
  · rw [AdaptiveFlattener.flatten, AdaptiveFlattener.recursive]
    simp [tunedFlattener, AdaptiveFlattener.new, AdaptiveFlattener.switchCase, plainMath]
    norm_num
  · norm_num [Collinear4, signedArea]
  · rw [AdaptiveFlattener.flatten]
    simp only [List.nil_append]
    rw [(AdaptiveFlattener.recursive_of_return ieeeMath Prod.mk ieeeDefaultFlattener
      _ _ _ _ _ _ _ _ _ _ 0 (by decide)
      (AdaptiveFlattener.switchCase_single_significant ieeeMath Prod.mk ieeeDefaultFlattener
        0 0 (5165633 / 4096) (4226427 / 4096) (23837 / 8192) (19503 / 8192) 2607 2133 _ hang
        (Or.inl ⟨by rw [hd2, he]; norm_num, by rw [hd3, he]; norm_num, by
          rw [hd3, hdts, hk]
          norm_num [ieeeMath]⟩))).1]
    norm_num [ieeeMath]

theorem AdaptiveFlattener.switchCase_collinear_inside {P : Type} (M : CMath)
    (ClipperPoint : ℚ → ℚ → P) (A : AdaptiveFlattener)
    (x1 y1 x2 y2 x3 y3 x4 y4 : ℚ) (points : List P)
    (hd2 : ¬ chordDeviation M x1 y1 x4 y4 x2 y2 > A.colinearityEpsilon)
    (hd3 : ¬ chordDeviation M x1 y1 x4 y4 x3 y3 > A.colinearityEpsilon)
    (hk : chordLengthSquare M x1 y1 x4 y4 ≠ 0)
    (h2 : 0 < chordParameter M x1 y1 x4 y4 x2 y2 ∧ chordParameter M x1 y1 x4 y4 x2 y2 < 1)
    (h3 : 0 < chordParameter M x1 y1 x4 y4 x3 y3 ∧ chordParameter M x1 y1 x4 y4 x3 y3 < 1) :
    A.switchCase M ClipperPoint x1 y1 x2 y2 x3 y3 x4 y4 points = some points := by
  unfold chordDeviation at hd2 hd3
  unfold chordLengthSquare at hk
  unfold chordParameter at h2 h3
  simp only at hd2 hd3 hk h2 h3
  unfold AdaptiveFlattener.switchCase
  simp only [hd2, hd3, decide_False]
  unfold AdaptiveFlattener.caseCollinear
  simp only [hk, if_false]
  rw [if_pos ⟨h2.1, h2.2, h3.1, h3.2⟩]

/-- C8, amended. For every cubic curve that the flattener itself finds
all-collinear at level 0 (the deviations `d2`, `d3` of `P2` and `P3` from the
chord, as it computes them, do not exceed `colinearityEpsilon`), whose computed
squared chord length is not zero and whose inner control points `P2`, `P3`
have computed projection parameters strictly inside `(0, 1)`, and for every
tolerance setting with `recursionLimit >= 0`, `flatten` applied to an empty
sequence yields exactly `[P1, P4]`; this holds for every rounding of the
arithmetic. -/
theorem AdaptiveFlattener_flatten_collinear_inside {P : Type} (M : CMath)
    (ClipperPoint : ℚ → ℚ → P) (A : AdaptiveFlattener)
    (x1 y1 x2 y2 x3 y3 x4 y4 : ℚ)
    (hlim : 0 ≤ A.recursionLimit)
    (hd2 : ¬ chordDeviation M x1 y1 x4 y4 x2 y2 > A.colinearityEpsilon)
    (hd3 : ¬ chordDeviation M x1 y1 x4 y4 x3 y3 > A.colinearityEpsilon)
    (hk : chordLengthSquare M x1 y1 x4 y4 ≠ 0)
    (h2 : 0 < chordParameter M x1 y1 x4 y4 x2 y2 ∧ chordParameter M x1 y1 x4 y4 x2 y2 < 1)
    (h3 : 0 < chordParameter M x1 y1 x4 y4 x3 y3 ∧ chordParameter M x1 y1 x4 y4 x3 y3 < 1) :
    A.flatten M ClipperPoint x1 y1 x2 y2 x3 y3 x4 y4 []
      = [ClipperPoint x1 y1, ClipperPoint x4 y4] := by
  have hsw := AdaptiveFlattener.switchCase_collinear_inside M ClipperPoint A
    x1 y1 x2 y2 x3 y3 x4 y4 [ClipperPoint x1 y1] hd2 hd3 hk h2 h3
  rw [AdaptiveFlattener.flatten]
  simp only [List.nil_append]
  rw [(AdaptiveFlattener.recursive_of_return M ClipperPoint A _ _ _ _ _ _ _ _ _ _ 0
    (by omega) hsw).1]
  rfl

/-- Witness for C8 (amended): IEEE arithmetic, the default tolerances and the
control points `(0,0)`, `(1,0)`, `(2,0)`, `(4,0)`. -/
theorem AdaptiveFlattener_flatten_collinear_inside_witness :
    (0 : Int) ≤ ieeeDefaultFlattener.recursionLimit ∧
    ¬ chordDeviation ieeeMath 0 0 4 0 1 0 > ieeeDefaultFlattener.colinearityEpsilon ∧
    ¬ chordDeviation ieeeMath 0 0 4 0 2 0 > ieeeDefaultFlattener.colinearityEpsilon ∧
    chordLengthSquare ieeeMath 0 0 4 0 ≠ 0 ∧
    (0 < chordParameter ieeeMath 0 0 4 0 1 0 ∧ chordParameter ieeeMath 0 0 4 0 1 0 < 1) ∧
    (0 < chordParameter ieeeMath 0 0 4 0 2 0 ∧ chordParameter ieeeMath 0 0 4 0 2 0 < 1) ∧
    ieeeDefaultFlattener.flatten ieeeMath Prod.mk 0 0 1 0 2 0 4 0 [] = [(0, 0), (4, 0)] :=
  ⟨by decide,
   by norm_num [chordDeviation, ieeeMath, ieeeDefaultFlattener, AdaptiveFlattener.new],
   by norm_num [chordDeviation, ieeeMath, ieeeDefaultFlattener, AdaptiveFlattener.new],
   by norm_num [chordLengthSquare, ieeeMath],
   by norm_num [chordParameter, ieeeMath], by norm_num [chordParameter, ieeeMath],
   AdaptiveFlattener_flatten_collinear_inside ieeeMath Prod.mk ieeeDefaultFlattener
     0 0 1 0 2 0 4 0 (by decide)
     (by norm_num [chordDeviation, ieeeMath, ieeeDefaultFlattener, AdaptiveFlattener.new])
     (by norm_num [chordDeviation, ieeeMath, ieeeDefaultFlattener, AdaptiveFlattener.new])
     (by norm_num [chordLengthSquare, ieeeMath])
     (by norm_num [chordParameter, ieeeMath]) (by norm_num [chordParameter, ieeeMath])⟩

/-- In an arithmetic that does not round, the hypotheses of the collinear
short-circuit are geometric: for collinear control points whose inner points
project strictly inside the chord and `colinearityEpsilon >= 0`, `flatten`
applied to an empty sequence yields `[P1, P4]`. -/
theorem AdaptiveFlattener.flatten_collinear_inside_exact {P : Type} (M : CMath)
    (ClipperPoint : ℚ → ℚ → P) (A : AdaptiveFlattener)
    (x1 y1 x2 y2 x3 y3 x4 y4 : ℚ)
    (hF : ∀ q, M.float q = q) (hD : ∀ q, M.double q = q)
    (hlim : 0 ≤ A.recursionLimit) (heps : 0 ≤ A.colinearityEpsilon)
    (hcol : Collinear4 x1 y1 x2 y2 x3 y3 x4 y4)
    (h2 : 0 < (x2 - x1) * (x4 - x1) + (y2 - y1) * (y4 - y1) ∧
      (x2 - x1) * (x4 - x1) + (y2 - y1) * (y4 - y1)
        < (x4 - x1) * (x4 - x1) + (y4 - y1) * (y4 - y1))
    (h3 : 0 < (x3 - x1) * (x4 - x1) + (y3 - y1) * (y4 - y1) ∧
      (x3 - x1) * (x4 - x1) + (y3 - y1) * (y4 - y1)
        < (x4 - x1) * (x4 - x1) + (y4 - y1) * (y4 - y1)) :
    A.flatten M ClipperPoint x1 y1 x2 y2 x3 y3 x4 y4 []
      = [ClipperPoint x1 y1, ClipperPoint x4 y4] := by
  obtain ⟨-, c2, c3, -⟩ := hcol
  have hd2 : (x2 - x4) * (y4 - y1) - (y2 - y4) * (x4 - x1) = 0 := by
    unfold signedArea at c2; linarith
  have hd3 : (x3 - x4) * (y4 - y1) - (y3 - y4) * (x4 - x1) = 0 := by
    unfold signedArea at c3; linarith
  have hkpos : 0 < (x4 - x1) * (x4 - x1) + (y4 - y1) * (y4 - y1) := lt_trans h2.1 h2.2
  have hsw : A.switchCase M ClipperPoint x1 y1 x2 y2 x3 y3 x4 y4 [ClipperPoint x1 y1]
      = some [ClipperPoint x1 y1] := by
    apply AdaptiveFlattener.switchCase_collinear_inside
    · simp only [chordDeviation, hF, hD, hd2, abs_zero, gt_iff_lt, not_lt]; exact heps
    · simp only [chordDeviation, hF, hD, hd3, abs_zero, gt_iff_lt, not_lt]; exact heps
    · simp only [chordLengthSquare, hF, hD]; exact ne_of_gt hkpos
    · simp only [chordParameter, hF, hD]
      rw [one_div, inv_mul_eq_div]
      exact ⟨div_pos h2.1 hkpos, (div_lt_one hkpos).mpr h2.2⟩
    · simp only [chordParameter, hF, hD]
      rw [one_div, inv_mul_eq_div]
      exact ⟨div_pos h3.1 hkpos, (div_lt_one hkpos).mpr h3.2⟩
  rw [AdaptiveFlattener.flatten]
  simp only [List.nil_append]
  rw [(AdaptiveFlattener.recursive_of_return M ClipperPoint A _ _ _ _ _ _ _ _ _ _ 0
    (by omega) hsw).1]
  rfl

/-- C10, counterexample. Curves that never take the all-collinear branch and
whose output has two equal consecutive points, whatever the point constructor:
with the default tolerances the regular case emits the midpoint of `P2 P3`,
which here is `P1`; with `recursionLimit = 0` the recursion ceiling emits the
end point `P4`, which `flatten` then appends again.  And with a point
constructor that has integer coordinates, a curve in a single-point-significant
case repeats `P1` because the emitted point `(0, 1/8)` and `P1 = (0, 0)` are
the same point.  Apart from `angleEpsilon = 0.01`, which is only compared with
`angleTolerance = 0`, all values met in these runs are binary fractions of a
few bits, which `float` and `double` arithmetic compute exactly. -/
theorem AdaptiveFlattener_flatten_repeats_points :
    (defaultFlattener.takesCollinear plainMath 0 0 0 (1 / 4) 0 (-1 / 4) 4 0 0 = false ∧
      ∀ (P : Type) (ClipperPoint : ℚ → ℚ → P),
        defaultFlattener.flatten plainMath ClipperPoint 0 0 0 (1 / 4) 0 (-1 / 4) 4 0 []
          = [ClipperPoint 0 0, ClipperPoint 0 0, ClipperPoint 4 0] ∧
        ¬ NoEqualConsecutive
          (defaultFlattener.flatten plainMath ClipperPoint 0 0 0 (1 / 4) 0 (-1 / 4) 4 0 [])) ∧
    ((tunedFlattener 0 (1 / 2)).takesCollinear plainMath 0 0 0 100 100 100 100 0 0 = false ∧
      ∀ (P : Type) (ClipperPoint : ℚ → ℚ → P),
        (tunedFlattener 0 (1 / 2)).flatten plainMath ClipperPoint 0 0 0 100 100 100 100 0 []
          = [ClipperPoint 0 0, ClipperPoint 50 75, ClipperPoint 100 0, ClipperPoint 100 0] ∧
        ¬ NoEqualConsecutive
          ((tunedFlattener 0 (1 / 2)).flatten plainMath ClipperPoint
            0 0 0 100 100 100 100 0 [])) ∧
    (defaultFlattener.takesCollinear plainMath 0 0 0 0 0 (1 / 4) 4 0 0 = false ∧
      defaultFlattener.flatten plainMath intPoint 0 0 0 0 0 (1 / 4) 4 0 []
        = [(0, 0), (0, 0), (4, 0)] ∧
      ¬ NoEqualConsecutive
        (defaultFlattener.flatten plainMath intPoint 0 0 0 0 0 (1 / 4) 4 0 [])) := by
  have e1 : ∀ (P : Type) (ClipperPoint : ℚ → ℚ → P),
      defaultFlattener.flatten plainMath ClipperPoint 0 0 0 (1 / 4) 0 (-1 / 4) 4 0 []
        = [ClipperPoint 0 0, ClipperPoint 0 0, ClipperPoint 4 0] := by
    intro P ClipperPoint
    rw [AdaptiveFlattener.flatten, AdaptiveFlattener.recursive]
    simp [defaultFlattener, AdaptiveFlattener.new, AdaptiveFlattener.switchCase, plainMath]
    norm_num
  have e2 : ∀ (P : Type) (ClipperPoint : ℚ → ℚ → P),
      (tunedFlattener 0 (1 / 2)).flatten plainMath ClipperPoint 0 0 0 100 100 100 100 0 []
        = [ClipperPoint 0 0, ClipperPoint 50 75, ClipperPoint 100 0, ClipperPoint 100 0] := by
    intro P ClipperPoint
    rw [AdaptiveFlattener.flatten, AdaptiveFlattener.recursive]
    simp [tunedFlattener, AdaptiveFlattener.new, AdaptiveFlattener.switchCase, plainMath]
    norm_num
    rw [AdaptiveFlattener.recursive, AdaptiveFlattener.recursive]
    norm_num
  have e3 : defaultFlattener.flatten plainMath intPoint 0 0 0 0 0 (1 / 4) 4 0 []
      = [((0 : Int), (0 : Int)), (0, 0), (4, 0)] := by
    rw [AdaptiveFlattener.flatten, AdaptiveFlattener.recursive]
    simp [defaultFlattener, AdaptiveFlattener.new, AdaptiveFlattener.switchCase, plainMath,
      intPoint]
    norm_num
  refine ⟨⟨?_, fun P cp => ⟨e1 P cp, ?_⟩⟩, ⟨?_, fun P cp => ⟨e2 P cp, ?_⟩⟩, ⟨?_, e3, ?_⟩⟩
  · rw [AdaptiveFlattener.takesCollinear]
    simp [defaultFlattener, AdaptiveFlattener.new, AdaptiveFlattener.switchCase,
      chordDeviation, plainMath]
    norm_num
  · rw [e1]; simp [NoEqualConsecutive]
  · rw [AdaptiveFlattener.takesCollinear]
    simp [tunedFlattener, AdaptiveFlattener.new, AdaptiveFlattener.switchCase,
      chordDeviation, plainMath]
    norm_num
    rw [AdaptiveFlattener.takesCollinear, AdaptiveFlattener.takesCollinear]
    norm_num
  · rw [e2]; simp [NoEqualConsecutive]
  · rw [AdaptiveFlattener.takesCollinear]
    simp [defaultFlattener, AdaptiveFlattener.new, AdaptiveFlattener.switchCase,
      chordDeviation, plainMath]
    norm_num
  · rw [e3]; simp [NoEqualConsecutive]

/-- C10, amended. For every curve whose first call is in a
single-point-significant case (exactly one of the computed deviations `d2`,
`d3` exceeds `colinearityEpsilon`) and stops there on the distance test with
`angleTolerance < angleEpsilon`, and for `recursionLimit >= 0`, the output of
`flatten` on an empty sequence is `[P1, M, P4]`, where `M` is the point built
from `(x23, y23)`, the midpoint of `P2` and `P3` computed in `float`
arithmetic; the flattener suppresses no duplicates, so this output has no two
equal consecutive points exactly when the point constructor gives `M` a point
other than `P1` and other than `P4`. -/
theorem AdaptiveFlattener_flatten_single_significant_points {P : Type} (M : CMath)
    (ClipperPoint : ℚ → ℚ → P) (A : AdaptiveFlattener)
    (x1 y1 x2 y2 x3 y3 x4 y4 : ℚ)
    (hlim : 0 ≤ A.recursionLimit) (hangle : A.angleTolerance < A.angleEpsilon)
    (hcase :
      (¬ chordDeviation M x1 y1 x4 y4 x2 y2 > A.colinearityEpsilon ∧
        chordDeviation M x1 y1 x4 y4 x3 y3 > A.colinearityEpsilon ∧
        M.double (chordDeviation M x1 y1 x4 y4 x3 y3 * chordDeviation M x1 y1 x4 y4 x3 y3)
          ≤ M.double (A.distanceToleranceSquare * chordLengthSquare M x1 y1 x4 y4)) ∨
      (chordDeviation M x1 y1 x4 y4 x2 y2 > A.colinearityEpsilon ∧
        ¬ chordDeviation M x1 y1 x4 y4 x3 y3 > A.colinearityEpsilon ∧
        M.double (chordDeviation M x1 y1 x4 y4 x2 y2 * chordDeviation M x1 y1 x4 y4 x2 y2)
          ≤ M.double (A.distanceToleranceSquare * chordLengthSquare M x1 y1 x4 y4))) :
    A.flatten M ClipperPoint x1 y1 x2 y2 x3 y3 x4 y4 []
      = [ClipperPoint x1 y1,
          ClipperPoint (M.float (M.float (x2 + x3) / 2)) (M.float (M.float (y2 + y3) / 2)),
          ClipperPoint x4 y4] ∧
    (NoEqualConsecutive (A.flatten M ClipperPoint x1 y1 x2 y2 x3 y3 x4 y4 []) ↔
      ClipperPoint x1 y1
          ≠ ClipperPoint (M.float (M.float (x2 + x3) / 2)) (M.float (M.float (y2 + y3) / 2)) ∧
        ClipperPoint (M.float (M.float (x2 + x3) / 2)) (M.float (M.float (y2 + y3) / 2))
          ≠ ClipperPoint x4 y4) := by
  have hsw := AdaptiveFlattener.switchCase_single_significant M ClipperPoint A
    x1 y1 x2 y2 x3 y3 x4 y4 [ClipperPoint x1 y1] hangle hcase
  have hflat : A.flatten M ClipperPoint x1 y1 x2 y2 x3 y3 x4 y4 []
      = [ClipperPoint x1 y1,
          ClipperPoint (M.float (M.float (x2 + x3) / 2)) (M.float (M.float (y2 + y3) / 2)),
          ClipperPoint x4 y4] := by
    rw [AdaptiveFlattener.flatten]
    simp only [List.nil_append]
    rw [(AdaptiveFlattener.recursive_of_return M ClipperPoint A _ _ _ _ _ _ _ _ _ _ 0
      (by omega) hsw).1]
    rfl
  refine ⟨hflat, ?_⟩
  rw [hflat]
  unfold NoEqualConsecutive
  simp only [List.chain'_cons, List.chain'_singleton, and_true]

/-- Witness for C10 (amended): IEEE arithmetic, default tolerances, control
points `(0,0)`, `(4,0)`, `(8,1/2)`, `(16,0)` (only `P3` is significant) and the
point constructor with integer coordinates: the output is `(0,0)`, `(6,0)`,
`(16,0)` and has no two equal consecutive points. -/
theorem AdaptiveFlattener_flatten_single_significant_points_witness :
    (0 : Int) ≤ ieeeDefaultFlattener.recursionLimit ∧
    ieeeDefaultFlattener.angleTolerance < ieeeDefaultFlattener.angleEpsilon ∧
    ¬ chordDeviation ieeeMath 0 0 16 0 4 0 > ieeeDefaultFlattener.colinearityEpsilon ∧
    chordDeviation ieeeMath 0 0 16 0 8 (1 / 2) > ieeeDefaultFlattener.colinearityEpsilon ∧
    ieeeDefaultFlattener.flatten ieeeMath intPoint 0 0 4 0 8 (1 / 2) 16 0 []
      = [intPoint 0 0, intPoint (ieeeMath.float (ieeeMath.float (4 + 8) / 2))
          (ieeeMath.float (ieeeMath.float (0 + 1 / 2) / 2)), intPoint 16 0] ∧
    intPoint (ieeeMath.float (ieeeMath.float (4 + 8) / 2))
      (ieeeMath.float (ieeeMath.float (0 + 1 / 2) / 2)) = (6, 0) ∧
    NoEqualConsecutive
      (ieeeDefaultFlattener.flatten ieeeMath intPoint 0 0 4 0 8 (1 / 2) 16 0 []) :=
  ⟨by decide,
   by norm_num [ieeeDefaultFlattener, AdaptiveFlattener.new, ieeeMath],
   by norm_num [chordDeviation, ieeeDefaultFlattener, AdaptiveFlattener.new, ieeeMath],
   by norm_num [chordDeviation, ieeeDefaultFlattener, AdaptiveFlattener.new, ieeeMath],
   (AdaptiveFlattener_flatten_single_significant_points ieeeMath intPoint ieeeDefaultFlattener
     0 0 4 0 8 (1 / 2) 16 0 (by decide)
     (by norm_num [ieeeDefaultFlattener, AdaptiveFlattener.new, ieeeMath])
     (Or.inl (by
       norm_num [chordDeviation, chordLengthSquare, ieeeDefaultFlattener,
         AdaptiveFlattener.new, ieeeMath]))).1,
   by norm_num [intPoint, ieeeMath],
   (AdaptiveFlattener_flatten_single_significant_points ieeeMath intPoint ieeeDefaultFlattener
     0 0 4 0 8 (1 / 2) 16 0 (by decide)
     (by norm_num [ieeeDefaultFlattener, AdaptiveFlattener.new, ieeeMath])
     (Or.inl (by
       norm_num [chordDeviation, chordLengthSquare, ieeeDefaultFlattener,
         AdaptiveFlattener.new, ieeeMath]))).2.mpr
     ⟨by norm_num [intPoint, ieeeMath, Prod.ext_iff],
      by norm_num [intPoint, ieeeMath, Prod.ext_iff]⟩⟩

/-! ### Outline builder -/

theorem AdaptiveFlattener.flattenAll_fst {P : Type} (M : CMath) (ClipperPoint : ℚ → ℚ → P)
    (A : AdaptiveFlattener) :
    ∀ (subpaths : List Subpath) (fill : List (List P)) (closed : Bool),
      (A.flattenAll M ClipperPoint subpaths (fill, closed)).1
        = fill ++ subpaths.map (A.flattenSubpath M ClipperPoint) := by
  intro subpaths
  induction subpaths with
  | nil => intro fill closed; simp [AdaptiveFlattener.flattenAll]
  | cons sp rest ih =>
    intro fill closed
    rw [AdaptiveFlattener.flattenAll, ih]
    simp

theorem pointSubpath_flatten :
    defaultFlattener.flattenSubpath plainMath Prod.mk pointSubpath = [((0 : ℚ), (0 : ℚ))] := by
  have h : ∀ result : List (ℚ × ℚ),
      defaultFlattener.flattenCurves plainMath Prod.mk pointSubpath.pts pointSubpath.npts 0
        result = result := by
    intro result
    rw [AdaptiveFlattener.flattenCurves]
    simp [pointSubpath]
  unfold AdaptiveFlattener.flattenSubpath
  simp only [h]
  simp [pointSubpath, plainMath]

/-- C11, counterexample. A path with one subpath and fill rule `2` (neither
nonzero nor even-odd), tessellated into a fresh tessellation: after the call
the fill polygon set holds the flattened subpath, it is not what it was before
the call. -/
theorem AdaptiveFlattener_operator_unknown_fill_rule_keeps_flattened :
    (pointPath 2 0 0).fillRule ≠ nanosvgConstants.NSVG_FILLRULE_NONZERO ∧
    (pointPath 2 0 0).fillRule ≠ nanosvgConstants.NSVG_FILLRULE_EVENODD ∧
    (defaultFlattener.operatorCall plainMath Prod.mk nanosvgConstants plainClipper
        (pointPath 2 0 0) ⟨[], ()⟩).1.fill = [[(0, 0)]] ∧
    (defaultFlattener.operatorCall plainMath Prod.mk nanosvgConstants plainClipper
        (pointPath 2 0 0) ⟨[], ()⟩).1.fill ≠ [] := by
  have e : (defaultFlattener.operatorCall plainMath Prod.mk nanosvgConstants plainClipper
      (pointPath 2 0 0) ⟨[], ()⟩).1.fill = [[((0 : ℚ), (0 : ℚ))]] := by
    unfold AdaptiveFlattener.operatorCall
    simp [AdaptiveFlattener.flattenAll_fst, pointPath, nanosvgConstants, pointSubpath_flatten]
  refine ⟨by decide, by decide, e, ?_⟩
  rw [e]; simp

/-- C11, amended. For every path whose fill rule is neither nonzero nor
even-odd, `AdaptiveFlattener::operator()` stops after flattening: the stroke
is exactly what it was before the call, no warning is emitted and no
simplification, offsetting or difference step runs, and the fill polygon set
is the one before the call followed by the flattened polyline of every
subpath, in order; so the tessellation is unchanged exactly when the path has
no subpaths. -/
theorem AdaptiveFlattener_operator_unknown_fill_rule {P PolyTree : Type} (M : CMath)
    (ClipperPoint : ℚ → ℚ → P) (K : NsvgConstants) (L : ClipperLib P PolyTree)
    (A : AdaptiveFlattener) (path : ShapePath) (tesselation : Tesselation P PolyTree)
    (h1 : path.fillRule ≠ K.NSVG_FILLRULE_NONZERO)
    (h2 : path.fillRule ≠ K.NSVG_FILLRULE_EVENODD) :
    (A.operatorCall M ClipperPoint K L path tesselation).1.stroke = tesselation.stroke ∧
    (A.operatorCall M ClipperPoint K L path tesselation).1.fill
      = tesselation.fill ++ path.subpaths.map (A.flattenSubpath M ClipperPoint) ∧
    (A.operatorCall M ClipperPoint K L path tesselation).2 = [] ∧
    ((A.operatorCall M ClipperPoint K L path tesselation).1.fill = tesselation.fill ↔
      path.subpaths = []) := by
  have e : A.operatorCall M ClipperPoint K L path tesselation
      = ({ tesselation with
            fill := tesselation.fill ++ path.subpaths.map (A.flattenSubpath M ClipperPoint) },
          []) := by
    unfold AdaptiveFlattener.operatorCall
    simp only [h1, h2, if_false, AdaptiveFlattener.flattenAll_fst]
  rw [e]
  refine ⟨rfl, rfl, rfl, ?_⟩
  simp

/-- Witness for C11 (amended): the one-subpath path with fill rule `2`. -/
theorem AdaptiveFlattener_operator_unknown_fill_rule_witness :
    (pointPath 2 0 0).fillRule ≠ nanosvgConstants.NSVG_FILLRULE_NONZERO ∧
    (pointPath 2 0 0).fillRule ≠ nanosvgConstants.NSVG_FILLRULE_EVENODD ∧
    (defaultFlattener.operatorCall plainMath Prod.mk nanosvgConstants plainClipper
        (pointPath 2 0 0) ⟨[], ()⟩).2 = [] :=
  ⟨by decide, by decide,
    (AdaptiveFlattener_operator_unknown_fill_rule plainMath Prod.mk nanosvgConstants
      plainClipper defaultFlattener (pointPath 2 0 0) ⟨[], ()⟩ (by decide) (by decide)).2.2.1⟩

/-- C12, counterexample. A shape with a stroke paint, `strokeWidth = 0.75`
(scaled half-width 0.375) and fill rule `2`: `operator()` returns before the
stroke step, nothing is handed to the offsetting collaborator.  And in IEEE
arithmetic, a shape with the nonzero fill rule, a stroke paint and the `float`
width `8193/8192` at the `float` scale `8191/4096`: `strokeWidth * scale / 2` is
`67108863/67108864 < 1`, but the `float` product `strokeWidth * scale` is
rounded to 2, there is no warning and the collaborator is handed the distance
1, not 0. -/
theorem AdaptiveFlattener_operator_stroke_skipped_on_unknown_fill_rule :
    ((pointPath 2 1 (3 / 4)).strokeType ≠ nanosvgConstants.NSVG_PAINT_NONE ∧
      (pointPath 2 1 (3 / 4)).strokeWidth > 0 ∧
      (defaultFlattener.operatorCall plainMath Prod.mk nanosvgConstants plainClipper
          (pointPath 2 1 (3 / 4)) ⟨[], ()⟩).2 = []) ∧
    ((pointPath 0 1 (8193 / 8192)).strokeType ≠ nanosvgConstants.NSVG_PAINT_NONE ∧
      (pointPath 0 1 (8193 / 8192)).strokeWidth > 0 ∧
      (pointPath 0 1 (8193 / 8192)).strokeWidth * ieeeScaledFlattener.scale / 2 < 1 ∧
      (ieeeScaledFlattener.operatorCall ieeeMath Prod.mk nanosvgConstants plainClipper
          (pointPath 0 1 (8193 / 8192)) ⟨[], ()⟩).2
        = [Effect.simplifyPolygons, Effect.offsetExecute 1, Effect.executeDifference]) := by
  refine ⟨⟨by decide, by norm_num [pointPath], ?_⟩, ⟨by decide, by norm_num [pointPath],
    by norm_num [pointPath, ieeeScaledFlattener, AdaptiveFlattener.new], ?_⟩⟩
  · unfold AdaptiveFlattener.operatorCall
    simp [pointPath, nanosvgConstants]
  · unfold AdaptiveFlattener.operatorCall
    norm_num [pointPath, nanosvgConstants, ieeeScaledFlattener, AdaptiveFlattener.new, ieeeMath]

/-- C12, amended. For every shape with a recognised fill rule (nonzero or
even-odd), a stroke paint and `strokeWidth > 0`, and every scale, the stroke
step runs: after `SimplifyPolygons` the offsetting collaborator is executed
once, with distance `0` (after a warning) when the `float` value
`strokeWidth * scale * 0.5f`, as the code computes it, is below 1 and with
that value otherwise, followed by the difference step; the distance is never
negative and never strictly between 0 and 1.  For every shape with
`strokeWidth <= 0` or no stroke paint, whatever the fill rule, no offsetting
and no difference step is performed. -/
theorem AdaptiveFlattener_operator_stroke_offset {P PolyTree : Type} (M : CMath)
    (ClipperPoint : ℚ → ℚ → P) (K : NsvgConstants) (L : ClipperLib P PolyTree)
    (A : AdaptiveFlattener) (path : ShapePath) (tesselation : Tesselation P PolyTree) :
    ((path.fillRule = K.NSVG_FILLRULE_NONZERO ∨ path.fillRule = K.NSVG_FILLRULE_EVENODD) →
      path.strokeType ≠ K.NSVG_PAINT_NONE → path.strokeWidth > 0 →
      ∃ lineOffset : ℚ,
        (A.operatorCall M ClipperPoint K L path tesselation).2
          = (if scaledHalfWidth M A path.strokeWidth < 1
              then [Effect.simplifyPolygons, Effect.warn]
              else [Effect.simplifyPolygons])
            ++ [Effect.offsetExecute lineOffset, Effect.executeDifference] ∧
        lineOffset = (if scaledHalfWidth M A path.strokeWidth < 1 then 0
          else scaledHalfWidth M A path.strokeWidth) ∧
        0 ≤ lineOffset ∧ ¬ (0 < lineOffset ∧ lineOffset < 1)) ∧
    ((path.strokeType = K.NSVG_PAINT_NONE ∨ path.strokeWidth ≤ 0) →
      ((A.operatorCall M ClipperPoint K L path tesselation).2 = [] ∨
        (A.operatorCall M ClipperPoint K L path tesselation).2 = [Effect.simplifyPolygons]) ∧
      (∀ d, Effect.offsetExecute d ∉ (A.operatorCall M ClipperPoint K L path tesselation).2) ∧
      Effect.executeDifference ∉ (A.operatorCall M ClipperPoint K L path tesselation).2) := by
  constructor
  · intro hfill hpaint hwidth
    have hstroke : (decide (path.strokeType ≠ K.NSVG_PAINT_NONE)
        && decide (path.strokeWidth > 0)) = true := by simp [hpaint, hwidth]
    refine ⟨if scaledHalfWidth M A path.strokeWidth < 1 then 0
      else scaledHalfWidth M A path.strokeWidth, ?_, rfl, ?_, ?_⟩
    · obtain ⟨ft, hft⟩ : ∃ ft, (if path.fillRule = K.NSVG_FILLRULE_NONZERO
          then some PolyFillType.pftNonZero
          else if path.fillRule = K.NSVG_FILLRULE_EVENODD then some PolyFillType.pftEvenOdd
          else none) = some ft := by
        by_cases h1 : path.fillRule = K.NSVG_FILLRULE_NONZERO
        · exact ⟨_, by rw [if_pos h1]⟩
        · rcases hfill with h | h
          · exact absurd h h1
          · exact ⟨_, by rw [if_neg h1, if_pos h]⟩
      unfold AdaptiveFlattener.operatorCall scaledHalfWidth
      simp only [hft, hstroke, if_true]
      generalize M.float (M.float (path.strokeWidth * A.scale) * (1 / 2)) = a
      by_cases hc : a < 1
      · simp only [hc, decide_True, if_true, List.cons_append, List.nil_append,
          List.singleton_append]
      · simp only [hc, decide_False, if_false, List.cons_append, List.nil_append,
          List.singleton_append, Bool.false_eq_true]
    · split
      · exact le_refl _
      · rename_i h; linarith [not_lt.mp h]
    · split
      · intro h; exact lt_irrefl _ h.1
      · rename_i h; intro h'; exact h h'.2
  · intro hno
    have hstroke : (decide (path.strokeType ≠ K.NSVG_PAINT_NONE)
        && decide (path.strokeWidth > 0)) = false := by
      rcases hno with h | h
      · simp [h]
      · simp [not_lt.mpr h]
    have e : (A.operatorCall M ClipperPoint K L path tesselation).2 = [] ∨
        (A.operatorCall M ClipperPoint K L path tesselation).2 = [Effect.simplifyPolygons] := by
      unfold AdaptiveFlattener.operatorCall
      simp only [hstroke]
      cases hft : (if path.fillRule = K.NSVG_FILLRULE_NONZERO
          then some PolyFillType.pftNonZero
          else if path.fillRule = K.NSVG_FILLRULE_EVENODD then some PolyFillType.pftEvenOdd
          else none) with
      | none => left; simp
      | some ft => right; simp
    refine ⟨e, ?_, ?_⟩
    · intro d; rcases e with e | e <;> rw [e] <;> simp
    · rcases e with e | e <;> rw [e] <;> simp

/-- Witness for C12 (amended): IEEE arithmetic, nonzero fill rule, stroke
paint, `strokeWidth = 8193/8192` at scale `8191/4096`: `strokeWidth * scale / 2`
is `67108863/67108864`, the computed `float` value is 1, and the collaborator
is handed the distance 1 without a warning. -/
theorem AdaptiveFlattener_operator_stroke_offset_witness :
    ((pointPath 0 1 (8193 / 8192)).fillRule = nanosvgConstants.NSVG_FILLRULE_NONZERO ∨
      (pointPath 0 1 (8193 / 8192)).fillRule = nanosvgConstants.NSVG_FILLRULE_EVENODD) ∧
    (pointPath 0 1 (8193 / 8192)).strokeType ≠ nanosvgConstants.NSVG_PAINT_NONE ∧
    (pointPath 0 1 (8193 / 8192)).strokeWidth > 0 ∧
    (pointPath 0 1 (8193 / 8192)).strokeWidth * ieeeScaledFlattener.scale / 2
      = 67108863 / 67108864 ∧
    scaledHalfWidth ieeeMath ieeeScaledFlattener (pointPath 0 1 (8193 / 8192)).strokeWidth = 1 ∧
    ∃ lineOffset : ℚ,
      (ieeeScaledFlattener.operatorCall ieeeMath Prod.mk nanosvgConstants plainClipper
          (pointPath 0 1 (8193 / 8192)) ⟨[], ()⟩).2
        = (if scaledHalfWidth ieeeMath ieeeScaledFlattener
              (pointPath 0 1 (8193 / 8192)).strokeWidth < 1
            then [Effect.simplifyPolygons, Effect.warn]
            else [Effect.simplifyPolygons])
          ++ [Effect.offsetExecute lineOffset, Effect.executeDifference] ∧
      lineOffset
        = (if scaledHalfWidth ieeeMath ieeeScaledFlattener
              (pointPath 0 1 (8193 / 8192)).strokeWidth < 1
            then 0
            else scaledHalfWidth ieeeMath ieeeScaledFlattener
              (pointPath 0 1 (8193 / 8192)).strokeWidth) ∧
      0 ≤ lineOffset ∧ ¬ (0 < lineOffset ∧ lineOffset < 1) :=
  ⟨Or.inl (by decide), by decide, by norm_num [pointPath],
    by norm_num [pointPath, ieeeScaledFlattener, AdaptiveFlattener.new],
    by norm_num [scaledHalfWidth, pointPath, ieeeScaledFlattener, AdaptiveFlattener.new,
      ieeeMath],
    (AdaptiveFlattener_operator_stroke_offset ieeeMath Prod.mk nanosvgConstants plainClipper
      ieeeScaledFlattener (pointPath 0 1 (8193 / 8192)) ⟨[], ()⟩).1
      (Or.inl (by decide)) (by decide) (by norm_num [pointPath])⟩

/-! ### Partition validator: cursors, order and frame -/

theorem Partition.checkParts_cases (cross : ℚ → ℚ → ℚ → ℚ → ℚ → ℚ → ℚ) (vertices : Vertices)
    (parts : List Part) (hwf : ∀ part ∈ parts, part.fail < part.outline.length) :
    ∀ (m j : Nat), parts.length - j = m →
      (Partition.checkParts cross vertices parts j = some (true, parts) ∧
        ∀ j', j ≤ j' → ∀ h : j' < parts.length,
          AllTriplesConvex cross vertices (parts[j']).outline) ∨
      (∃ j0, ∃ h0 : j0 < parts.length, ∃ t, j ≤ j0 ∧
        (∀ j', j ≤ j' → j' < j0 → ∀ h : j' < parts.length,
          AllTriplesConvex cross vertices (parts[j']).outline) ∧
        t < (parts[j0]).outline.length ∧
        tripleArea cross vertices (parts[j0]).outline (parts[j0]).outline.length
          (((parts[j0]).fail + t) % (parts[j0]).outline.length) > Partition.eps ∧
        (∀ s, s < t →
          tripleArea cross vertices (parts[j0]).outline (parts[j0]).outline.length
            (((parts[j0]).fail + s) % (parts[j0]).outline.length) ≤ Partition.eps) ∧
        Partition.checkParts cross vertices parts j
          = some (false, failUpdate parts j0
              (((parts[j0]).fail + t) % (parts[j0]).outline.length))) := by
  intro m
  induction m with
  | zero =>
    intro j hj
    left
    rw [Partition.checkParts, dif_neg (by omega)]
    exact ⟨rfl, fun j' h1 h2 => by omega⟩
  | succ m ih =>
    intro j hj
    have hlt : j < parts.length := by omega
    have hc := hwf _ (List.getElem_mem hlt)
    rw [Partition.checkParts, dif_pos hlt]
    simp only
    rcases Partition.walk_spec cross vertices (parts[j]).outline (parts[j]).outline.length
        (parts[j]).fail _ 0 (parts[j]).fail rfl (by omega)
        (by rw [Nat.add_zero, Nat.mod_eq_of_lt hc]) with
      ⟨hp, hall⟩ | ⟨t, -, ht, hw, hb, hbefore⟩
    · rw [hp]
      simp only
      have hconv : AllTriplesConvex cross vertices (parts[j]).outline := by
        intro x hx
        obtain ⟨t, ht, e⟩ := cyclic_offset (parts[j]).fail x _ hc hx
        rw [← e]
        exact hall t (Nat.zero_le _) ht
      rcases ih (j + 1) (by omega) with ⟨e, hall'⟩ | ⟨j0, h0, t, hj0, hpre, ht, hb, hbefore, e⟩
      · left
        refine ⟨e, ?_⟩
        intro j' h1 h2
        rcases Nat.eq_or_lt_of_le h1 with h | h
        · subst h; exact hconv
        · exact hall' j' h h2
      · right
        refine ⟨j0, h0, t, by omega, ?_, ht, hb, hbefore, e⟩
        intro j' h1 h2 h3
        rcases Nat.eq_or_lt_of_le h1 with h | h
        · subst h; exact hconv
        · exact hpre j' h h2 h3
    · right
      rw [hw]
      simp only
      refine ⟨j, hlt, t, le_refl _, fun j' h1 h2 => by omega, ht, hb,
        fun s hs => hbefore s (Nat.zero_le _) hs, ?_⟩
      unfold failUpdate
      rw [List.getElem?_eq_getElem hlt]

theorem set_set_perm {α : Type} [DecidableEq α] (l : List α) (a b : Nat)
    (ha : a < l.length) (hb : b < l.length) :
    List.Perm ((l.set a (l[b])).set b (l[a])) l := by
  rw [List.perm_iff_count]
  intro x
  by_cases hab : a = b
  · subst hab
    rw [List.count_set _ _ _ _ (by simp [ha]), List.count_set _ _ _ _ ha,
      List.getElem_set_self]
    have := List.boole_getElem_le_count x l a ha
    split <;> simp_all
  · rw [List.count_set _ _ _ _ (by simp [hb]), List.count_set _ _ _ _ ha,
      List.getElem_set_ne hab]
    have h1 := List.boole_getElem_le_count x l a ha
    have h2 := List.boole_getElem_le_count x l b hb
    split <;> split <;> simp_all

theorem failUpdate_eq (parts : List Part) (j i : Nat) (hj : j < parts.length)
    (h0 : 0 < parts.length) :
    failUpdate parts j i = (parts.set j (parts[0])).set 0 ⟨(parts[j]).outline, i⟩ := by
  unfold failUpdate
  rw [List.getElem?_eq_getElem hj]
  simp only
  by_cases hj0 : j = 0
  · subst hj0
    simp
  · rw [if_pos hj0]
    unfold swapParts
    rw [List.getElem?_eq_getElem (by simp [hj]), List.getElem?_eq_getElem (by simp [h0])]
    simp only [List.getElem_set_self, List.getElem_set_ne hj0, List.set_set]

theorem failUpdate_frame (parts : List Part) (j i : Nat) (hj : j < parts.length)
    (h0 : 0 < parts.length) :
    (failUpdate parts j i).length = parts.length ∧
    (failUpdate parts j i)[0]? = some ⟨(parts[j]).outline, i⟩ ∧
    (j ≠ 0 → (failUpdate parts j i)[j]? = some (parts[0])) ∧
    (∀ m, m ≠ 0 → m ≠ j → (failUpdate parts j i)[m]? = parts[m]?) := by
  rw [failUpdate_eq parts j i hj h0]
  refine ⟨by simp, ?_, ?_, ?_⟩
  · rw [List.getElem?_eq_getElem (by simp [h0])]
    simp
  · intro hj0
    rw [List.getElem?_eq_getElem (by simp [hj])]
    rw [List.getElem_set_ne (fun h => hj0 h.symm), List.getElem_set_self]
  · intro m hm0 hmj
    rw [List.getElem?_set_ne (fun h => hm0 h.symm), List.getElem?_set_ne (fun h => hmj h.symm)]

theorem failUpdate_outlines (parts : List Part) (j i : Nat) (hj : j < parts.length) :
    List.Perm ((failUpdate parts j i).map Part.outline) (parts.map Part.outline) := by
  have h0 : 0 < parts.length := by omega
  rw [failUpdate_eq parts j i hj h0]
  have h := set_set_perm (parts.map Part.outline) j 0 (by simp [hj]) (by simp [h0])
  simp only [List.getElem_map] at h
  simpa [List.map_set] using h

theorem failUpdate_WF (parts : List Part) (j i : Nat) (hj : j < parts.length)
    (hi : i < (parts[j]).outline.length)
    (hwf : ∀ part ∈ parts, part.fail < part.outline.length) :
    ∀ part ∈ failUpdate parts j i, part.fail < part.outline.length := by
  have h0 : 0 < parts.length := by omega
  rw [failUpdate_eq parts j i hj h0]
  intro part hp
  rcases List.mem_or_eq_of_mem_set hp with h | h
  · rcases List.mem_or_eq_of_mem_set h with h' | h'
    · exact hwf part h'
    · rw [h']; exact hwf _ (List.getElem_mem _)
  · rw [h]; exact hi

theorem Partition.check_cases (cross : ℚ → ℚ → ℚ → ℚ → ℚ → ℚ → ℚ) (vertices : Vertices)
    (P : Partition) (hwf : P.WF) :
    (P.parts = [] ∧ P.check cross vertices = some (false, P)) ∨
    (P.parts ≠ [] ∧ P.check cross vertices = some (true, P) ∧
      ∀ part ∈ P.parts, AllTriplesConvex cross vertices part.outline) ∨
    (∃ j0, ∃ h0 : j0 < P.parts.length, ∃ t,
      (∀ j', j' < j0 → ∀ h : j' < P.parts.length,
        AllTriplesConvex cross vertices (P.parts[j']).outline) ∧
      t < (P.parts[j0]).outline.length ∧
      tripleArea cross vertices (P.parts[j0]).outline (P.parts[j0]).outline.length
        (((P.parts[j0]).fail + t) % (P.parts[j0]).outline.length) > Partition.eps ∧
      (∀ s, s < t →
        tripleArea cross vertices (P.parts[j0]).outline (P.parts[j0]).outline.length
          (((P.parts[j0]).fail + s) % (P.parts[j0]).outline.length) ≤ Partition.eps) ∧
      P.check cross vertices
        = some (false, ⟨failUpdate P.parts j0
            (((P.parts[j0]).fail + t) % (P.parts[j0]).outline.length)⟩)) := by
  by_cases hnil : P.parts = []
  · left
    refine ⟨hnil, ?_⟩
    unfold Partition.check
    simp [hnil]
  · right
    have hlen : P.parts.length ≠ 0 := fun h => hnil (List.length_eq_zero.mp h)
    rcases Partition.checkParts_cases cross vertices P.parts hwf _ 0 rfl with
      ⟨e, hall⟩ | ⟨j0, h0, t, -, hpre, ht, hb, hbefore, e⟩
    · left
      refine ⟨hnil, ?_, ?_⟩
      · unfold Partition.check
        simp only [hlen, if_false, e]
      · intro part hp
        obtain ⟨j, hj, rfl⟩ := List.getElem_of_mem hp
        exact hall j (Nat.zero_le _) hj
    · right
      refine ⟨j0, h0, t, fun j' h1 h2 => hpre j' (Nat.zero_le _) h1 h2, ht, hb, hbefore, ?_⟩
      unfold Partition.check
      simp only [hlen, if_false, e]

theorem Partition.check_preserves (cross : ℚ → ℚ → ℚ → ℚ → ℚ → ℚ → ℚ) (vertices : Vertices)
    (P : Partition) (hwf : P.WF) :
    ∃ b P', P.check cross vertices = some (b, P') ∧ P'.WF ∧
      List.Perm (P'.parts.map Part.outline) (P.parts.map Part.outline) ∧
      (b = true ↔ P.parts ≠ [] ∧
        ∀ o ∈ P.parts.map Part.outline, AllTriplesConvex cross vertices o) := by
  rcases Partition.check_cases cross vertices P hwf with
    ⟨hnil, e⟩ | ⟨hne, e, hall⟩ | ⟨j0, h0, t, hpre, ht, hb, hbefore, e⟩
  · refine ⟨false, P, e, hwf, List.Perm.refl _, ?_⟩
    simp [hnil]
  · refine ⟨true, P, e, hwf, List.Perm.refl _, ?_⟩
    simp only [true_iff]
    refine ⟨hne, ?_⟩
    intro o ho
    obtain ⟨part, hp, rfl⟩ := List.mem_map.mp ho
    exact hall part hp
  · refine ⟨false, _, e, ?_, failUpdate_outlines _ _ _ h0, ?_⟩
    · exact failUpdate_WF _ _ _ h0 (Nat.mod_lt _ (by omega)) hwf
    · simp only [Bool.false_eq_true, false_iff, not_and, not_forall]
      intro _
      refine ⟨_, List.mem_map.mpr ⟨_, List.getElem_mem h0, rfl⟩, ?_⟩
      intro hconv
      exact absurd (hconv _ (Nat.mod_lt _ (by omega))) (not_le.mpr hb)

/-- C13. The flag returned by `Partition::check` does not depend on the stored
cursors or on the order of the parts: for every vertex buffer and any two
partitions with non-empty outlines, in-range cursors and the same set of
outlines, `check` returns the same flag on both; and a second `check` on the
partition left by the first, with the same vertex buffer, returns the same
flag as the first. -/
theorem Partition_check_independent_of_cursors_and_order
    (cross : ℚ → ℚ → ℚ → ℚ → ℚ → ℚ → ℚ) (vertices : Vertices) (P Q : Partition)
    (hP : P.WF) (hQ : Q.WF)
    (hsame : ∀ o, o ∈ P.parts.map Part.outline ↔ o ∈ Q.parts.map Part.outline) :
    ∃ b P' Q' P'', P.check cross vertices = some (b, P') ∧
      Q.check cross vertices = some (b, Q') ∧
      P'.check cross vertices = some (b, P'') := by
  obtain ⟨b, P', e1, hwf1, hperm1, hb1⟩ := Partition.check_preserves cross vertices P hP
  obtain ⟨b2, Q', e2, -, -, hb2⟩ := Partition.check_preserves cross vertices Q hQ
  obtain ⟨b3, P'', e3, -, -, hb3⟩ := Partition.check_preserves cross vertices P' hwf1
  have hnil : ∀ (A B : Partition),
      (∀ o, o ∈ A.parts.map Part.outline ↔ o ∈ B.parts.map Part.outline) →
      (A.parts ≠ [] → B.parts ≠ []) := by
    intro A B h hA hB
    obtain ⟨a, ha⟩ := List.exists_mem_of_ne_nil _ hA
    have := (h a.outline).mp (List.mem_map.mpr ⟨a, ha, rfl⟩)
    rw [hB] at this
    simp at this
  have hiff : ∀ (A B : Partition),
      (∀ o, o ∈ A.parts.map Part.outline ↔ o ∈ B.parts.map Part.outline) →
      ((A.parts ≠ [] ∧ ∀ o ∈ A.parts.map Part.outline, AllTriplesConvex cross vertices o) ↔
        (B.parts ≠ [] ∧ ∀ o ∈ B.parts.map Part.outline, AllTriplesConvex cross vertices o)) := by
    intro A B h
    constructor
    · rintro ⟨h1, h2⟩
      exact ⟨hnil A B h h1, fun o ho => h2 o ((h o).mpr ho)⟩
    · rintro ⟨h1, h2⟩
      exact ⟨hnil B A (fun o => (h o).symm) h1, fun o ho => h2 o ((h o).mp ho)⟩
  have hbb2 : b2 = b := by
    have : b2 = true ↔ b = true := by rw [hb1, hb2]; exact (hiff P Q hsame).symm
    exact Bool.eq_iff_iff.mpr this
  have hbb3 : b3 = b := by
    have : b3 = true ↔ b = true := by
      rw [hb1, hb3]
      exact hiff P' P (fun o => hperm1.mem_iff)
    exact Bool.eq_iff_iff.mpr this
  subst hbb2 hbb3
  exact ⟨_, P', Q', P'', e1, e2, e3⟩

theorem twoPartsFresh_WF : twoPartsFresh.WF := by
  intro part hp
  simp only [twoPartsFresh, List.mem_cons, List.mem_singleton, List.not_mem_nil,
    or_false] at hp
  rcases hp with rfl | rfl <;> simp

theorem twoPartsMoved_WF : twoPartsMoved.WF := by
  intro part hp
  simp only [twoPartsMoved, List.mem_cons, List.mem_singleton, List.not_mem_nil,
    or_false] at hp
  rcases hp with rfl | rfl <;> simp

/-- Witness for C13: the same two outlines in either order, with cursors
`0, 0` and `1, 2`. -/
theorem Partition_check_independent_of_cursors_and_order_witness :
    twoPartsFresh.WF ∧ twoPartsMoved.WF ∧
    (∀ o, o ∈ twoPartsFresh.parts.map Part.outline ↔
      o ∈ twoPartsMoved.parts.map Part.outline) ∧
    ∃ b P' Q' P'', twoPartsFresh.check signedArea cornerVertices = some (b, P') ∧
      twoPartsMoved.check signedArea cornerVertices = some (b, Q') ∧
      P'.check signedArea cornerVertices = some (b, P'') :=
  ⟨twoPartsFresh_WF, twoPartsMoved_WF,
    fun o => by simp [twoPartsFresh, twoPartsMoved, or_comm],
    Partition_check_independent_of_cursors_and_order signedArea cornerVertices
      twoPartsFresh twoPartsMoved twoPartsFresh_WF twoPartsMoved_WF
      (fun o => by simp [twoPartsFresh, twoPartsMoved, or_comm])⟩

theorem Partition.walk_cursor_lt (cross : ℚ → ℚ → ℚ → ℚ → ℚ → ℚ → ℚ) (vertices : Vertices)
    (outline : Indices) (n i k : Nat)
    (h : Partition.walk cross vertices outline n i k ≠ Walk.assertFailed) : i < n := by
  by_contra hin
  apply h
  rw [Partition.walk, if_neg hin]

theorem Partition.walk_fails_first (cross : ℚ → ℚ → ℚ → ℚ → ℚ → ℚ → ℚ) (vertices : Vertices)
    (outline : Indices) (c i : Nat)
    (h : Partition.walk cross vertices outline outline.length c 0 = Walk.fails i) :
    c < outline.length ∧ i < outline.length ∧
    tripleArea cross vertices outline outline.length i > Partition.eps ∧
    ∃ t, t < outline.length ∧ i = (c + t) % outline.length ∧
      ∀ s, s < t →
        tripleArea cross vertices outline outline.length ((c + s) % outline.length)
          ≤ Partition.eps := by
  have hc : c < outline.length :=
    Partition.walk_cursor_lt cross vertices outline _ c 0 (by rw [h]; simp)
  rcases Partition.walk_spec cross vertices outline outline.length c _ 0 c rfl (by omega)
      (by rw [Nat.add_zero, Nat.mod_eq_of_lt hc]) with
    ⟨hp, -⟩ | ⟨t, -, ht, hw, hb, hbefore⟩
  · rw [hp] at h; cases h
  · rw [hw] at h
    have hi : (c + t) % outline.length = i := by injection h
    subst hi
    exact ⟨hc, Nat.mod_lt _ (by omega), hb, t, ht, rfl,
      fun s hs => hbefore s (Nat.zero_le _) hs⟩

theorem Partition.checkParts_fails (cross : ℚ → ℚ → ℚ → ℚ → ℚ → ℚ → ℚ) (vertices : Vertices)
    (parts : List Part) (j0 i : Nat) (h0 : j0 < parts.length)
    (hfail : Partition.walk cross vertices (parts[j0]).outline (parts[j0]).outline.length
      (parts[j0]).fail 0 = Walk.fails i) :
    ∀ (m j : Nat), j0 - j = m → j ≤ j0 →
      (∀ j', j ≤ j' → j' < j0 → ∀ h : j' < parts.length,
        Partition.walk cross vertices (parts[j']).outline (parts[j']).outline.length
          (parts[j']).fail 0 = Walk.passes) →
      Partition.checkParts cross vertices parts j = some (false, failUpdate parts j0 i) := by
  intro m
  induction m with
  | zero =>
    intro j hm hj _
    have hjj : j = j0 := by omega
    subst hjj
    rw [Partition.checkParts, dif_pos h0]
    simp only [hfail]
    unfold failUpdate
    rw [List.getElem?_eq_getElem h0]
  | succ m ih =>
    intro j hm hj hpre
    have hlt : j < parts.length := by omega
    rw [Partition.checkParts, dif_pos hlt]
    simp only [hpre j (le_refl _) (by omega) hlt]
    exact ih (j + 1) (by omega) (by omega)
      (fun j' h1 h2 h3 => hpre j' (by omega) h2 h3)

theorem Partition.checkParts_false (cross : ℚ → ℚ → ℚ → ℚ → ℚ → ℚ → ℚ) (vertices : Vertices)
    (parts : List Part) :
    ∀ (m j : Nat) (parts' : List Part), parts.length - j = m →
      Partition.checkParts cross vertices parts j = some (false, parts') →
      ∃ j0 i, ∃ h0 : j0 < parts.length, j ≤ j0 ∧
        (∀ j', j ≤ j' → j' < j0 → ∀ h : j' < parts.length,
          Partition.walk cross vertices (parts[j']).outline (parts[j']).outline.length
            (parts[j']).fail 0 = Walk.passes) ∧
        Partition.walk cross vertices (parts[j0]).outline (parts[j0]).outline.length
          (parts[j0]).fail 0 = Walk.fails i ∧
        parts' = failUpdate parts j0 i := by
  intro m
  induction m with
  | zero =>
    intro j parts' hm h
    rw [Partition.checkParts, dif_neg (by omega)] at h
    simp at h
  | succ m ih =>
    intro j parts' hm h
    have hlt : j < parts.length := by omega
    rw [Partition.checkParts, dif_pos hlt] at h
    simp only at h
    cases hw : Partition.walk cross vertices (parts[j]).outline (parts[j]).outline.length
        (parts[j]).fail 0 with
    | assertFailed => rw [hw] at h; cases h
    | fails i =>
      rw [hw] at h
      simp only [Option.some.injEq, Prod.mk.injEq, true_and] at h
      refine ⟨j, i, hlt, le_refl _, fun j' h1 h2 => by omega, hw, ?_⟩
      rw [← h]
      unfold failUpdate
      rw [List.getElem?_eq_getElem hlt]
    | passes =>
      rw [hw] at h
      simp only at h
      obtain ⟨j0, i, h0, hj0, hpre, hf, e⟩ := ih (j + 1) parts' (by omega) h
      refine ⟨j0, i, h0, by omega, ?_, hf, e⟩
      intro j' h1 h2 h3
      rcases Nat.eq_or_lt_of_le h1 with hh | hh
      · subst hh; exact hw
      · exact hpre j' hh h2 h3

/-- C14. When the triple starting at index `i` of the part at position `j` is
the first violating triple in walk order (the walks of the parts before `j`,
each from its cursor, run through, and the walk of part `j` from its cursor
stops at index `i` with `area > eps`: then the triple at `i` exceeds `eps` and
no triple between the cursor and `i`, cyclically, does), `Partition::check`
returns `false` and afterwards `parts[0]` holds that part's outline with
`fail = i`; if `j != 0` the former `parts[0]` (outline and cursor) sits at
position `j`; every other part is unchanged.  Every `false` result on a
partition that has parts arises in this way.  When `check` returns `true`, the
partition is entirely unchanged. -/
theorem Partition_check_fail_moves_part_to_front
    (cross : ℚ → ℚ → ℚ → ℚ → ℚ → ℚ → ℚ) (vertices : Vertices) (P : Partition) :
    (∀ j, ∀ hj : j < P.parts.length, ∀ i,
      (∀ j', j' < j → ∀ h : j' < P.parts.length,
        Partition.walk cross vertices (P.parts[j']).outline (P.parts[j']).outline.length
          (P.parts[j']).fail 0 = Walk.passes) →
      Partition.walk cross vertices (P.parts[j]).outline (P.parts[j]).outline.length
        (P.parts[j]).fail 0 = Walk.fails i →
      (i < (P.parts[j]).outline.length ∧
        tripleArea cross vertices (P.parts[j]).outline (P.parts[j]).outline.length i
          > Partition.eps ∧
        ∃ t, t < (P.parts[j]).outline.length ∧
          i = ((P.parts[j]).fail + t) % (P.parts[j]).outline.length ∧
          ∀ s, s < t →
            tripleArea cross vertices (P.parts[j]).outline (P.parts[j]).outline.length
              (((P.parts[j]).fail + s) % (P.parts[j]).outline.length) ≤ Partition.eps) ∧
      ∃ P', P.check cross vertices = some (false, P') ∧
        P'.parts.length = P.parts.length ∧
        P'.parts[0]? = some ⟨(P.parts[j]).outline, i⟩ ∧
        (j ≠ 0 → P'.parts[j]? = P.parts[0]?) ∧
        (∀ m, m ≠ 0 → m ≠ j → P'.parts[m]? = P.parts[m]?)) ∧
    (∀ P', P.check cross vertices = some (false, P') → P.parts ≠ [] →
      ∃ j i, ∃ hj : j < P.parts.length,
        (∀ j', j' < j → ∀ h : j' < P.parts.length,
          Partition.walk cross vertices (P.parts[j']).outline (P.parts[j']).outline.length
            (P.parts[j']).fail 0 = Walk.passes) ∧
        Partition.walk cross vertices (P.parts[j]).outline (P.parts[j]).outline.length
          (P.parts[j]).fail 0 = Walk.fails i) ∧
    (∀ P', P.check cross vertices = some (true, P') → P' = P) := by
  refine ⟨?_, ?_, ?_⟩
  · intro j hj i hpre hfail
    have hpos : 0 < P.parts.length := by omega
    obtain ⟨-, hi, hb, ht⟩ := Partition.walk_fails_first cross vertices _ _ _ hfail
    refine ⟨⟨hi, hb, ht⟩, ?_⟩
    have e := Partition.checkParts_fails cross vertices P.parts j i hj hfail _ 0 rfl
      (Nat.zero_le _) (fun j' _ h2 h3 => hpre j' h2 h3)
    obtain ⟨f1, f2, f3, f4⟩ := failUpdate_frame P.parts j i hj hpos
    refine ⟨⟨failUpdate P.parts j i⟩, ?_, f1, f2, ?_, f4⟩
    · unfold Partition.check
      simp only [show P.parts.length ≠ 0 by omega, if_false, e]
    · intro hne
      rw [f3 hne, List.getElem?_eq_getElem hpos]
  · intro P' e hne
    have hlen : P.parts.length ≠ 0 := fun h => hne (List.length_eq_zero.mp h)
    unfold Partition.check at e
    simp only [hlen, if_false] at e
    cases hc : Partition.checkParts cross vertices P.parts 0 with
    | none => rw [hc] at e; cases e
    | some r =>
      obtain ⟨b, parts'⟩ := r
      rw [hc] at e
      simp only [Option.some.injEq, Prod.mk.injEq] at e
      obtain ⟨hb, -⟩ := e
      subst hb
      obtain ⟨j0, i, h0, -, hpre, hf, -⟩ :=
        Partition.checkParts_false cross vertices P.parts _ 0 parts' rfl hc
      exact ⟨j0, i, h0, fun j' h1 h2 => hpre j' (Nat.zero_le _) h1 h2, hf⟩
  · intro P' e
    have hv : P.validates cross vertices = true := by
      unfold Partition.validates; rw [e]
    have := Partition.check_true_same cross vertices P hv
    rw [e] at this
    simp only [Option.some.injEq, Prod.mk.injEq, true_and] at this
    exact this

theorem cornerTriple_areas :
    AllTriplesConvex signedArea cornerVertices [0, 1, 2] ∧
    tripleArea signedArea cornerVertices [0, 2, 1] 3 0 > Partition.eps := by
  constructor
  · intro i hi
    simp only [List.length_cons, List.length_nil] at hi
    have hi3 : i < 3 := hi
    interval_cases i <;>
      simp [tripleArea, find_unequal_forward, vertexAt, cornerVertices, signedArea,
        List.range', List.find?, Partition.eps] <;> norm_num
  · simp [tripleArea, find_unequal_forward, vertexAt, cornerVertices, signedArea,
      List.range', List.find?, Partition.eps]
    norm_num

theorem twoPartsFresh_walks :
    Partition.walk signedArea cornerVertices [0, 1, 2] 3 0 0 = Walk.passes ∧
    Partition.walk signedArea cornerVertices [0, 2, 1] 3 0 0 = Walk.fails 0 := by
  constructor
  · rcases Partition.walk_from_cursor signedArea cornerVertices [0, 1, 2] 0 (by simp) with
      ⟨hp, -⟩ | ⟨i, -, -, hn⟩
    · exact hp
    · exact absurd cornerTriple_areas.1 hn
  · rcases Partition.walk_spec signedArea cornerVertices [0, 2, 1] 3 0 _ 0 0 rfl (by omega)
        (by simp) with ⟨-, hall⟩ | ⟨t, -, ht, hw, -, hbefore⟩
    · exact absurd (hall 0 (le_refl _) (by omega)) (not_le.mpr cornerTriple_areas.2)
    · have ht0 : t = 0 := by
        by_contra hne
        exact absurd (hbefore 0 (le_refl _) (by omega)) (not_le.mpr cornerTriple_areas.2)
      subst ht0
      exact hw

/-- Witness for C14: in `twoPartsFresh` the walk of the first part runs
through and the walk of the second part stops at its cursor, so `check` fails
at part 1, index 0. -/
theorem Partition_check_fail_moves_part_to_front_witness :
    (∃ P', twoPartsFresh.check signedArea cornerVertices = some (false, P') ∧
      P'.parts.length = twoPartsFresh.parts.length ∧
      P'.parts[0]? = some ⟨[0, 2, 1], 0⟩ ∧
      P'.parts[1]? = some ⟨[0, 1, 2], 0⟩) :=
  (((Partition_check_fail_moves_part_to_front signedArea cornerVertices twoPartsFresh).1
      1 (by simp [twoPartsFresh]) 0
      (by
        intro j' hj' h
        have : j' = 0 := by omega
        subst this
        exact twoPartsFresh_walks.1)
      twoPartsFresh_walks.2).2).imp fun _ h =>
    ⟨h.1, h.2.1, h.2.2.1, h.2.2.2.1 (by decide)⟩

theorem Partition.walkIterations_le (cross : ℚ → ℚ → ℚ → ℚ → ℚ → ℚ → ℚ)
    (vertices : Vertices) (outline : Indices) (n : Nat) :
    ∀ (m k i : Nat), n - k = m → k < n →
      Partition.walkIterations cross vertices outline n i k ≤ n - k := by
  intro m
  induction m using Nat.strong_induction_on with
  | _ m ih =>
    intro k i hm hk
    rw [Partition.walkIterations]
    by_cases hin : i < n
    · rw [if_pos hin]
      simp only
      by_cases ha : tripleArea cross vertices outline n i > Partition.eps
      · rw [if_pos ha]; omega
      · rw [if_neg ha]
        generalize hk1 : (if find_unequal_forward vertices outline i n > i
            then k + (find_unequal_forward vertices outline i n - i)
            else k + ((n - i) + find_unequal_forward vertices outline i n)) = k1
        have hgrow : k < k1 := by
          rw [← hk1]; split <;> omega
        by_cases hlt : k1 < n
        · rw [if_pos hlt]
          have := ih (n - k1) (by omega) k1 (find_unequal_forward vertices outline i n)
            rfl hlt
          omega
        · rw [if_neg hlt]; omega
    · rw [if_neg hin]; omega

theorem Partition.checkAll_WF (cross : ℚ → ℚ → ℚ → ℚ → ℚ → ℚ → ℚ) :
    ∀ (vs : List Vertices) (P : Partition), P.WF →
      ∃ P', Partition.checkAll cross vs P = some P' ∧ P'.WF := by
  intro vs
  induction vs with
  | nil => intro P h; exact ⟨P, rfl, h⟩
  | cons v rest ih =>
    intro P h
    obtain ⟨b, P', e, hwf, -, -⟩ := Partition.check_preserves cross v P h
    obtain ⟨P'', e2, hwf2⟩ := ih P' hwf
    exact ⟨P'', by rw [Partition.checkAll, e]; exact e2, hwf2⟩

/-- C18. For every partition in which each part has a non-empty outline of
length `n` and a cursor `fail < n`, and for every vertex buffer,
`Partition::check` returns without a failed assertion (the assertion
`i >= 0 && i < n` holds at every iteration), the walk of each part runs at most
`n` iterations of the loop, and on return every part again has a cursor that
is an index of its outline; hence any sequence of checks, on any vertex
buffers, runs through with the property kept. -/
theorem Partition_check_terminates_and_keeps_cursors_in_range
    (cross : ℚ → ℚ → ℚ → ℚ → ℚ → ℚ → ℚ) (vertices : Vertices) (P : Partition)
    (hwf : P.WF) (vs : List Vertices) :
    (∃ b P', P.check cross vertices = some (b, P') ∧ P'.WF) ∧
    (∀ part ∈ P.parts,
      Partition.walk cross vertices part.outline part.outline.length part.fail 0
        ≠ Walk.assertFailed ∧
      Partition.walkIterations cross vertices part.outline part.outline.length part.fail 0
        ≤ part.outline.length) ∧
    (∃ P', Partition.checkAll cross vs P = some P' ∧ P'.WF) := by
  refine ⟨?_, ?_, Partition.checkAll_WF cross vs P hwf⟩
  · obtain ⟨b, P', e, h, -, -⟩ := Partition.check_preserves cross vertices P hwf
    exact ⟨b, P', e, h⟩
  · intro part hp
    have hc := hwf part hp
    constructor
    · rcases Partition.walk_spec cross vertices part.outline part.outline.length part.fail
          _ 0 part.fail rfl (by omega) (by rw [Nat.add_zero, Nat.mod_eq_of_lt hc]) with
        ⟨e, -⟩ | ⟨t, -, -, e, -⟩
      · rw [e]; simp
      · rw [e]; simp
    · have := Partition.walkIterations_le cross vertices part.outline part.outline.length
        _ 0 part.fail rfl (by omega)
      omega

/-- Witness for C18: `twoPartsMoved`, checked against the corner vertices and
then twice more. -/
theorem Partition_check_terminates_and_keeps_cursors_in_range_witness :
    twoPartsMoved.WF ∧
    (∃ b P', twoPartsMoved.check signedArea cornerVertices = some (b, P') ∧ P'.WF) ∧
    (∃ P', Partition.checkAll signedArea [cornerVertices, cornerVertices] twoPartsMoved
      = some P' ∧ P'.WF) :=
  ⟨twoPartsMoved_WF,
    (Partition_check_terminates_and_keeps_cursors_in_range signedArea cornerVertices
      twoPartsMoved twoPartsMoved_WF [cornerVertices, cornerVertices]).1,
    (Partition_check_terminates_and_keeps_cursors_in_range signedArea cornerVertices
      twoPartsMoved twoPartsMoved_WF [cornerVertices, cornerVertices]).2.2⟩

/-! ### Adaptive flattener: termination and the emitted point -/

theorem AdaptiveFlattener.caseCollinear_short {P : Type} (M : CMath)
    (ClipperPoint : ℚ → ℚ → P)
    (A : AdaptiveFlattener) (x1 y1 x2 y2 x3 y3 x4 y4 : ℚ) (points r : List P)
    (h : A.caseCollinear M ClipperPoint x1 y1 x2 y2 x3 y3 x4 y4 points = some r) :
    ∃ mid, r = points ++ mid ∧ mid.length ≤ 2 := by
  unfold AdaptiveFlattener.caseCollinear at h
  simp only at h
  repeat' split at h
  all_goals first
    | (cases h; done)
    | (cases h; exact ⟨_, rfl, by simp⟩)
    | (cases h; exact ⟨[], (List.append_nil _).symm, by simp⟩)

theorem AdaptiveFlattener.switchCase_short {P : Type} (M : CMath)
    (ClipperPoint : ℚ → ℚ → P)
    (A : AdaptiveFlattener) (x1 y1 x2 y2 x3 y3 x4 y4 : ℚ) (points r : List P)
    (h : A.switchCase M ClipperPoint x1 y1 x2 y2 x3 y3 x4 y4 points = some r) :
    ∃ mid, r = points ++ mid ∧ mid.length ≤ 2 := by
  unfold AdaptiveFlattener.switchCase at h
  simp only at h
  split at h
  · exact AdaptiveFlattener.caseCollinear_short M ClipperPoint A _ _ _ _ _ _ _ _ _ _ h
  all_goals repeat' split at h
  all_goals first
    | (cases h; done)
    | (cases h; exact ⟨_, rfl, by simp⟩)
    | (cases h; exact ⟨_, List.append_assoc _ _ _, by simp⟩)

theorem AdaptiveFlattener.recursive_short {P : Type} (M : CMath)
    (ClipperPoint : ℚ → ℚ → P) (A : AdaptiveFlattener) :
    ∀ (m : Nat) (level : Int) (x1 y1 x2 y2 x3 y3 x4 y4 : ℚ) (points : List P),
      A.recursionLimit + 1 - level = (m : Int) →
      ∃ mid, A.recursive M ClipperPoint x1 y1 x2 y2 x3 y3 x4 y4 points level
        = points ++ mid ∧ mid.length ≤ 2 ^ m := by
  intro m
  induction m with
  | zero =>
    intro level x1 y1 x2 y2 x3 y3 x4 y4 points hm
    rw [AdaptiveFlattener.recursive, if_pos (by omega)]
    exact ⟨_, rfl, by simp⟩
  | succ m ih =>
    intro level x1 y1 x2 y2 x3 y3 x4 y4 points hm
    have hl : ¬ level > A.recursionLimit := by omega
    cases hs : A.switchCase M ClipperPoint x1 y1 x2 y2 x3 y3 x4 y4 points with
    | some r =>
      rw [(AdaptiveFlattener.recursive_of_return M ClipperPoint A _ _ _ _ _ _ _ _ _ _ _ hl hs).1]
      obtain ⟨mid, e, hlen⟩ :=
        AdaptiveFlattener.switchCase_short M ClipperPoint A _ _ _ _ _ _ _ _ _ _ hs
      refine ⟨mid, e, le_trans hlen ?_⟩
      calc 2 = 2 ^ 1 := rfl
        _ ≤ 2 ^ (m + 1) := Nat.pow_le_pow_right (by decide) (by omega)
    | none =>
      obtain ⟨a2, b2, a3, b3, a4, b4, c1, d1, c2, d2, c3, d3, hstep⟩ :=
        AdaptiveFlattener.recursive_split M ClipperPoint A x1 y1 x2 y2 x3 y3 x4 y4 level hl
      rw [(hstep points hs).1]
      obtain ⟨mid1, e1, l1⟩ := ih (level + 1) x1 y1 a2 b2 a3 b3 a4 b4 points (by omega)
      rw [e1]
      obtain ⟨mid2, e2, l2⟩ := ih (level + 1) c1 d1 c2 d2 c3 d3 x4 y4 (points ++ mid1)
        (by omega)
      rw [e2]
      refine ⟨mid1 ++ mid2, by simp, ?_⟩
      rw [List.length_append, pow_succ]
      omega

theorem AdaptiveFlattener.recursiveDeepest_spec {P : Type} (M : CMath)
    (ClipperPoint : ℚ → ℚ → P) (A : AdaptiveFlattener) :
    ∀ (m : Nat) (level : Int) (x1 y1 x2 y2 x3 y3 x4 y4 : ℚ) (points : List P),
      A.recursionLimit + 1 - level = (m : Int) →
      (A.recursiveDeepest M ClipperPoint x1 y1 x2 y2 x3 y3 x4 y4 points level).1
        = A.recursive M ClipperPoint x1 y1 x2 y2 x3 y3 x4 y4 points level ∧
      level ≤ (A.recursiveDeepest M ClipperPoint x1 y1 x2 y2 x3 y3 x4 y4 points level).2 ∧
      (A.recursiveDeepest M ClipperPoint x1 y1 x2 y2 x3 y3 x4 y4 points level).2
        ≤ A.recursionLimit + 1 := by
  intro m
  induction m with
  | zero =>
    intro level x1 y1 x2 y2 x3 y3 x4 y4 points hm
    rw [AdaptiveFlattener.recursiveDeepest, AdaptiveFlattener.recursive,
      if_pos (by omega), if_pos (by omega)]
    refine ⟨rfl, ?_, ?_⟩ <;> simp only <;> omega
  | succ m ih =>
    intro level x1 y1 x2 y2 x3 y3 x4 y4 points hm
    have hl : ¬ level > A.recursionLimit := by omega
    cases hs : A.switchCase M ClipperPoint x1 y1 x2 y2 x3 y3 x4 y4 points with
    | some r =>
      obtain ⟨e1, e2⟩ :=
        AdaptiveFlattener.recursive_of_return M ClipperPoint A _ _ _ _ _ _ _ _ _ _ _ hl hs
      rw [e1, e2]
      exact ⟨rfl, le_refl _, by show level ≤ _; omega⟩
    | none =>
      obtain ⟨a2, b2, a3, b3, a4, b4, c1, d1, c2, d2, c3, d3, hstep⟩ :=
        AdaptiveFlattener.recursive_split M ClipperPoint A x1 y1 x2 y2 x3 y3 x4 y4 level hl
      rw [(hstep points hs).1, (hstep points hs).2]
      obtain ⟨p1, p2, p3⟩ := ih (level + 1) x1 y1 a2 b2 a3 b3 a4 b4 points (by omega)
      obtain ⟨q1, q2, q3⟩ := ih (level + 1) c1 d1 c2 d2 c3 d3 x4 y4
        (A.recursiveDeepest M ClipperPoint x1 y1 a2 b2 a3 b3 a4 b4 points (level + 1)).1
        (by omega)
      refine ⟨?_, ?_, ?_⟩
      · simp only
        rw [q1, p1]
      · exact le_trans (by omega) (le_max_of_le_left p2)
      · exact max_le p3 q3

/-- C15. `AdaptiveFlattener::recursive` returns for every curve and every
tolerance setting: a call at a level greater than `recursionLimit` appends
exactly the end point `(x4, y4)` and makes no further call; in the subdivision
started at a level of at most `recursionLimit + 1` no call is made at a level
above `recursionLimit + 1`, and it appends at most
`2 ^ (recursionLimit + 1 - level)` points; so for `recursionLimit >= 0` a call
at level 0 appends at most `2 ^ (recursionLimit + 1)` points and the per-curve
`flatten` at most `2 ^ (recursionLimit + 1) + 2`. -/
theorem AdaptiveFlattener_recursive_bounded {P : Type} (M : CMath)
    (ClipperPoint : ℚ → ℚ → P) (A : AdaptiveFlattener)
    (x1 y1 x2 y2 x3 y3 x4 y4 : ℚ) (points : List P) (level : Int) :
    (level > A.recursionLimit →
      A.recursive M ClipperPoint x1 y1 x2 y2 x3 y3 x4 y4 points level
        = points ++ [ClipperPoint x4 y4] ∧
      A.recursiveDeepest M ClipperPoint x1 y1 x2 y2 x3 y3 x4 y4 points level
        = (points ++ [ClipperPoint x4 y4], level)) ∧
    (level ≤ A.recursionLimit + 1 →
      (A.recursiveDeepest M ClipperPoint x1 y1 x2 y2 x3 y3 x4 y4 points level).1
        = A.recursive M ClipperPoint x1 y1 x2 y2 x3 y3 x4 y4 points level ∧
      (A.recursiveDeepest M ClipperPoint x1 y1 x2 y2 x3 y3 x4 y4 points level).2
        ≤ A.recursionLimit + 1 ∧
      ∃ mid, A.recursive M ClipperPoint x1 y1 x2 y2 x3 y3 x4 y4 points level
          = points ++ mid ∧
        mid.length ≤ 2 ^ (A.recursionLimit + 1 - level).toNat) ∧
    (0 ≤ A.recursionLimit →
      (∃ mid, A.recursive M ClipperPoint x1 y1 x2 y2 x3 y3 x4 y4 points 0
          = points ++ mid ∧
        mid.length ≤ 2 ^ (A.recursionLimit + 1).toNat) ∧
      ∃ mid, A.flatten M ClipperPoint x1 y1 x2 y2 x3 y3 x4 y4 points = points ++ mid ∧
        mid.length ≤ 2 ^ (A.recursionLimit + 1).toNat + 2) := by
  refine ⟨?_, ?_, ?_⟩
  · intro h
    constructor
    · rw [AdaptiveFlattener.recursive, if_pos h]
    · rw [AdaptiveFlattener.recursiveDeepest, if_pos h]
  · intro h
    obtain ⟨a1, -, a3⟩ := AdaptiveFlattener.recursiveDeepest_spec M ClipperPoint A
      (A.recursionLimit + 1 - level).toNat level x1 y1 x2 y2 x3 y3 x4 y4 points (by omega)
    exact ⟨a1, a3, AdaptiveFlattener.recursive_short M ClipperPoint A
      (A.recursionLimit + 1 - level).toNat level x1 y1 x2 y2 x3 y3 x4 y4 points (by omega)⟩
  · intro h
    constructor
    · have := AdaptiveFlattener.recursive_short M ClipperPoint A
        (A.recursionLimit + 1).toNat 0 x1 y1 x2 y2 x3 y3 x4 y4 points (by omega)
      exact this
    · obtain ⟨mid, e, hlen⟩ := AdaptiveFlattener.recursive_short M ClipperPoint A
        (A.recursionLimit + 1).toNat 0 x1 y1 x2 y2 x3 y3 x4 y4
        (points ++ [ClipperPoint x1 y1]) (by omega)
      refine ⟨[ClipperPoint x1 y1] ++ mid ++ [ClipperPoint x4 y4], ?_, ?_⟩
      · unfold AdaptiveFlattener.flatten
        simp only [e, List.append_assoc]
      · simp only [List.length_append, List.length_singleton]
        omega

/-- Witness for C15: the default tolerances (`recursionLimit = 8`) at level 9
and at level 0. -/
theorem AdaptiveFlattener_recursive_bounded_witness :
    (9 : Int) > defaultFlattener.recursionLimit ∧
    (0 : Int) ≤ defaultFlattener.recursionLimit ∧
    defaultFlattener.recursive plainMath Prod.mk 0 0 0 100 100 100 100 0 [] 9
      = [] ++ [(100, 0)] ∧
    ∃ mid, defaultFlattener.flatten plainMath Prod.mk 0 0 0 100 100 100 100 0 []
        = [] ++ mid ∧
      mid.length ≤ 2 ^ (defaultFlattener.recursionLimit + 1).toNat + 2 :=
  ⟨by decide, by decide,
    ((AdaptiveFlattener_recursive_bounded plainMath Prod.mk defaultFlattener
      0 0 0 100 100 100 100 0 [] 9).1 (by decide)).1,
    ((AdaptiveFlattener_recursive_bounded plainMath Prod.mk defaultFlattener
      0 0 0 100 100 100 100 0 [] 9).2.2 (by decide)).2⟩

theorem AdaptiveFlattener.switchCase_regular {P : Type} (M : CMath)
    (ClipperPoint : ℚ → ℚ → P) (A : AdaptiveFlattener)
    (x1 y1 x2 y2 x3 y3 x4 y4 : ℚ) (points : List P)
    (h2 : chordDeviation M x1 y1 x4 y4 x2 y2 > A.colinearityEpsilon)
    (h3 : chordDeviation M x1 y1 x4 y4 x3 y3 > A.colinearityEpsilon)
    (hdist : M.double
        (M.double (chordDeviation M x1 y1 x4 y4 x2 y2 + chordDeviation M x1 y1 x4 y4 x3 y3)
          * M.double (chordDeviation M x1 y1 x4 y4 x2 y2
              + chordDeviation M x1 y1 x4 y4 x3 y3))
      ≤ M.double (A.distanceToleranceSquare * chordLengthSquare M x1 y1 x4 y4))
    (hangle : A.angleTolerance < A.angleEpsilon ∨
      totalAngularChange M x1 y1 x2 y2 x3 y3 x4 y4 < A.angleTolerance) :
    A.switchCase M ClipperPoint x1 y1 x2 y2 x3 y3 x4 y4 points
      = some (points ++ [ClipperPoint (M.float (M.float (x2 + x3) / 2))
          (M.float (M.float (y2 + y3) / 2))]) := by
  unfold chordDeviation at h2 h3 hdist
  unfold chordLengthSquare at hdist
  unfold totalAngularChange at hangle
  simp only at h2 h3 hdist hangle
  unfold AdaptiveFlattener.switchCase
  simp only [h2, h3, decide_True, hdist, if_true]
  by_cases ha : A.angleTolerance < A.angleEpsilon
  · rw [if_pos ha]
  · rw [if_neg ha]
    rcases hangle with h | h
    · exact absurd h ha
    · rw [if_pos h]

/-- C16, counterexample. With `distanceTolerance = 2` and `angleTolerance = 4`
the curve `(0,0)`, `(0,1)`, `(1,1)`, `(1,0)` is in the regular case, passes the
combined deviation test and has total angular change `pi < 4`; the call
appends the single point `(1/2, 1)`, the midpoint of `P2 P3`, while the curve's
point at `t = 1/2` is `(1/2, 3/4)`.  All coordinates and deviations met in this
run are binary fractions of a few bits, which `float` and `double` arithmetic
compute exactly. -/
theorem AdaptiveFlattener_recursive_regular_not_curve_midpoint :
    chordDeviation axisMath 0 0 1 0 0 1 > wideFlattener.colinearityEpsilon ∧
    chordDeviation axisMath 0 0 1 0 1 1 > wideFlattener.colinearityEpsilon ∧
    (chordDeviation axisMath 0 0 1 0 0 1 + chordDeviation axisMath 0 0 1 0 1 1)
        * (chordDeviation axisMath 0 0 1 0 0 1 + chordDeviation axisMath 0 0 1 0 1 1)
      ≤ wideFlattener.distanceTolerance * wideFlattener.distanceTolerance
          * ((1 - 0) * (1 - 0) + (0 - 0) * (0 - 0)) ∧
    totalAngularChange axisMath 0 0 0 1 1 1 1 0 < wideFlattener.angleTolerance ∧
    wideFlattener.recursive axisMath Prod.mk 0 0 0 1 1 1 1 0 [] 0 = [(1 / 2, 1)] ∧
    ((1 / 2 : ℚ), (1 : ℚ))
      ≠ ((0 + 3 * 0 + 3 * 1 + 1) / 8, (0 + 3 * 1 + 3 * 1 + 0) / 8) := by
  have hturn : totalAngularChange axisMath 0 0 0 1 1 1 1 0 < wideFlattener.angleTolerance := by
    have hpos : |(884279719003555 : ℚ) / 562949953421312| = 884279719003555 / 562949953421312 :=
      abs_of_pos (by norm_num)
    simp [totalAngularChange, axisMath, wideFlattener, AdaptiveFlattener.new]
    norm_num
    rw [hpos]
    norm_num
  have hd2 : chordDeviation axisMath 0 0 1 0 0 1 = 1 := by
    norm_num [chordDeviation, axisMath]
  have hd3 : chordDeviation axisMath 0 0 1 0 1 1 = 1 := by
    norm_num [chordDeviation, axisMath]
  have hk : chordLengthSquare axisMath 0 0 1 0 = 1 := by
    norm_num [chordLengthSquare, axisMath]
  have hD : ∀ q, axisMath.double q = q := fun _ => rfl
  have hF : ∀ q, axisMath.float q = q := fun _ => rfl
  have he : wideFlattener.colinearityEpsilon = 1 / 2 := rfl
  have hdt : wideFlattener.distanceTolerance = 2 := rfl
  have hdts : wideFlattener.distanceToleranceSquare = 2 * 2 := rfl
  refine ⟨by rw [hd2, he]; norm_num, by rw [hd3, he]; norm_num,
    by rw [hd2, hd3, hdt]; norm_num, hturn, ?_, by norm_num⟩
  rw [(AdaptiveFlattener.recursive_of_return axisMath Prod.mk wideFlattener 0 0 0 1 1 1 1 0 []
      _ 0 (by decide)
      (AdaptiveFlattener.switchCase_regular axisMath Prod.mk wideFlattener 0 0 0 1 1 1 1 0 []
        (by rw [hd2, he]; norm_num) (by rw [hd3, he]; norm_num)
        (by rw [hd2, hd3, hdts, hk]; simp only [hD]; norm_num) (Or.inr hturn))).1]
  simp only [hF]
  norm_num

/-- C16, amended. In the regular case of `AdaptiveFlattener::recursive` (both
computed deviations `d2` and `d3` exceed `colinearityEpsilon`) at a level not
above `recursionLimit`, whenever the combined deviation test
`(d2 + d3)^2 <= distanceToleranceSquare * |chord|^2` passes, as the code
computes it, and either `angleTolerance < angleEpsilon` or the computed total
angular change is below `angleTolerance`, the call appends exactly one point,
and that point is built from `(x23, y23)`, the midpoint `(P2 + P3) / 2` of the
two inner control points computed in `float` arithmetic; this holds for every
rounding of the arithmetic. -/
theorem AdaptiveFlattener_recursive_regular_emits_inner_midpoint {P : Type} (M : CMath)
    (ClipperPoint : ℚ → ℚ → P) (A : AdaptiveFlattener)
    (x1 y1 x2 y2 x3 y3 x4 y4 : ℚ) (points : List P) (level : Int)
    (hlevel : level ≤ A.recursionLimit)
    (h2 : chordDeviation M x1 y1 x4 y4 x2 y2 > A.colinearityEpsilon)
    (h3 : chordDeviation M x1 y1 x4 y4 x3 y3 > A.colinearityEpsilon)
    (hdist : M.double
        (M.double (chordDeviation M x1 y1 x4 y4 x2 y2 + chordDeviation M x1 y1 x4 y4 x3 y3)
          * M.double (chordDeviation M x1 y1 x4 y4 x2 y2
              + chordDeviation M x1 y1 x4 y4 x3 y3))
      ≤ M.double (A.distanceToleranceSquare * chordLengthSquare M x1 y1 x4 y4))
    (hangle : A.angleTolerance < A.angleEpsilon ∨
      totalAngularChange M x1 y1 x2 y2 x3 y3 x4 y4 < A.angleTolerance) :
    A.recursive M ClipperPoint x1 y1 x2 y2 x3 y3 x4 y4 points level
      = points ++ [ClipperPoint (M.float (M.float (x2 + x3) / 2))
          (M.float (M.float (y2 + y3) / 2))] :=
  (AdaptiveFlattener.recursive_of_return M ClipperPoint A x1 y1 x2 y2 x3 y3 x4 y4 points _
    level (by omega)
    (AdaptiveFlattener.switchCase_regular M ClipperPoint A x1 y1 x2 y2 x3 y3 x4 y4 points
      h2 h3 hdist hangle)).1

/-- Witness for C16 (amended): IEEE arithmetic, `distanceTolerance = 2`,
`angleTolerance = 0 < angleEpsilon`, and the control points `(0,0)`,
`(33554432,1)`, `(3,1)`, `(4,0)`: both computed deviations are 4, the combined
test compares 64 with 64, and the appended point is `(16777218, 1)`, the
`float` result of `(33554432 + 3) / 2`, where the exact midpoint has the
abscissa `16777217.5`. -/
theorem AdaptiveFlattener_recursive_regular_emits_inner_midpoint_witness :
    (0 : Int) ≤ ieeeWideFlattener.recursionLimit ∧
    chordDeviation ieeeMath 0 0 4 0 33554432 1 = 4 ∧
    chordDeviation ieeeMath 0 0 4 0 3 1 = 4 ∧
    ieeeWideFlattener.colinearityEpsilon = 1 / 2 ∧
    ieeeWideFlattener.distanceToleranceSquare = 4 ∧
    chordLengthSquare ieeeMath 0 0 4 0 = 16 ∧
    ieeeWideFlattener.angleTolerance < ieeeWideFlattener.angleEpsilon ∧
    ieeeMath.float (ieeeMath.float (33554432 + 3) / 2) = 16777218 ∧
    ieeeMath.float (ieeeMath.float (1 + 1) / 2) = 1 ∧
    ieeeWideFlattener.recursive ieeeMath Prod.mk 0 0 33554432 1 3 1 4 0 [] 0
      = [] ++ [(ieeeMath.float (ieeeMath.float (33554432 + 3) / 2),
          ieeeMath.float (ieeeMath.float (1 + 1) / 2))] :=
  ⟨by decide,
   by norm_num [chordDeviation, ieeeMath],
   by norm_num [chordDeviation, ieeeMath],
   by norm_num [ieeeWideFlattener, AdaptiveFlattener.new],
   by norm_num [ieeeWideFlattener, AdaptiveFlattener.new, ieeeMath],
   by norm_num [chordLengthSquare, ieeeMath],
   by norm_num [ieeeWideFlattener, AdaptiveFlattener.new],
   by norm_num [ieeeMath],
   by norm_num [ieeeMath],
   AdaptiveFlattener_recursive_regular_emits_inner_midpoint ieeeMath Prod.mk ieeeWideFlattener
     0 0 33554432 1 3 1 4 0 [] 0 (by decide)
     (by norm_num [chordDeviation, ieeeMath, ieeeWideFlattener, AdaptiveFlattener.new])
     (by norm_num [chordDeviation, ieeeMath, ieeeWideFlattener, AdaptiveFlattener.new])
     (by norm_num [chordDeviation, chordLengthSquare, ieeeMath, ieeeWideFlattener,
       AdaptiveFlattener.new])
     (Or.inl (by norm_num [ieeeWideFlattener, AdaptiveFlattener.new]))⟩

/-! ### Fixed-depth flattener: the points written -/

theorem bezier_left (p1 p2 p3 p4 t : ℚ) :
    bezier p1 ((p1 + p2) * (1 / 2)) (((p1 + p2) * (1 / 2) + (p2 + p3) * (1 / 2)) * (1 / 2))
      ((((p1 + p2) * (1 / 2) + (p2 + p3) * (1 / 2)) * (1 / 2)
        + ((p2 + p3) * (1 / 2) + (p3 + p4) * (1 / 2)) * (1 / 2)) * (1 / 2)) t
      = bezier p1 p2 p3 p4 (t / 2) := by
  unfold bezier; ring

theorem bezier_right (p1 p2 p3 p4 t : ℚ) :
    bezier ((((p1 + p2) * (1 / 2) + (p2 + p3) * (1 / 2)) * (1 / 2)
        + ((p2 + p3) * (1 / 2) + (p3 + p4) * (1 / 2)) * (1 / 2)) * (1 / 2))
      (((p2 + p3) * (1 / 2) + (p3 + p4) * (1 / 2)) * (1 / 2)) ((p3 + p4) * (1 / 2)) p4 t
      = bezier p1 p2 p3 p4 ((1 + t) / 2) := by
  unfold bezier; ring

theorem FixedFlattener.flatten_points (sqrt : ℚ → ℚ) (F : FixedFlattener)
    (hoff : F._offset = 0) :
    ∀ (m : Nat) (vertices : Vertices) (index level : Int)
      (x1 y1 x2 y2 x3 y3 x4 y4 : ℚ), F._depth - level = (m : Int) →
      ∀ k : Nat, 1 ≤ k → k ≤ 2 ^ m →
        (F.flatten sqrt vertices index level x1 y1 x2 y2 x3 y3 x4 y4).1.slot
            (index + (k : Int) - 1)
          = ⟨bezier x1 x2 x3 x4 ((k : ℚ) / 2 ^ m), bezier y1 y2 y3 y4 ((k : ℚ) / 2 ^ m)⟩ := by
  intro m
  induction m with
  | zero =>
    intro vertices index level x1 y1 x2 y2 x3 y3 x4 y4 h k hk1 hk2
    have hk : k = 1 := by simp at hk2; omega
    subst hk
    have hl : level ≥ F._depth := by omega
    rw [FixedFlattener.flatten]
    simp only [hl, if_true, hoff, ne_eq, not_true_eq_false, if_false]
    simp [Vertices.assign, bezier]
  | succ m ih =>
    intro vertices index level x1 y1 x2 y2 x3 y3 x4 y4 h k hk1 hk2
    have hl : ¬ level ≥ F._depth := by omega
    rw [FixedFlattener.flatten]
    simp only [hl, if_false]
    have h1 : F._depth - (level + 1) = (m : Int) := by omega
    have hleft := ih vertices index (level + 1) x1 y1
      ((x1 + x2) * (1/2)) ((y1 + y2) * (1/2))
      (((x1 + x2) * (1/2) + (x2 + x3) * (1/2)) * (1/2))
      (((y1 + y2) * (1/2) + (y2 + y3) * (1/2)) * (1/2))
      ((((x1 + x2) * (1/2) + (x2 + x3) * (1/2)) * (1/2)
        + ((x2 + x3) * (1/2) + (x3 + x4) * (1/2)) * (1/2)) * (1/2))
      ((((y1 + y2) * (1/2) + (y2 + y3) * (1/2)) * (1/2)
        + ((y2 + y3) * (1/2) + (y3 + y4) * (1/2)) * (1/2)) * (1/2)) h1
    obtain ⟨a1, -, -⟩ := FixedFlattener.flatten_aux sqrt F m vertices index (level + 1) x1 y1
      ((x1 + x2) * (1/2)) ((y1 + y2) * (1/2))
      (((x1 + x2) * (1/2) + (x2 + x3) * (1/2)) * (1/2))
      (((y1 + y2) * (1/2) + (y2 + y3) * (1/2)) * (1/2))
      ((((x1 + x2) * (1/2) + (x2 + x3) * (1/2)) * (1/2)
        + ((x2 + x3) * (1/2) + (x3 + x4) * (1/2)) * (1/2)) * (1/2))
      ((((y1 + y2) * (1/2) + (y2 + y3) * (1/2)) * (1/2)
        + ((y2 + y3) * (1/2) + (y3 + y4) * (1/2)) * (1/2)) * (1/2)) h1
    generalize F.flatten sqrt vertices index (level + 1) x1 y1
      ((x1 + x2) * (1/2)) ((y1 + y2) * (1/2))
      (((x1 + x2) * (1/2) + (x2 + x3) * (1/2)) * (1/2))
      (((y1 + y2) * (1/2) + (y2 + y3) * (1/2)) * (1/2))
      ((((x1 + x2) * (1/2) + (x2 + x3) * (1/2)) * (1/2)
        + ((x2 + x3) * (1/2) + (x3 + x4) * (1/2)) * (1/2)) * (1/2))
      ((((y1 + y2) * (1/2) + (y2 + y3) * (1/2)) * (1/2)
        + ((y2 + y3) * (1/2) + (y3 + y4) * (1/2)) * (1/2)) * (1/2)) = r1 at a1 hleft ⊢
    have hright := ih r1.1 r1.2 (level + 1)
      ((((x1 + x2) * (1/2) + (x2 + x3) * (1/2)) * (1/2)
        + ((x2 + x3) * (1/2) + (x3 + x4) * (1/2)) * (1/2)) * (1/2))
      ((((y1 + y2) * (1/2) + (y2 + y3) * (1/2)) * (1/2)
        + ((y2 + y3) * (1/2) + (y3 + y4) * (1/2)) * (1/2)) * (1/2))
      (((x2 + x3) * (1/2) + (x3 + x4) * (1/2)) * (1/2))
      (((y2 + y3) * (1/2) + (y3 + y4) * (1/2)) * (1/2))
      ((x3 + x4) * (1/2)) ((y3 + y4) * (1/2)) x4 y4 h1
    obtain ⟨-, -, b3⟩ := FixedFlattener.flatten_aux sqrt F m r1.1 r1.2 (level + 1)
      ((((x1 + x2) * (1/2) + (x2 + x3) * (1/2)) * (1/2)
        + ((x2 + x3) * (1/2) + (x3 + x4) * (1/2)) * (1/2)) * (1/2))
      ((((y1 + y2) * (1/2) + (y2 + y3) * (1/2)) * (1/2)
        + ((y2 + y3) * (1/2) + (y3 + y4) * (1/2)) * (1/2)) * (1/2))
      (((x2 + x3) * (1/2) + (x3 + x4) * (1/2)) * (1/2))
      (((y2 + y3) * (1/2) + (y3 + y4) * (1/2)) * (1/2))
      ((x3 + x4) * (1/2)) ((y3 + y4) * (1/2)) x4 y4 h1
    have hp : (2 : Nat) ^ (m + 1) = 2 ^ m + 2 ^ m := by ring
    have hpq : ((2 : ℚ) ^ (m + 1)) = 2 ^ m * 2 := pow_succ 2 m
    have hpos : (0 : ℚ) < 2 ^ m := by positivity
    by_cases hk : k ≤ 2 ^ m
    · rw [b3 _ (Or.inl (by rw [a1]; omega)), hleft k hk1 hk, bezier_left, bezier_left]
      have : (k : ℚ) / 2 ^ m / 2 = (k : ℚ) / 2 ^ (m + 1) := by
        rw [hpq]; field_simp
      rw [this]
    · have hk' : k - 2 ^ m ≤ 2 ^ m := by omega
      have hidx : index + (k : Int) - 1 = r1.2 + ((k - 2 ^ m : Nat) : Int) - 1 := by
        rw [a1]; omega
      rw [hidx, hright (k - 2 ^ m) (by omega) hk', bezier_right, bezier_right]
      have hcast : ((k - 2 ^ m : Nat) : ℚ) = (k : ℚ) - 2 ^ m := by
        rw [Nat.cast_sub (by omega)]; simp
      have : (1 + ((k - 2 ^ m : Nat) : ℚ) / 2 ^ m) / 2 = (k : ℚ) / 2 ^ (m + 1) := by
        rw [hcast, hpq]; field_simp
      rw [this]

theorem bezier_one (p1 p2 p3 p4 : ℚ) : bezier p1 p2 p3 p4 1 = p4 := by
  unfold bezier; ring

/-- C17. Over exact rational arithmetic and with offset 0, the fixed-depth
per-curve `FixedFlattener::flatten` at depth `d >= 0`, called at level 0,
writes exactly the `2^d` slots from `index` on, and the slot `index + k - 1`
holds, for `k = 1 .. 2^d`, the point of the cubic Bezier curve with control
points `P1 .. P4` at parameter `t = k / 2^d`; every such parameter is positive,
so the start point (`t = 0`) is not among the points written, and the last
point written is `P4`. -/
theorem FixedFlattener_flatten_writes_curve_points (sqrt : ℚ → ℚ) (F : FixedFlattener)
    (vertices : Vertices) (index : Int) (x1 y1 x2 y2 x3 y3 x4 y4 : ℚ)
    (hoff : F._offset = 0) (hd : 0 ≤ F._depth) :
    (F.flatten sqrt vertices index 0 x1 y1 x2 y2 x3 y3 x4 y4).1.written
      = vertices.written ++ slotRange index (2 ^ F._depth.toNat) ∧
    (∀ k : Nat, 1 ≤ k → k ≤ 2 ^ F._depth.toNat →
      (0 : ℚ) < (k : ℚ) / 2 ^ F._depth.toNat ∧
      (F.flatten sqrt vertices index 0 x1 y1 x2 y2 x3 y3 x4 y4).1.slot (index + (k : Int) - 1)
        = ⟨bezier x1 x2 x3 x4 ((k : ℚ) / 2 ^ F._depth.toNat),
            bezier y1 y2 y3 y4 ((k : ℚ) / 2 ^ F._depth.toNat)⟩) ∧
    (F.flatten sqrt vertices index 0 x1 y1 x2 y2 x3 y3 x4 y4).1.slot
        (index + ((2 ^ F._depth.toNat : Nat) : Int) - 1) = ⟨x4, y4⟩ := by
  have h0 : F._depth - 0 = (F._depth.toNat : Int) := by omega
  have hpts := FixedFlattener.flatten_points sqrt F hoff F._depth.toNat vertices index 0
    x1 y1 x2 y2 x3 y3 x4 y4 h0
  refine ⟨(FixedFlattener.flatten_aux sqrt F F._depth.toNat vertices index 0
    x1 y1 x2 y2 x3 y3 x4 y4 h0).2.1, ?_, ?_⟩
  · intro k hk1 hk2
    refine ⟨?_, hpts k hk1 hk2⟩
    have : (0 : ℚ) < (k : ℚ) := by exact_mod_cast hk1
    positivity
  · have hpos : 1 ≤ 2 ^ F._depth.toNat := Nat.one_le_two_pow
    rw [hpts (2 ^ F._depth.toNat) hpos (le_refl _)]
    have : ((2 ^ F._depth.toNat : Nat) : ℚ) / 2 ^ F._depth.toNat = 1 := by
      push_cast
      exact div_self (by positivity)
    rw [this, bezier_one, bezier_one]

/-- Witness for C17: depth 2, offset 0, slots from 5 on. -/
theorem FixedFlattener_flatten_writes_curve_points_witness :
    (⟨2, 0⟩ : FixedFlattener)._offset = 0 ∧ (0 : Int) ≤ (⟨2, 0⟩ : FixedFlattener)._depth ∧
    ((⟨2, 0⟩ : FixedFlattener).flatten (fun q => q) ⟨fun _ => ⟨0, 0⟩, []⟩ 5 0
        0 0 0 1 1 1 1 0).1.slot (5 + ((2 ^ (2 : Int).toNat : Nat) : Int) - 1) = ⟨1, 0⟩ :=
  ⟨rfl, by decide,
    (FixedFlattener_flatten_writes_curve_points (fun q => q) ⟨2, 0⟩
      ⟨fun _ => ⟨0, 0⟩, []⟩ 5 0 0 0 1 1 1 1 0 rfl (by decide)).2.2⟩

/-! ### Triangulation cache: the current index -/

theorem swapAt_length (l : List Ptr) (a b : Nat) : (swapAt l a b).length = l.length :=
  (swapAt_perm l a b).length_eq

theorem TriangleCache.checkAt_frame (cross : ℚ → ℚ → ℚ → ℚ → ℚ → ℚ → ℚ)
    (vertices : Vertices) (c c1 : TriangleCache) (idx : Int) (b : Bool)
    (h : c.checkAt cross vertices idx = some (b, c1)) :
    c1.triangulations = c.triangulations ∧ c1.current = c.current := by
  unfold TriangleCache.checkAt at h
  split at h
  · cases h
  · split at h
    · cases h
    · split at h
      · cases h
      · simp only [Option.some.injEq, Prod.mk.injEq] at h
        obtain ⟨-, rfl⟩ := h
        exact ⟨rfl, rfl⟩

theorem TriangleCache.bumpUseCount_frame (c : TriangleCache) :
    c.bumpUseCount.triangulations = c.triangulations ∧
    c.bumpUseCount.current = c.current := by
  unfold TriangleCache.bumpUseCount
  split <;> exact ⟨rfl, rfl⟩

theorem TriangleCache.swap_frame (c : TriangleCache) (a b : Int) :
    (c.swap a b).triangulations.length = c.triangulations.length ∧
    (c.swap a b).current = c.current := by
  unfold TriangleCache.swap
  split
  · exact ⟨by simp, rfl⟩
  · exact ⟨rfl, rfl⟩

theorem TriangleCache.tryForward_index (cross : ℚ → ℚ → ℚ → ℚ → ℚ → ℚ → ℚ)
    (vertices : Vertices) (c c' : TriangleCache) (n i : Int) (b : Bool)
    (hn : (c.triangulations.length : Int) = n) (h0 : 0 ≤ c.current) (h1 : c.current < n)
    (hi : 1 ≤ i) (h : c.tryForward cross vertices n i = some (b, c')) :
    (c'.triangulations.length : Int) = n ∧ 0 ≤ c'.current ∧ c'.current < n ∧
    (b = false → c'.triangulations = c.triangulations ∧ c'.current = c.current) := by
  unfold TriangleCache.tryForward at h
  split at h
  · rename_i hlt
    simp only at h
    split at h
    · cases h
    · rename_i c1 hc
      obtain ⟨e1, e2⟩ := TriangleCache.checkAt_frame cross vertices c c1 _ _ hc
      simp only [Option.some.injEq, Prod.mk.injEq] at h
      obtain ⟨rfl, rfl⟩ := h
      obtain ⟨b1, b2⟩ := TriangleCache.bumpUseCount_frame
        { c1.swap ((c1.current + 1).tmod n) ((c.current + i).tmod n) with
          current := ((c1.swap ((c1.current + 1).tmod n)
            ((c.current + i).tmod n)).current + 1).tmod n }
      obtain ⟨s1, s2⟩ := TriangleCache.swap_frame c1 ((c1.current + 1).tmod n)
        ((c.current + i).tmod n)
      rw [b1, b2]
      simp only
      rw [s1, s2, e1, e2]
      have hmod : (c.current + 1).tmod n = c.current + 1 :=
        Int.tmod_eq_of_lt (by omega) (by omega)
      rw [hmod]
      exact ⟨hn, by omega, by omega, fun hb => by cases hb⟩
    · rename_i c1 hc
      obtain ⟨e1, e2⟩ := TriangleCache.checkAt_frame cross vertices c c1 _ _ hc
      simp only [Option.some.injEq, Prod.mk.injEq] at h
      obtain ⟨rfl, rfl⟩ := h
      rw [e1, e2]
      exact ⟨hn, h0, h1, fun _ => ⟨rfl, rfl⟩⟩
  · simp only [Option.some.injEq, Prod.mk.injEq] at h
    obtain ⟨rfl, rfl⟩ := h
    exact ⟨hn, h0, h1, fun _ => ⟨rfl, rfl⟩⟩

theorem TriangleCache.tryBackward_index (cross : ℚ → ℚ → ℚ → ℚ → ℚ → ℚ → ℚ)
    (vertices : Vertices) (c c' : TriangleCache) (n i : Int) (b : Bool)
    (hn : (c.triangulations.length : Int) = n) (h0 : 0 ≤ c.current) (h1 : c.current < n)
    (hi : 1 ≤ i) (h : c.tryBackward cross vertices n i = some (b, c')) :
    (c'.triangulations.length : Int) = n ∧ 0 ≤ c'.current ∧ c'.current < n ∧
    (b = false → c'.triangulations = c.triangulations ∧ c'.current = c.current) := by
  unfold TriangleCache.tryBackward at h
  split at h
  · rename_i hge
    simp only at h
    split at h
    · cases h
    · rename_i c1 hc
      obtain ⟨e1, e2⟩ := TriangleCache.checkAt_frame cross vertices c c1 _ _ hc
      simp only [Option.some.injEq, Prod.mk.injEq] at h
      obtain ⟨rfl, rfl⟩ := h
      obtain ⟨b1, b2⟩ := TriangleCache.bumpUseCount_frame
        { c1.swap ((c1.current + n - 1).tmod n) ((c.current + n - i).tmod n) with
          current := ((c1.swap ((c1.current + n - 1).tmod n)
            ((c.current + n - i).tmod n)).current + n - 1).tmod n }
      obtain ⟨s1, s2⟩ := TriangleCache.swap_frame c1 ((c1.current + n - 1).tmod n)
        ((c.current + n - i).tmod n)
      rw [b1, b2]
      simp only
      rw [s1, s2, e1, e2]
      have hmod : (c.current + n - 1).tmod n = c.current - 1 := by
        rw [Int.tmod_eq_emod (by omega) (by omega),
          show c.current + n - 1 = c.current - 1 + n by ring, Int.add_emod_self,
          Int.emod_eq_of_lt (by omega) (by omega)]
      rw [hmod]
      exact ⟨hn, by omega, by omega, fun hb => by cases hb⟩
    · rename_i c1 hc
      obtain ⟨e1, e2⟩ := TriangleCache.checkAt_frame cross vertices c c1 _ _ hc
      simp only [Option.some.injEq, Prod.mk.injEq] at h
      obtain ⟨rfl, rfl⟩ := h
      rw [e1, e2]
      exact ⟨hn, h0, h1, fun _ => ⟨rfl, rfl⟩⟩
  · simp only [Option.some.injEq, Prod.mk.injEq] at h
    obtain ⟨rfl, rfl⟩ := h
    exact ⟨hn, h0, h1, fun _ => ⟨rfl, rfl⟩⟩

theorem TriangleCache.search_index (cross : ℚ → ℚ → ℚ → ℚ → ℚ → ℚ → ℚ)
    (vertices : Vertices) (n k : Int) (tc : Bool) :
    ∀ (m : Nat) (i : Int) (c : TriangleCache) (r : Bool × TriangleCache × Bool),
      (k + 1 - i).toNat = m → 1 ≤ i →
      (c.triangulations.length : Int) = n → 0 ≤ c.current → c.current < n →
      TriangleCache.search cross vertices n k c tc i = some r →
      (r.2.1.triangulations.length : Int) = n ∧ 0 ≤ r.2.1.current ∧ r.2.1.current < n := by
  intro m
  induction m with
  | zero =>
    intro i c r hm hi hn h0 h1 h
    rw [TriangleCache.search, if_neg (by omega)] at h
    simp only [Option.some.injEq] at h
    subst h
    exact ⟨hn, h0, h1⟩
  | succ m ih =>
    intro i c r hm hi hn h0 h1 h
    rw [TriangleCache.search, if_pos (by omega)] at h
    cases hf : c.tryForward cross vertices n i with
    | none => rw [hf] at h; cases h
    | some rf =>
      obtain ⟨bf, cf⟩ := rf
      obtain ⟨f1, f2, f3, -⟩ :=
        TriangleCache.tryForward_index cross vertices c cf n i bf hn h0 h1 hi hf
      rw [hf] at h
      cases bf with
      | true =>
        simp only [Option.some.injEq] at h
        subst h
        exact ⟨f1, f2, f3⟩
      | false =>
        simp only at h
        cases hb : cf.tryBackward cross vertices n i with
        | none => rw [hb] at h; cases h
        | some rb =>
          obtain ⟨bb, cb⟩ := rb
          obtain ⟨g1, g2, g3, -⟩ :=
            TriangleCache.tryBackward_index cross vertices cf cb n i bb f1 f2 f3 hi hb
          rw [hb] at h
          cases bb with
          | true =>
            simp only [Option.some.injEq] at h
            subst h
            exact ⟨g1, g2, g3⟩
          | false =>
            simp only at h
            exact ih (i + 1) cb r (by omega) (by omega) g1 g2 g3 h

theorem TriangleCache.check_index (cross : ℚ → ℚ → ℚ → ℚ → ℚ → ℚ → ℚ)
    (vertices : Vertices) (c : TriangleCache) (tc : Bool)
    (h0 : 0 ≤ c.current) (h1 : c.current < (c.triangulations.length : Int))
    (r : Bool × TriangleCache × Bool) (h : c.check cross vertices tc = some r) :
    r.2.1.triangulations.length = c.triangulations.length ∧
    0 ≤ r.2.1.current ∧ r.2.1.current < (r.2.1.triangulations.length : Int) := by
  unfold TriangleCache.check at h
  simp only at h
  rw [if_neg (by omega), if_neg (by omega)] at h
  cases hc : c.checkAt cross vertices c.current with
  | none => rw [hc] at h; cases h
  | some rc =>
    obtain ⟨b, c1⟩ := rc
    obtain ⟨e1, e2⟩ := TriangleCache.checkAt_frame cross vertices c c1 _ _ hc
    rw [hc] at h
    cases b with
    | true =>
      simp only [Option.some.injEq] at h
      subst h
      obtain ⟨b1, b2⟩ := TriangleCache.bumpUseCount_frame c1
      simp only
      rw [b1, b2, e1, e2]
      exact ⟨rfl, h0, h1⟩
    | false =>
      simp only at h
      obtain ⟨g1, g2, g3⟩ := TriangleCache.search_index cross vertices _ _ tc _ 1 c1 r rfl
        (le_refl _) (by rw [e1]) (by rw [e2]; exact h0) (by rw [e2]; exact h1) h
      refine ⟨by omega, g2, by omega⟩

theorem threeCache_WF : threeCache.WF := by
  refine ⟨by simp [threeCache], ?_⟩
  intro p _ part hpart
  simp [threeCache, emptyPartition] at hpart

/-- C19. The cache index invariant `0 <= current < n` is preserved: if it
holds before `TriangleCache::check`, then whatever `check` returns, the cache
it leaves has the same number of entries and satisfies the invariant again (and
on a cache of distinct entries with well-formed partitions `check` does return:
no assertion fails); if it holds before `TriangleCache::evict` and at least one
entry remains afterwards, it holds after `evict`; and when `evict` removes the
only entry, `current` becomes `-1`. -/
theorem TriangleCache_current_index_invariant (cross : ℚ → ℚ → ℚ → ℚ → ℚ → ℚ → ℚ)
    (vertices : Vertices) (c : TriangleCache) (tc : Bool)
    (h0 : 0 ≤ c.current) (h1 : c.current < (c.triangulations.length : Int)) :
    (∀ b c' tc', c.check cross vertices tc = some (b, c', tc') →
      c'.triangulations.length = c.triangulations.length ∧
      0 ≤ c'.current ∧ c'.current < (c'.triangulations.length : Int)) ∧
    (c.WF → ∃ b c' tc', c.check cross vertices tc = some (b, c', tc')) ∧
    (c.evict.triangulations ≠ [] →
      0 ≤ c.evict.current ∧ c.evict.current < (c.evict.triangulations.length : Int)) ∧
    (c.evict.triangulations = [] → c.evict.current = -1) := by
  refine ⟨?_, ?_, ?_, ?_⟩
  · intro b c' tc' e
    exact TriangleCache.check_index cross vertices c tc h0 h1 _ e
  · intro hwf
    obtain ⟨cur, hc⟩ := Int.eq_ofNat_of_zero_le h0
    have hlt : cur < c.triangulations.length := by omega
    obtain ⟨r, er, -⟩ := TriangleCache.check_spec cross vertices c hwf cur hc hlt tc
    exact ⟨r.1, r.2.1, r.2.2, er⟩
  · intro hne
    rcases TriangleCache.evict_cases c with ⟨e, -⟩ | ⟨j, hj, e, -⟩
    · rw [e]; exact ⟨h0, h1⟩
    · rw [e] at hne ⊢
      simp only at hne ⊢
      have hlen : 0 < (c.triangulations.eraseIdx j).length :=
        List.length_pos.mpr hne
      omega
  · intro hnil
    rcases TriangleCache.evict_cases c with ⟨e, -⟩ | ⟨j, hj, e, -⟩
    · rw [e] at hnil
      rw [hnil] at h1
      simp at h1
      omega
    · rw [e] at hnil ⊢
      simp only at hnil ⊢
      rw [hnil]
      simp only [List.length_nil, Nat.cast_zero, zero_sub]
      omega

/-- Witness for C19: the three-entry cache with current index 1, on which
`check` returns and `evict` leaves two entries. -/
theorem TriangleCache_current_index_invariant_witness :
    (0 : Int) ≤ threeCache.current ∧
    threeCache.current < (threeCache.triangulations.length : Int) ∧
    (∃ b c' tc', threeCache.check signedArea cornerVertices false = some (b, c', tc') ∧
      c'.triangulations.length = threeCache.triangulations.length ∧
      0 ≤ c'.current ∧ c'.current < (c'.triangulations.length : Int)) ∧
    (threeCache.evict.triangulations ≠ [] →
      0 ≤ threeCache.evict.current ∧
      threeCache.evict.current < (threeCache.evict.triangulations.length : Int)) :=
  ⟨by decide, by decide,
    ((TriangleCache_current_index_invariant signedArea cornerVertices threeCache false
      (by decide) (by decide)).2.1 threeCache_WF).imp fun b h => h.imp fun c' h' =>
        h'.imp fun tc' e =>
          ⟨e, (TriangleCache_current_index_invariant signedArea cornerVertices threeCache
            false (by decide) (by decide)).1 b c' tc' e⟩,
    (TriangleCache_current_index_invariant signedArea cornerVertices threeCache false
      (by decide) (by decide)).2.2.1⟩

/-- C20, counterexample. Three entries with use counters 0, 5, 5 and current
index 1: `evict` removes the entry at index 0, which is not the current one,
and afterwards the current index, still 1, designates the entry that was at
index 2, not the entry it designated before. -/
theorem TriangleCache_evict_before_current_shifts_entry :
    threeCache.triangulations[threeCache.current.toNat]? = some 1 ∧
    threeCache.evict.triangulations = [1, 2] ∧
    threeCache.evict.current = 1 ∧
    threeCache.evict.triangulations[threeCache.evict.current.toNat]? = some 2 := by
  have e : threeCache.evict = ⟨[1, 2], 1, threeCache.heap⟩ := by
    simp [TriangleCache.evict, TriangleCache.evictLoop, threeCache, UINT64_MAX]
  rw [e]
  exact ⟨rfl, rfl, rfl, rfl⟩

/-- C20, amended. For every cache state with `0 <= current < n`, `evict`
either removes nothing or erases one index `j`; when `j` is not the current
index, the current index afterwards designates the same entry as before if `j`
is behind the current index or the current index was the last one, and
otherwise (`j` before a current index that is not the last) it keeps its value
and designates the entry that followed the former current entry. -/
theorem TriangleCache_evict_current_entry (c : TriangleCache) (cur : Nat)
    (hcur : c.current = (cur : Int)) (hlt : cur < c.triangulations.length) :
    c.evict = c ∨
    ∃ j, j < c.triangulations.length ∧
      c.evict.triangulations = c.triangulations.eraseIdx j ∧
      (j ≠ cur →
        ((cur < j ∨ cur + 1 = c.triangulations.length) →
          c.evict.triangulations[c.evict.current.toNat]? = c.triangulations[cur]?) ∧
        ((j < cur ∧ cur + 1 < c.triangulations.length) →
          c.evict.current = c.current ∧
          c.evict.triangulations[c.evict.current.toNat]? = c.triangulations[cur + 1]?)) := by
  rcases TriangleCache.evict_cases c with ⟨e, -⟩ | ⟨j, hj, e, -⟩
  · left; exact e
  · right
    refine ⟨j, hj, by rw [e], ?_⟩
    intro hne
    rw [e]
    simp only
    have hlen : (c.triangulations.eraseIdx j).length = c.triangulations.length - 1 := by
      rw [List.length_eraseIdx]; simp [hj]
    rw [hlen, hcur]
    constructor
    · rintro (h | h)
      · have hmin : (min (cur : Int) (((c.triangulations.length - 1 : Nat) : Int) - 1)).toNat
            = cur := by omega
        rw [hmin, List.getElem?_eraseIdx_of_lt _ _ _ h]
      · have hmin : (min (cur : Int) (((c.triangulations.length - 1 : Nat) : Int) - 1)).toNat
            = cur - 1 := by omega
        have hjc : j < cur := by omega
        rw [hmin, List.getElem?_eraseIdx_of_ge _ _ _ (by omega)]
        congr 1; omega
    · rintro ⟨h, h'⟩
      have hmin : min (cur : Int) (((c.triangulations.length - 1 : Nat) : Int) - 1)
          = (cur : Int) := by omega
      rw [hmin]
      refine ⟨rfl, ?_⟩
      rw [Int.toNat_ofNat, List.getElem?_eraseIdx_of_ge _ _ _ (by omega)]

/-- Witness for C20 (amended): the three-entry cache with current index 1. -/
theorem TriangleCache_evict_current_entry_witness :
    threeCache.current = ((1 : Nat) : Int) ∧ 1 < threeCache.triangulations.length ∧
    (threeCache.evict = threeCache ∨
    ∃ j, j < threeCache.triangulations.length ∧
      threeCache.evict.triangulations = threeCache.triangulations.eraseIdx j ∧
      (j ≠ 1 →
        ((1 < j ∨ 1 + 1 = threeCache.triangulations.length) →
          threeCache.evict.triangulations[threeCache.evict.current.toNat]?
            = threeCache.triangulations[1]?) ∧
        ((j < 1 ∧ 1 + 1 < threeCache.triangulations.length) →
          threeCache.evict.current = threeCache.current ∧
          threeCache.evict.triangulations[threeCache.evict.current.toNat]?
            = threeCache.triangulations[1 + 1]?))) :=
  ⟨rfl, by decide, TriangleCache_evict_current_entry threeCache 1 rfl (by decide)⟩

end Tove
